import Mathlib

/-!
# binarypack: a format-token driven binary codec

A shallow embedding of `library/binarypack/bp.go` (package `binarypack`) and of the
padding helpers of `library/crypto/des.go` (package `crypto`), followed by theorems
about `Pack`, `UnPack`, `CalcSize` and the padding helpers.

Modelling conventions

* A Go `string` value and a `[]byte` are lists of bytes, `List Nat`, each byte a number
  below 256.  Format tokens, which the code only compares with literals, scans for the
  character `s` and hands to `strconv.Atoi`, are Lean strings.
* Go `int` and `int64` are `Int` with explicit 64-bit wrap-around (`wrapInt`) wherever
  the code does arithmetic that can overflow.
* A `float32` / `float64` is represented by its IEEE-754 bit pattern, since the code
  only moves the bits (`binary.Write` / `binary.Read`).
* A call returning `(res, err)` yields `Outcome.ret res err`; a run-time panic (index
  or slice bounds out of range) yields `Outcome.panic`.
* A `[]byte` buffer has capacity equal to its length, so slicing past its length
  panics.
* The runtime refuses an allocation of more than `maxAlloc` bytes with a panic; `Pack`
  meets that limit where it builds a string field of the declared length.  Within the
  limit an allocation is taken to succeed: a machine that runs out of memory stops the
  process, which no result of `Pack` reflects.  Theorems about the result of `Pack`
  therefore take a run that returns as their hypothesis.  The padding helpers of package
  `crypto` are called with the block size of a cipher; their `bytes.Repeat` is modelled
  without the limit.
-/

namespace BinaryPack

/-! ## Data model -/

/-- The two values of `binary.ByteOrder` the code uses. -/
inductive ByteOrder where
  | LittleEndian
  | BigEndian
  deriving DecidableEq, Repr

/-- A Go `interface{}` value as the callers and tests of `Pack` supply it: the five
dynamic types `Pack` accepts, and other dynamic types it has to reject. -/
inductive Value where
  | bool (x : Bool)
  | int64 (n : Int)
  | float32 (bits : Nat)
  | float64 (bits : Nat)
  | string (s : List Nat)
  | int8 (n : Int)
  | int32 (n : Int)
  | int (n : Int)
  | nil
  deriving DecidableEq, Repr

/-- The four error messages of the package.
* `formatTooLong`: "Format is longer than values to binarypack"
* `typeMismatch f k`: "Type of passed value doesn't match to expected 'f' (k)"
* `unexpectedToken f`: "Unexpected format token: 'f'"
* `sizeTooBig`: "Expected size is bigger than actual size of message" -/
inductive Error where
  | formatTooLong
  | typeMismatch (f : String) (expected : String)
  | unexpectedToken (f : String)
  | sizeTooBig
  deriving DecidableEq, Repr

/-- Result of a call with signature `(res, err)`: the returned pair, or a panic. -/
inductive Outcome (α : Type) where
  | ret (res : α) (err : Option Error)
  | panic
  deriving DecidableEq, Repr

/-! ## Machine integers -/

/-- Wrap-around of Go's 64-bit signed `int` arithmetic. -/
def wrapInt (x : Int) : Int := (x + 2 ^ 63) % 2 ^ 64 - 2 ^ 63

/-- Conversion `uint64(n)` of a signed value: its two's-complement bit pattern. -/
def toUint64 (n : Int) : Nat := (n % 2 ^ 64).toNat

/-- Conversion of a `bits`-wide unsigned pattern to the signed type of that width. -/
def toSigned (bits : Nat) (u : Nat) : Int :=
  if u % 2 ^ bits < 2 ^ (bits - 1) then (u % 2 ^ bits : Nat)
  else ((u % 2 ^ bits : Nat) : Int) - 2 ^ bits

/-! ## Library functions the package calls -/

/-- The value `strconv.ParseUint(s, 10, 64)` reports: digits are accumulated left to
right; a byte that is not a decimal digit is a syntax error with value 0, an overflow
of 64 bits is a range error with value `2^64 - 1`.  The flag tells a range error
(`true`) from a syntax error (`false`). -/
def parseUintLoop : Nat → List Char → Nat × Option Bool
  | n, [] => (n, none)
  | n, c :: cs =>
    if 48 ≤ c.toNat ∧ c.toNat ≤ 57 then
      if n ≥ (2 ^ 64 - 1) / 10 + 1 then (2 ^ 64 - 1, some true)
      else if n * 10 + (c.toNat - 48) ≥ 2 ^ 64 then (2 ^ 64 - 1, some true)
      else parseUintLoop (n * 10 + (c.toNat - 48)) cs
    else (0, some false)

/-- Model of `strconv.ParseUint(s, 10, 64)`. -/
def ParseUint (s : List Char) : Nat × Option Bool :=
  if s = [] then (0, some false) else parseUintLoop 0 s

/-- Model of `strconv.ParseInt(s, 10, 0)` on a 64-bit platform, value part: an optional
sign, then `ParseUint`; a syntax error gives 0, a value out of range is clamped to
`2^63 - 1` or `-2^63`. -/
def ParseInt (s : List Char) : Int :=
  match s with
  | [] => 0
  | c :: cs =>
    let neg := c = '-'
    let digits := if c = '+' ∨ c = '-' then cs else s
    match ParseUint digits with
    | (_, some false) => 0
    | (un, _) =>
      if ¬ neg ∧ un ≥ 2 ^ 63 then 2 ^ 63 - 1
      else if neg ∧ un > 2 ^ 63 then -(2 ^ 63)
      else if neg then wrapInt (-(toSigned 64 un)) else toSigned 64 un

/-- Model of `strconv.Atoi`, value part ("Atoi is equivalent to ParseInt(s, 10, 0),
converted to type int"); the package discards the error. -/
def Atoi (s : List Char) : Int := ParseInt s

/-- The call `strings.TrimRight(s, c)` for a one-character cutset. -/
def TrimRight {α : Type} [DecidableEq α] (s : List α) (c : α) : List α :=
  (s.reverse.dropWhile (fun x => x = c)).reverse

/-- The call `strings.Contains(f, "s")`. -/
def containsS (f : String) : Bool := f.toList.contains 's'

/-- The expression `strconv.Atoi(strings.TrimRight(f, "s"))` with the error dropped. -/
def declaredLen (f : String) : Int := Atoi (TrimRight f.toList 's')

/-- The rune `utf8.RuneError`. -/
def RuneError : Nat := 0xFFFD

/-- Lower bound of the second byte of an encoding that starts with `s0` (table
`acceptRanges` of package `utf8`). -/
def acceptLo (s0 : Nat) : Nat := if s0 = 0xE0 then 0xA0 else if s0 = 0xF0 then 0x90 else 0x80

/-- Upper bound of the second byte of an encoding that starts with `s0`. -/
def acceptHi (s0 : Nat) : Nat := if s0 = 0xED then 0x9F else if s0 = 0xF4 then 0x8F else 0xBF

/-- Model of `utf8.DecodeRuneInString`: the first rune of `s` and its width in bytes.
An invalid or short encoding gives `(RuneError, 1)`. -/
def DecodeRune (s : List Nat) : Nat × Nat :=
  match s with
  | [] => (RuneError, 0)
  | s0 :: t =>
    if s0 < 0x80 then (s0, 1)
    else if s0 < 0xC2 ∨ 0xF4 < s0 then (RuneError, 1)
    else
      match t with
      | [] => (RuneError, 1)
      | s1 :: t1 =>
        if s1 < acceptLo s0 ∨ acceptHi s0 < s1 then (RuneError, 1)
        else if s0 < 0xE0 then (s0 % 32 * 64 + s1 % 64, 2)
        else
          match t1 with
          | [] => (RuneError, 1)
          | s2 :: t2 =>
            if s2 < 0x80 ∨ 0xBF < s2 then (RuneError, 1)
            else if s0 < 0xF0 then (s0 % 16 * 4096 + s1 % 64 * 64 + s2 % 64, 3)
            else
              match t2 with
              | [] => (RuneError, 1)
              | s3 :: _ =>
                if s3 < 0x80 ∨ 0xBF < s3 then (RuneError, 1)
                else (s0 % 8 * 262144 + s1 % 64 * 4096 + s2 % 64 * 64 + s3 % 64, 4)

/-- The runes a `for _, c := range s` loop visits; `fuel` bounds the number of
iterations (every iteration consumes at least one byte). -/
def runesFuel : Nat → List Nat → List Nat
  | 0, _ => []
  | _ + 1, [] => []
  | fuel + 1, s0 :: t =>
    (DecodeRune (s0 :: t)).1 :: runesFuel fuel ((s0 :: t).drop (DecodeRune (s0 :: t)).2)

/-- The runes of a string, in order. -/
def runes (s : List Nat) : List Nat := runesFuel s.length s

/-- Model of `utf8.EncodeRune` / the conversion `string(rune)`: surrogates and values
above `0x10FFFF` are encoded as `RuneError`. -/
def EncodeRune (r : Nat) : List Nat :=
  if r < 0x80 then [r]
  else if r < 0x800 then [0xC0 + r / 64, 0x80 + r % 64]
  else if (0xD800 ≤ r ∧ r < 0xE000) ∨ 0x10FFFF < r then [0xEF, 0xBF, 0xBD]
  else if r < 0x10000 then [0xE0 + r / 4096, 0x80 + r / 64 % 64, 0x80 + r % 64]
  else [0xF0 + r / 262144, 0x80 + r / 4096 % 64, 0x80 + r / 64 % 64, 0x80 + r % 64]

/-- The conversion `string(cs)` of a rune slice. -/
def encodeRunes (cs : List Nat) : List Nat := cs.flatMap EncodeRune

/-- Model of `binary.ByteOrder.PutUint64`, as `binary.Write` uses it for an `int64`
or a `float64`. -/
def putUint64 (order : ByteOrder) (v : Nat) : List Nat :=
  match order with
  | .LittleEndian =>
    [v % 256, v / 2 ^ 8 % 256, v / 2 ^ 16 % 256, v / 2 ^ 24 % 256,
     v / 2 ^ 32 % 256, v / 2 ^ 40 % 256, v / 2 ^ 48 % 256, v / 2 ^ 56 % 256]
  | .BigEndian =>
    [v / 2 ^ 56 % 256, v / 2 ^ 48 % 256, v / 2 ^ 40 % 256, v / 2 ^ 32 % 256,
     v / 2 ^ 24 % 256, v / 2 ^ 16 % 256, v / 2 ^ 8 % 256, v % 256]

/-- Model of `binary.ByteOrder.PutUint32`, as `binary.Write` uses it for a `float32`. -/
def putUint32 (order : ByteOrder) (v : Nat) : List Nat :=
  match order with
  | .LittleEndian => [v % 256, v / 2 ^ 8 % 256, v / 2 ^ 16 % 256, v / 2 ^ 24 % 256]
  | .BigEndian => [v / 2 ^ 24 % 256, v / 2 ^ 16 % 256, v / 2 ^ 8 % 256, v % 256]

/-- Model of `binary.ByteOrder.Uint16` / `Uint32` / `Uint64`: the unsigned number a
byte list denotes in the given order. -/
def getUint (order : ByteOrder) (b : List Nat) : Nat :=
  match order with
  | .LittleEndian => b.foldr (fun x acc => x % 256 + 256 * acc) 0
  | .BigEndian => b.foldl (fun acc x => 256 * acc + x % 256) 0

/-! ## The package `binarypack` -/

/-- Source `int64ToBytes`: `binary.Write` of the 64-bit value, then the last `size`
bytes (big-endian) or the first `size` bytes (little-endian). -/
def int64ToBytes (n : Int) (size : Nat) (order : ByteOrder) : List Nat :=
  if order = .BigEndian then (putUint64 order (toUint64 n)).drop (8 - size)
  else (putUint64 order (toUint64 n)).take size

/-- Source `boolToBytes`. -/
def boolToBytes (x : Bool) (order : ByteOrder) : List Nat :=
  if x then int64ToBytes 1 1 order else int64ToBytes 0 1 order

/-- Source `bytesToInt64`: the switch on `len(b)`; in the default case `binary.Read`
needs 8 bytes and leaves `x` zero when there are fewer. -/
def bytesToInt64 (b : List Nat) (order : ByteOrder) : Int :=
  if b.length = 1 then toSigned 8 (getUint order b)
  else if b.length = 2 then toSigned 16 (getUint order b)
  else if b.length = 4 then toSigned 32 (getUint order b)
  else if b.length < 8 then 0
  else toSigned 64 (getUint order (b.take 8))

/-- Source `bytesToBool`. -/
def bytesToBool (b : List Nat) (order : ByteOrder) : Bool :=
  decide (bytesToInt64 b order > 0)

/-- Source `float32ToBytes`, on the bit pattern of the value. -/
def float32ToBytes (bits : Nat) (size : Nat) (order : ByteOrder) : List Nat :=
  if order = .BigEndian then (putUint32 order (bits % 2 ^ 32)).drop (4 - size)
  else (putUint32 order (bits % 2 ^ 32)).take size

/-- Source `bytesToFloat32`, giving the bit pattern; `binary.Read` needs 4 bytes and
leaves `x` zero when there are fewer. -/
def bytesToFloat32 (b : List Nat) (order : ByteOrder) : Nat :=
  if b.length < 4 then 0 else getUint order (b.take 4)

/-- Source `float64ToBytes`, on the bit pattern of the value. -/
def float64ToBytes (bits : Nat) (size : Nat) (order : ByteOrder) : List Nat :=
  if order = .BigEndian then (putUint64 order (bits % 2 ^ 64)).drop (8 - size)
  else (putUint64 order (bits % 2 ^ 64)).take size

/-- Source `bytesToFloat64`, giving the bit pattern. -/
def bytesToFloat64 (b : List Nat) (order : ByteOrder) : Nat :=
  if b.length < 8 then 0 else getUint order (b.take 8)

/-- Source `reverse`: a rune slice of `utf8.RuneCountInString(s)` entries is filled from
its end with the runes of `s`, then converted back to a string. -/
def reverse (s : List Nat) : List Nat := encodeRunes (runes s).reverse

/-- Source `formatLen`. -/
def formatLen : List String → Nat
  | [] => 0
  | f :: fs =>
    if f = "@" ∨ f = "=" ∨ f = "<" ∨ f = ">" ∨ f = "!" then 0 + formatLen fs
    else 1 + formatLen fs

/-- The loop of source `CalcSize`, `size` being the running total. -/
def CalcSizeLoop : List String → Int → Int × Option Error
  | [], size => (size, none)
  | f :: fs, size =>
    if f = "<" ∨ f = ">" ∨ f = "!" then CalcSizeLoop fs (wrapInt (size + 0))
    else if f = "?" then CalcSizeLoop fs (wrapInt (size + 1))
    else if f = "h" ∨ f = "H" then CalcSizeLoop fs (wrapInt (size + 2))
    else if f = "i" ∨ f = "I" ∨ f = "l" ∨ f = "L" ∨ f = "f" then
      CalcSizeLoop fs (wrapInt (size + 4))
    else if f = "q" ∨ f = "Q" ∨ f = "d" then CalcSizeLoop fs (wrapInt (size + 8))
    else if containsS f then CalcSizeLoop fs (wrapInt (size + declaredLen f))
    else (0, some (.unexpectedToken f))

/-- Source `CalcSize`. -/
def CalcSize (format : List String) : Int × Option Error := CalcSizeLoop format 0

/-- The constant `maxAlloc` of the Go runtime on 64-bit platforms (`1 << 48`): the largest
number of bytes a single allocation may have.  `strings.Repeat` (through
`strings.Builder.Grow`) and `append` (through `growslice`) panic with `len out of range`
when asked for more. -/
def maxAlloc : Nat := 2 ^ 48

/-- The expression `msg[i]` of `Pack`: `none` stands for the index-out-of-range panic. -/
def index (msg : List Value) (i : Int) : Option Value :=
  if i < 0 then none else msg.get? i.toNat

/-- The loop of source `Pack`: `order`, `i` and `res` are the loop's variables.  In the
string branch the field of `n` bytes is built by `strings.Repeat` and `fmt.Sprintf`; a
negative bound of the slice expression `casted_value[:n-size]` panics, and so does a field
of more than `maxAlloc` bytes, which the runtime refuses to allocate. -/
def PackLoop (msg : List Value) : List String → ByteOrder → Int → List Nat → Outcome (List Nat)
  | [], _, _, res => .ret res none
  | f :: fs, order, i, res =>
    if f = "<" then PackLoop msg fs .LittleEndian (i - 1 + 1) res
    else if f = ">" ∨ f = "!" then PackLoop msg fs .BigEndian (i - 1 + 1) res
    else if f = "?" then
      match index msg i with
      | none => .panic
      | some (.bool x) => PackLoop msg fs order (i + 1) (res ++ boolToBytes x order)
      | some _ => .ret res (some (.typeMismatch f "bool"))
    else if f = "h" ∨ f = "H" then
      match index msg i with
      | none => .panic
      | some (.int64 n) => PackLoop msg fs order (i + 1) (res ++ int64ToBytes n 2 order)
      | some _ => .ret res (some (.typeMismatch f "int64, 2 bytes"))
    else if f = "i" ∨ f = "I" ∨ f = "l" ∨ f = "L" then
      match index msg i with
      | none => .panic
      | some (.int64 n) => PackLoop msg fs order (i + 1) (res ++ int64ToBytes n 4 order)
      | some _ => .ret res (some (.typeMismatch f "int64, 4 bytes"))
    else if f = "q" ∨ f = "Q" then
      match index msg i with
      | none => .panic
      | some (.int64 n) => PackLoop msg fs order (i + 1) (res ++ int64ToBytes n 8 order)
      | some _ => .ret res (some (.typeMismatch f "int64, 8 bytes"))
    else if f = "f" then
      match index msg i with
      | none => .panic
      | some (.float32 n) => PackLoop msg fs order (i + 1) (res ++ float32ToBytes n 4 order)
      | some _ => .ret res (some (.typeMismatch f "float32"))
    else if f = "d" then
      match index msg i with
      | none => .panic
      | some (.float64 n) => PackLoop msg fs order (i + 1) (res ++ float64ToBytes n 8 order)
      | some _ => .ret res (some (.typeMismatch f "float64"))
    else if containsS f then
      match index msg i with
      | none => .panic
      | some (.string s) =>
        let n := declaredLen f
        let l : Int := s.length
        let size : Int := if n > l then n - l else 0
        if n - size < 0 ∨ n - size > l then .panic
        else if n > (maxAlloc : Int) then .panic
        else if order = .BigEndian then
          PackLoop msg fs order (i + 1)
            (res ++ (List.replicate size.toNat 0 ++ reverse (s.take (n - size).toNat)))
        else
          PackLoop msg fs order (i + 1)
            (res ++ (s.take (n - size).toNat ++ List.replicate size.toNat 0))
      | some _ => .ret res (some (.typeMismatch f "string"))
    else .ret res (some (.unexpectedToken f))

/-- Source `Pack`. -/
def Pack (format : List String) (msg : List Value) : Outcome (List Nat) :=
  if formatLen format > msg.length then .ret [] (some .formatTooLong)
  else PackLoop msg format .LittleEndian 0 []

/-- The loop of source `UnPack`: `order`, `msg` and `res` are the loop's variables.
A slice expression `msg[:k]` panics when `k` exceeds the length of `msg`. -/
def UnPackLoop : List String → ByteOrder → List Nat → List Value → Outcome (List Value)
  | [], _, _, res => .ret res none
  | f :: fs, order, msg, res =>
    if f = "<" then UnPackLoop fs .LittleEndian msg res
    else if f = ">" ∨ f = "!" then UnPackLoop fs .BigEndian msg res
    else if f = "?" then
      if msg.length < 1 then .panic
      else UnPackLoop fs order (msg.drop 1) (res ++ [.bool (bytesToBool (msg.take 1) order)])
    else if f = "h" ∨ f = "H" then
      if msg.length < 2 then .panic
      else UnPackLoop fs order (msg.drop 2) (res ++ [.int64 (bytesToInt64 (msg.take 2) order)])
    else if f = "i" ∨ f = "I" ∨ f = "l" ∨ f = "L" then
      if msg.length < 4 then .panic
      else UnPackLoop fs order (msg.drop 4) (res ++ [.int64 (bytesToInt64 (msg.take 4) order)])
    else if f = "q" ∨ f = "Q" then
      if msg.length < 8 then .panic
      else UnPackLoop fs order (msg.drop 8) (res ++ [.int64 (bytesToInt64 (msg.take 8) order)])
    else if f = "f" then
      if msg.length < 4 then .panic
      else UnPackLoop fs order (msg.drop 4) (res ++ [.float32 (bytesToFloat32 (msg.take 4) order)])
    else if f = "d" then
      if msg.length < 8 then .panic
      else UnPackLoop fs order (msg.drop 8) (res ++ [.float64 (bytesToFloat64 (msg.take 8) order)])
    else if containsS f then
      let n := declaredLen f
      if n < 0 ∨ n > msg.length then .panic
      else if order = .BigEndian then
        UnPackLoop fs order (msg.drop n.toNat)
          (res ++ [.string (TrimRight (reverse (msg.take n.toNat)) 0)])
      else
        UnPackLoop fs order (msg.drop n.toNat)
          (res ++ [.string (TrimRight (msg.take n.toNat) 0)])
    else .ret [] (some (.unexpectedToken f))

/-- Source `UnPack`. -/
def UnPack (format : List String) (msg : List Nat) : Outcome (List Value) :=
  match CalcSize format with
  | (_, some err) => .ret [] (some err)
  | (expected_size, none) =>
    if expected_size > msg.length then .ret [] (some .sizeTooBig)
    else UnPackLoop format .LittleEndian msg []

/-! ## Token classes and list-consuming views of the two loops

The three switches of the package recognise the same tokens.  `tokOf` names the
classes once; `packView` and `unpackView` restate the loops without accumulators, so
that the later proofs are inductions over the format alone.  Both are proved equal
to the loops of the source. -/

/-- The classes of tokens the switches of `Pack` and `UnPack` distinguish. -/
inductive Tok where
  | little
  | big
  | bool
  | int (w : Nat)
  | f32
  | f64
  | str
  | bad
  deriving DecidableEq, Repr

/-- The class of a token, in the order of the `case` clauses. -/
def tokOf (f : String) : Tok :=
  if f = "<" then .little
  else if f = ">" ∨ f = "!" then .big
  else if f = "?" then .bool
  else if f = "h" ∨ f = "H" then .int 2
  else if f = "i" ∨ f = "I" ∨ f = "l" ∨ f = "L" then .int 4
  else if f = "q" ∨ f = "Q" then .int 8
  else if f = "f" then .f32
  else if f = "d" then .f64
  else if containsS f then .str
  else .bad

/-- The kind named in the type-mismatch message of an integer token. -/
def intKind (w : Nat) : String :=
  if w = 2 then "int64, 2 bytes" else if w = 4 then "int64, 4 bytes" else "int64, 8 bytes"

/-- Put already produced output in front of the result of the rest of a loop. -/
def Outcome.prepend {α : Type} (p : List α) : Outcome (List α) → Outcome (List α)
  | .ret r e => .ret (p ++ r) e
  | .panic => .panic

/-- The field of `n` bytes the string branch of `Pack` builds from a string `s`; `none`
is the slice-bounds panic. -/
def packField (order : ByteOrder) (n : Int) (s : List Nat) : Option (List Nat) :=
  if n - (if n > (s.length : Int) then n - s.length else 0) < 0
      ∨ n - (if n > (s.length : Int) then n - s.length else 0) > s.length then none
  else if order = .BigEndian then
    some (List.replicate (if n > (s.length : Int) then n - s.length else 0).toNat 0
      ++ reverse (s.take (n - (if n > (s.length : Int) then n - s.length else 0)).toNat))
  else
    some (s.take (n - (if n > (s.length : Int) then n - s.length else 0)).toNat
      ++ List.replicate (if n > (s.length : Int) then n - s.length else 0).toNat 0)

/-- The bytes `Pack` appends for a string `s` under declared length `n`; `none` is a
panic: a field of more than `maxAlloc` bytes, or the slice bounds. -/
def packStr (order : ByteOrder) (n : Int) (s : List Nat) : Option (List Nat) :=
  if n > (maxAlloc : Int) then none else packField order n s

/-- The loop of `Pack` on the values still to be read, without accumulator. -/
def packView : ByteOrder → List String → List Value → Outcome (List Nat)
  | _, [], _ => .ret [] none
  | order, f :: fs, vs =>
    match tokOf f with
    | .little => packView .LittleEndian fs vs
    | .big => packView .BigEndian fs vs
    | .bool =>
      match vs.head? with
      | none => .panic
      | some (.bool x) => (packView order fs vs.tail).prepend (boolToBytes x order)
      | some _ => .ret [] (some (.typeMismatch f "bool"))
    | .int w =>
      match vs.head? with
      | none => .panic
      | some (.int64 n) => (packView order fs vs.tail).prepend (int64ToBytes n w order)
      | some _ => .ret [] (some (.typeMismatch f (intKind w)))
    | .f32 =>
      match vs.head? with
      | none => .panic
      | some (.float32 n) => (packView order fs vs.tail).prepend (float32ToBytes n 4 order)
      | some _ => .ret [] (some (.typeMismatch f "float32"))
    | .f64 =>
      match vs.head? with
      | none => .panic
      | some (.float64 n) => (packView order fs vs.tail).prepend (float64ToBytes n 8 order)
      | some _ => .ret [] (some (.typeMismatch f "float64"))
    | .str =>
      match vs.head? with
      | none => .panic
      | some (.string s) =>
        match packStr order (declaredLen f) s with
        | none => .panic
        | some b => (packView order fs vs.tail).prepend b
      | some _ => .ret [] (some (.typeMismatch f "string"))
    | .bad => .ret [] (some (.unexpectedToken f))

/-- Put already decoded values in front of a successful result of the rest of the
loop; a failure of `UnPack` inside the loop returns `nil` whatever was decoded. -/
def Outcome.prependOk {α : Type} (p : List α) : Outcome (List α) → Outcome (List α)
  | .ret r none => .ret (p ++ r) none
  | .ret r (some e) => .ret r (some e)
  | .panic => .panic

/-- The string `UnPack` decodes from the first `n` bytes of a field. -/
def unpackStr (order : ByteOrder) (field : List Nat) : List Nat :=
  if order = .BigEndian then TrimRight (reverse field) 0 else TrimRight field 0

/-- The loop of `UnPack` on the bytes still to be read, without accumulator. -/
def unpackView : ByteOrder → List String → List Nat → Outcome (List Value)
  | _, [], _ => .ret [] none
  | order, f :: fs, msg =>
    match tokOf f with
    | .little => unpackView .LittleEndian fs msg
    | .big => unpackView .BigEndian fs msg
    | .bool =>
      if msg.length < 1 then .panic
      else (unpackView order fs (msg.drop 1)).prependOk [.bool (bytesToBool (msg.take 1) order)]
    | .int w =>
      if msg.length < w then .panic
      else (unpackView order fs (msg.drop w)).prependOk [.int64 (bytesToInt64 (msg.take w) order)]
    | .f32 =>
      if msg.length < 4 then .panic
      else (unpackView order fs (msg.drop 4)).prependOk
        [.float32 (bytesToFloat32 (msg.take 4) order)]
    | .f64 =>
      if msg.length < 8 then .panic
      else (unpackView order fs (msg.drop 8)).prependOk
        [.float64 (bytesToFloat64 (msg.take 8) order)]
    | .str =>
      if declaredLen f < 0 ∨ declaredLen f > msg.length then .panic
      else (unpackView order fs (msg.drop (declaredLen f).toNat)).prependOk
        [.string (unpackStr order (msg.take (declaredLen f).toNat))]
    | .bad => .ret [] (some (.unexpectedToken f))

/-- The number of tokens of a format other than the endianness markers `<`, `>`, `!`,
as the specification counts them. -/
def nonMarkerCount (format : List String) : Nat :=
  (format.filter (fun f => ¬ (f = "<" ∨ f = ">" ∨ f = "!"))).length

/-- The byte width the specification's token table gives a token: 0 for a marker, 1 for
`?`, 2 for `h`/`H`, 4 for `i`/`I`/`l`/`L`/`f`, 8 for `q`/`Q`/`d`, the declared length
for any other token containing the character `s`; `none` for an unrecognised token. -/
def specWidth (f : String) : Option Int :=
  if f = "<" ∨ f = ">" ∨ f = "!" then some 0
  else if f = "?" then some 1
  else if f = "h" ∨ f = "H" then some 2
  else if f = "i" ∨ f = "I" ∨ f = "l" ∨ f = "L" ∨ f = "f" then some 4
  else if f = "q" ∨ f = "Q" ∨ f = "d" then some 8
  else if containsS f then some (declaredLen f)
  else none

/-- Reference definition of the size calculator, after the specification: the sum of
the token widths when every token is recognised, otherwise the unknown-token error for
the first unrecognised token together with size 0. -/
def CalcSizeSpec (format : List String) : Int × Option Error :=
  if format.all (fun f => (specWidth f).isSome) then
    ((format.map (fun f => (specWidth f).getD 0)).sum, none)
  else
    (0, some (.unexpectedToken ((format.find? (fun f => (specWidth f).isNone)).getD "")))

/-- The integer tokens with their widths in bytes. -/
def intTokens : List (String × Nat) :=
  [("h", 2), ("H", 2), ("i", 4), ("I", 4), ("l", 4), ("L", 4), ("q", 8), ("Q", 8)]

/-- The `w` low-order bytes of the 64-bit two's-complement representation of `v`, least
significant byte first. -/
def lowBytes (w : Nat) (v : Int) : List Nat :=
  (List.range w).map (fun k => toUint64 v / 256 ^ k % 256)

/-- The low `8 * w` bits of `v`, sign-extended to 64 bits. -/
def signExtend (w : Nat) (v : Int) : Int :=
  (v + 2 ^ (8 * w - 1)) % 2 ^ (8 * w) - 2 ^ (8 * w - 1)

/-- The four ways a format can fix the mode for a single data token: no marker or `<`
(little-endian), `>` or `!` (big-endian). -/
def modePrefixes : List (List String × ByteOrder) :=
  [([], .LittleEndian), (["<"], .LittleEndian), ([">"], .BigEndian), (["!"], .BigEndian)]

/-- The five kinds of value `Pack` accepts. -/
inductive Kind where
  | bool
  | int64
  | float32
  | float64
  | string
  deriving DecidableEq, Repr

/-- A value has a kind when its dynamic type is exactly that kind. -/
def Value.hasKind : Value → Kind → Bool
  | .bool _, .bool => true
  | .int64 _, .int64 => true
  | .float32 _, .float32 => true
  | .float64 _, .float64 => true
  | .string _, .string => true
  | _, _ => false

/-- An endianness marker. -/
def isMarker (f : String) : Bool := f = "<" ∨ f = ">" ∨ f = "!"

/-- A decimal digit. -/
def isDigit (c : Char) : Bool := 48 ≤ c.toNat ∧ c.toNat ≤ 57

/-- A decimal fixed-string token `<N>s`: one or more decimal digits followed by `s`. -/
def isDecimalStr (f : String) : Bool :=
  match f.toList with
  | [] => false
  | c :: cs => isDigit c && cs.dropLast.all isDigit && cs.getLast? = some 's'

/-- The kind of value a recognised data token expects, after the specification's
table; `none` for markers and unrecognised tokens. -/
def tokenKind (f : String) : Option Kind :=
  if f = "?" then some .bool
  else if f = "h" ∨ f = "H" ∨ f = "i" ∨ f = "I" ∨ f = "l" ∨ f = "L" ∨ f = "q" ∨ f = "Q" then
    some .int64
  else if f = "f" then some .float32
  else if f = "d" then some .float64
  else if isDecimalStr f then some .string
  else none

/-- A recognised token: a marker or a data token of the table. -/
def recognised (f : String) : Bool := isMarker f || (tokenKind f).isSome

/-- The data tokens of a format paired with the values at their positions. -/
def positions (format : List String) (values : List Value) : List (String × Value) :=
  (format.filter (fun f => !isMarker f)).zip values

/-- The value at a data token's position has exactly that token's kind. -/
def kindOk (p : String × Value) : Bool :=
  match tokenKind p.1 with
  | some k => p.2.hasKind k
  | none => false

/-- Every data token meets a value of its kind. -/
def kindsMatch (format : List String) (values : List Value) : Bool :=
  (positions format values).all kindOk

/-- The first data token that meets a value of another kind. -/
def firstMismatch (format : List String) (values : List Value) : Option String :=
  ((positions format values).find? (fun p => !kindOk p)).map (fun p => p.1)

/-- The kind of value a token class expects. -/
def kindOfTok : Tok → Option Kind
  | .bool => some .bool
  | .int _ => some .int64
  | .f32 => some .float32
  | .f64 => some .float64
  | .str => some .string
  | _ => none

/-- A Unicode scalar value: what `string(rune)` encodes as itself. -/
def validRune (r : Nat) : Prop := r < 0xD800 ∨ (0xE000 ≤ r ∧ r ≤ 0x10FFFF)

/-- Model of `utf8.ValidString`: every decoding step consumes an ASCII byte or a
well-formed multi-byte encoding; `fuel` bounds the number of steps. -/
def ValidStringFuel : Nat → List Nat → Bool
  | 0, s => s.isEmpty
  | _ + 1, [] => true
  | fuel + 1, s0 :: t =>
    (decide (s0 < 0x80) || decide ((DecodeRune (s0 :: t)).2 > 1)) &&
      ValidStringFuel fuel ((s0 :: t).drop (DecodeRune (s0 :: t)).2)

/-- The string is valid UTF-8. -/
def ValidString (s : List Nat) : Bool := ValidStringFuel s.length s

/-- The token `<N>s`: the decimal numeral of `N` followed by `s`. -/
def decimalToken (N : Nat) : String := String.mk (Nat.toDigits 10 N ++ ['s'])

/-- The value lists a format carries without loss, mode by mode: the values match the
data tokens one for one in kind; an integer lies in the signed range of its token's
width; a float is a bit pattern of its width; a string is no longer than the declared
length of its token, does not end in a zero byte and, where it is packed in big-endian
mode, is valid UTF-8. -/
def lossless : ByteOrder → List String → List Value → Bool
  | _, [], vs => vs.isEmpty
  | order, f :: fs, vs =>
    match tokOf f with
    | .little => lossless .LittleEndian fs vs
    | .big => lossless .BigEndian fs vs
    | .bool =>
      match vs.head? with
      | some (.bool _) => lossless order fs vs.tail
      | _ => false
    | .int w =>
      match vs.head? with
      | some (.int64 n) =>
        decide (-(2 : Int) ^ (8 * w - 1) ≤ n ∧ n < (2 : Int) ^ (8 * w - 1)) &&
          lossless order fs vs.tail
      | _ => false
    | .f32 =>
      match vs.head? with
      | some (.float32 bits) => decide (bits < 2 ^ 32) && lossless order fs vs.tail
      | _ => false
    | .f64 =>
      match vs.head? with
      | some (.float64 bits) => decide (bits < 2 ^ 64) && lossless order fs vs.tail
      | _ => false
    | .str =>
      match vs.head? with
      | some (.string s) =>
        decide ((s.length : Int) ≤ declaredLen f) && decide (s.getLast? ≠ some 0) &&
          (decide (order = .LittleEndian) || ValidString s) && lossless order fs vs.tail
      | _ => false
    | .bad => false

/-- The kind of value the specification's table gives a data token, a fixed string being
any other token that contains the character `s`; `none` for markers and unrecognised
tokens. -/
def expectedKind (f : String) : Option Kind :=
  if f = "?" then some .bool
  else if f = "h" ∨ f = "H" ∨ f = "i" ∨ f = "I" ∨ f = "l" ∨ f = "L" ∨ f = "q" ∨ f = "Q" then
    some .int64
  else if f = "f" then some .float32
  else if f = "d" then some .float64
  else if containsS f then some .string
  else none

/-- The mode in force after the markers of a format, starting from `order`. -/
def finalOrder : ByteOrder → List String → ByteOrder
  | order, [] => order
  | order, f :: fs =>
    match tokOf f with
    | .little => finalOrder .LittleEndian fs
    | .big => finalOrder .BigEndian fs
    | _ => finalOrder order fs

/-- The last marker occurring in a format, or `<` if it has none. -/
def lastMarker (format : List String) : String :=
  ((format.filter isMarker).getLast?).getD "<"

/-- A token at which the walk of `Pack` evaluates `msg[i]`: one of the fixed data tokens,
or a token of the default branch that contains the character `s`. -/
def readsValue (f : String) : Bool :=
  !isMarker f &&
    (decide (f = "?" ∨ f = "h" ∨ f = "H" ∨ f = "i" ∨ f = "I" ∨ f = "l" ∨ f = "L" ∨ f = "q" ∨
      f = "Q" ∨ f = "f" ∨ f = "d") || containsS f)

/-- Reference count for the length check of `Pack`: the number of tokens of the format
other than `@`, `=`, `<`, `>` and `!`. -/
def countedTokens (format : List String) : Nat :=
  (format.filter (fun f => ¬ (f = "@" ∨ f = "=" ∨ f = "<" ∨ f = ">" ∨ f = "!"))).length

/-- The value of a string of decimal digits read after the number `a`. -/
def digitsValueFrom (a : Nat) (ds : List Char) : Nat :=
  ds.foldl (fun n c => n * 10 + (c.toNat - 48)) a

/-- The decimal value of a string of digits. -/
def digitsValue (ds : List Char) : Nat := digitsValueFrom 0 ds

/-- A well-formed number: a non-empty string of decimal digits. -/
def isNumeral (p : List Char) : Bool := !p.isEmpty && p.all isDigit

/-- Drop the leading `+` that `strconv.Atoi` accepts. -/
def stripPlus (p : List Char) : List Char :=
  match p with
  | [] => []
  | c :: cs => if c = '+' then cs else c :: cs

/-- Drop the sign, `+` or `-`, that `strconv.Atoi` accepts in front of the digits. -/
def stripSign (p : List Char) : List Char :=
  match p with
  | [] => []
  | c :: cs => if c = '+' ∨ c = '-' then cs else c :: cs

/-- The numeric prefix of a fixed-string token: the token with its trailing `s`
characters stripped, and a leading sign dropped. -/
def numericPrefix (f : String) : List Char := stripSign (TrimRight f.toList 's')

/-- A token that is a negative number: `-`, then decimal digits that are not all zero,
then its trailing `s` characters. -/
def negativeNumeral (f : String) : Bool :=
  decide ((TrimRight f.toList 's').head? = some '-') && isNumeral (numericPrefix f) &&
    decide (1 ≤ digitsValue (numericPrefix f))

/-- Reference definition of the declared length of a fixed-string token, after the
specification: the decimal value of the numeric prefix, held in a Go `int` (so at most
`2^63 - 1`), or 0 when the prefix is not a well-formed number. -/
def specDeclaredLen (f : String) : Int :=
  if isNumeral (numericPrefix f) then min (digitsValue (numericPrefix f) : Int) (2 ^ 63 - 1)
  else 0

end BinaryPack

/-! ## Package `crypto`: the padding helpers of `library/crypto/des.go` -/

namespace Crypto

/-- Function `PKCS5Padding` of `library/crypto/des.go`; bytes are numbers. `none`
stands for a run-time panic: the division by zero of `len(src) % blockSize`, or the
negative count handed to `bytes.Repeat`. Go's `%` truncates, and `byte(padding)` keeps
the low 8 bits. -/
def PKCS5Padding (src : List Nat) (blockSize : Int) : Option (List Nat) :=
  if blockSize = 0 then none
  else
    let padding := BinaryPack.wrapInt (blockSize - Int.tmod (src.length : Int) blockSize)
    if padding < 0 then none
    else some (src ++ List.replicate padding.toNat (padding % 256).toNat)

/-- Function `PKCS5UnPadding` of `library/crypto/des.go`. `none` stands for the
run-time panic of `src[length-1]` on an empty slice, or of the slice expression
`src[:(length - unpadding)]` with a negative bound. -/
def PKCS5UnPadding (src : List Nat) : Option (List Nat) :=
  match src.getLast? with
  | none => none
  | some unpadding =>
    if (src.length : Int) - (unpadding : Int) < 0 then none
    else some (src.take ((src.length : Int) - (unpadding : Int)).toNat)

/-- Function `ZeroPadding` of `library/crypto/des.go`. `none` stands for a run-time
panic: the division by zero of `len(ciphertext) % blockSize`, or the negative count handed
to `bytes.Repeat`. -/
def ZeroPadding (ciphertext : List Nat) (blockSize : Int) : Option (List Nat) :=
  if blockSize = 0 then none
  else
    let padding := BinaryPack.wrapInt (blockSize - Int.tmod (ciphertext.length : Int) blockSize)
    if padding < 0 then none
    else some (ciphertext ++ List.replicate padding.toNat 0)

/-- Function `utf8.RuneStart`, `b&0xC0 != 0x80`: bits 7 and 6 of the byte are not `10`. -/
def RuneStart (b : Nat) : Bool := b / 64 % 4 ≠ 2

/-- The loop `for start--; start >= lim; start-- { if RuneStart(p[start]) { break } }` of
`utf8.DecodeLastRune`, entered with `start` already decremented; the result is the value
of `start` after the loop.  `fuel` bounds the number of tests of the loop condition. -/
def lastRuneStart (p : List Nat) (lim : Int) : Nat → Int → Int
  | 0, start => start
  | fuel + 1, start =>
    if start ≥ lim then
      if RuneStart (p.getD start.toNat 0) then start
      else lastRuneStart p lim fuel (start - 1)
    else start

/-- Model of `utf8.DecodeLastRune`: the last rune of `p` and its width in bytes.  The
backward scan tests its condition at most `UTFMax = 4` times, since `lim` is at least
`len(p) - UTFMax`. -/
def DecodeLastRune (p : List Nat) : Nat × Nat :=
  if p.length = 0 then (BinaryPack.RuneError, 0)
  else if p.getD (p.length - 1) 0 < 0x80 then (p.getD (p.length - 1) 0, 1)
  else
    let lim : Int := if (p.length : Int) - 4 < 0 then 0 else (p.length : Int) - 4
    let start0 := lastRuneStart p lim 4 ((p.length : Int) - 2)
    let start : Int := if start0 < 0 then 0 else start0
    let rs := BinaryPack.DecodeRune (p.drop start.toNat)
    if start + (rs.2 : Int) ≠ (p.length : Int) then (BinaryPack.RuneError, 1) else rs

/-- The loop of `bytes.indexFunc` on `s[start:]`: the index of the first rune `r` with
`f(r) == truth`, or -1.  `fuel` bounds the number of iterations (every iteration consumes
at least one byte). -/
def indexFuncLoop (f : Nat → Bool) (truth : Bool) : Nat → List Nat → Nat → Int
  | 0, _, _ => -1
  | _ + 1, [], _ => -1
  | fuel + 1, b :: t, start =>
    if f (if b ≥ 0x80 then BinaryPack.DecodeRune (b :: t) else (b, 1)).1 = truth then start
    else
      indexFuncLoop f truth fuel
        ((b :: t).drop (if b ≥ 0x80 then BinaryPack.DecodeRune (b :: t) else (b, 1)).2)
        (start + (if b ≥ 0x80 then BinaryPack.DecodeRune (b :: t) else (b, 1)).2)

/-- Function `bytes.indexFunc`. -/
def indexFunc (s : List Nat) (f : Nat → Bool) (truth : Bool) : Int :=
  indexFuncLoop f truth s.length s 0

/-- The loop of `bytes.lastIndexFunc` with loop variable `i`: the index of the last rune
`r` with `f(r) == truth`, or -1.  `fuel` bounds the number of iterations (every iteration
lowers `i` by at least one). -/
def lastIndexFuncLoop (s : List Nat) (f : Nat → Bool) (truth : Bool) : Nat → Int → Int
  | 0, _ => -1
  | fuel + 1, i =>
    if i > 0 then
      if f (if s.getD (i - 1).toNat 0 ≥ 0x80 then DecodeLastRune (s.take i.toNat)
          else (s.getD (i - 1).toNat 0, 1)).1 = truth then
        i - ((if s.getD (i - 1).toNat 0 ≥ 0x80 then DecodeLastRune (s.take i.toNat)
          else (s.getD (i - 1).toNat 0, 1)).2 : Int)
      else
        lastIndexFuncLoop s f truth fuel
          (i - ((if s.getD (i - 1).toNat 0 ≥ 0x80 then DecodeLastRune (s.take i.toNat)
            else (s.getD (i - 1).toNat 0, 1)).2 : Int))
    else -1

/-- Function `bytes.lastIndexFunc`. -/
def lastIndexFunc (s : List Nat) (f : Nat → Bool) (truth : Bool) : Int :=
  lastIndexFuncLoop s f truth s.length (s.length : Int)

/-- Function `bytes.TrimLeftFunc`; the `nil` result is the empty byte string. -/
def TrimLeftFunc (s : List Nat) (f : Nat → Bool) : List Nat :=
  if indexFunc s f false = -1 then [] else s.drop (indexFunc s f false).toNat

/-- Function `bytes.TrimRightFunc`. -/
def TrimRightFunc (s : List Nat) (f : Nat → Bool) : List Nat :=
  if lastIndexFunc s f false ≥ 0 ∧ s.getD (lastIndexFunc s f false).toNat 0 ≥ 0x80 then
    s.take (lastIndexFunc s f false +
      ((BinaryPack.DecodeRune (s.drop (lastIndexFunc s f false).toNat)).2 : Int)).toNat
  else s.take (lastIndexFunc s f false + 1).toNat

/-- Function `bytes.TrimFunc`. -/
def TrimFunc (s : List Nat) (f : Nat → Bool) : List Nat :=
  TrimRightFunc (TrimLeftFunc s f) f

/-- Function `ZeroUnPadding` of `library/crypto/des.go`: `bytes.TrimFunc` with the
predicate `r == rune(0)`. -/
def ZeroUnPadding (src : List Nat) : List Nat :=
  TrimFunc src (fun r => r = 0)

end Crypto

namespace BinaryPack

/-! # Theorems -/

@[simp] theorem Outcome.prepend_ret {α : Type} (p r : List α) (e : Option Error) :
    (Outcome.ret r e).prepend p = .ret (p ++ r) e := rfl

@[simp] theorem Outcome.prepend_panic {α : Type} (p : List α) :
    (Outcome.panic : Outcome (List α)).prepend p = .panic := rfl

theorem Outcome.prepend_prepend {α : Type} (p q : List α) (o : Outcome (List α)) :
    (o.prepend q).prepend p = o.prepend (p ++ q) := by
  cases o <;> simp [Outcome.prepend]

theorem index_natCast (msg : List Value) (k : Nat) : index msg (k : Int) = (msg.drop k).head? := by
  simp [index, List.head?_drop]

theorem PackLoop_eq_view (msg : List Value) (fs : List String) :
    ∀ (order : ByteOrder) (k : Nat) (res : List Nat),
      PackLoop msg fs order (k : Int) res = (packView order fs (msg.drop k)).prepend res := by
  induction fs with
  | nil => intro order k res; simp [PackLoop, packView, Outcome.prepend]
  | cons f fs ih =>
    intro order k res
    have hk : ((k : Int) - 1 + 1) = (k : Int) := by omega
    have hk1 : ((k : Int) + 1) = ((k + 1 : Nat) : Int) := by omega
    have ht : (msg.drop k).tail = msg.drop (k + 1) := by simp
    unfold PackLoop
    rw [hk, hk1, index_natCast]
    simp only [ih]
    by_cases h1 : f = "<"
    · simp only [if_pos h1, packView, tokOf]
    rw [if_neg h1]
    by_cases h2 : f = ">" ∨ f = "!"
    · simp only [if_pos h2, if_neg h1, packView, tokOf]
    rw [if_neg h2]
    by_cases h3 : f = "?"
    · simp only [if_pos h3, if_neg h1, if_neg h2, packView, tokOf, ht]
      cases (msg.drop k).head? with
      | none => simp
      | some v => cases v <;> simp [Outcome.prepend_prepend]
    rw [if_neg h3]
    by_cases h4 : f = "h" ∨ f = "H"
    · simp only [if_pos h4, if_neg h1, if_neg h2, if_neg h3, packView, tokOf, ht]
      cases (msg.drop k).head? with
      | none => simp
      | some v => cases v <;> simp [Outcome.prepend_prepend, intKind]
    rw [if_neg h4]
    by_cases h5 : f = "i" ∨ f = "I" ∨ f = "l" ∨ f = "L"
    · simp only [if_pos h5, if_neg h1, if_neg h2, if_neg h3, if_neg h4, packView, tokOf, ht]
      cases (msg.drop k).head? with
      | none => simp
      | some v => cases v <;> simp [Outcome.prepend_prepend, intKind]
    rw [if_neg h5]
    by_cases h6 : f = "q" ∨ f = "Q"
    · simp only [if_pos h6, if_neg h1, if_neg h2, if_neg h3, if_neg h4, if_neg h5, packView,
        tokOf, ht]
      cases (msg.drop k).head? with
      | none => simp
      | some v => cases v <;> simp [Outcome.prepend_prepend, intKind]
    rw [if_neg h6]
    by_cases h7 : f = "f"
    · simp only [if_pos h7, if_neg h1, if_neg h2, if_neg h3, if_neg h4, if_neg h5, if_neg h6,
        packView, tokOf, ht]
      cases (msg.drop k).head? with
      | none => simp
      | some v => cases v <;> simp [Outcome.prepend_prepend]
    rw [if_neg h7]
    by_cases h8 : f = "d"
    · simp only [if_pos h8, if_neg h1, if_neg h2, if_neg h3, if_neg h4, if_neg h5, if_neg h6,
        if_neg h7, packView, tokOf, ht]
      cases (msg.drop k).head? with
      | none => simp
      | some v => cases v <;> simp [Outcome.prepend_prepend]
    rw [if_neg h8]
    by_cases h9 : containsS f = true
    · simp only [if_pos h9, if_neg h1, if_neg h2, if_neg h3, if_neg h4, if_neg h5, if_neg h6,
        if_neg h7, if_neg h8, packView, tokOf, ht]
      cases (msg.drop k).head? with
      | none => simp
      | some v =>
        cases v <;> simp only [Outcome.prepend_ret, Outcome.prepend_panic, List.append_nil]
        unfold packStr packField
        split_ifs <;> simp [Outcome.prepend_prepend]
    · simp only [if_neg h9, if_neg h1, if_neg h2, if_neg h3, if_neg h4, if_neg h5, if_neg h6,
        if_neg h7, if_neg h8, packView, tokOf, Outcome.prepend_ret, List.append_nil]

@[simp] theorem Outcome.prependOk_ret {α : Type} (p r : List α) :
    (Outcome.ret r none).prependOk p = .ret (p ++ r) none := rfl

@[simp] theorem Outcome.prependOk_err {α : Type} (p r : List α) (e : Error) :
    (Outcome.ret r (some e)).prependOk p = .ret r (some e) := rfl

@[simp] theorem Outcome.prependOk_panic {α : Type} (p : List α) :
    (Outcome.panic : Outcome (List α)).prependOk p = .panic := rfl

theorem Outcome.prependOk_prependOk {α : Type} (p q : List α) (o : Outcome (List α)) :
    (o.prependOk q).prependOk p = o.prependOk (p ++ q) := by
  cases o with
  | panic => rfl
  | ret r e => cases e <;> simp

theorem UnPackLoop_eq_view (fs : List String) :
    ∀ (order : ByteOrder) (msg : List Nat) (res : List Value),
      UnPackLoop fs order msg res = (unpackView order fs msg).prependOk res := by
  induction fs with
  | nil => intro order msg res; simp [UnPackLoop, unpackView]
  | cons f fs ih =>
    intro order msg res
    unfold UnPackLoop
    simp only [ih]
    by_cases h1 : f = "<"
    · simp only [if_pos h1, unpackView, tokOf]
    rw [if_neg h1]
    by_cases h2 : f = ">" ∨ f = "!"
    · simp only [if_pos h2, if_neg h1, unpackView, tokOf]
    rw [if_neg h2]
    by_cases h3 : f = "?"
    · simp only [if_pos h3, if_neg h1, if_neg h2, unpackView, tokOf]
      split_ifs <;> simp [Outcome.prependOk_prependOk]
    rw [if_neg h3]
    by_cases h4 : f = "h" ∨ f = "H"
    · simp only [if_pos h4, if_neg h1, if_neg h2, if_neg h3, unpackView, tokOf]
      split_ifs <;> simp [Outcome.prependOk_prependOk]
    rw [if_neg h4]
    by_cases h5 : f = "i" ∨ f = "I" ∨ f = "l" ∨ f = "L"
    · simp only [if_pos h5, if_neg h1, if_neg h2, if_neg h3, if_neg h4, unpackView, tokOf]
      split_ifs <;> simp [Outcome.prependOk_prependOk]
    rw [if_neg h5]
    by_cases h6 : f = "q" ∨ f = "Q"
    · simp only [if_pos h6, if_neg h1, if_neg h2, if_neg h3, if_neg h4, if_neg h5, unpackView,
        tokOf]
      split_ifs <;> simp [Outcome.prependOk_prependOk]
    rw [if_neg h6]
    by_cases h7 : f = "f"
    · simp only [if_pos h7, if_neg h1, if_neg h2, if_neg h3, if_neg h4, if_neg h5, if_neg h6,
        unpackView, tokOf]
      split_ifs <;> simp [Outcome.prependOk_prependOk]
    rw [if_neg h7]
    by_cases h8 : f = "d"
    · simp only [if_pos h8, if_neg h1, if_neg h2, if_neg h3, if_neg h4, if_neg h5, if_neg h6,
        if_neg h7, unpackView, tokOf]
      split_ifs <;> simp [Outcome.prependOk_prependOk]
    rw [if_neg h8]
    by_cases h9 : containsS f = true
    · simp only [if_pos h9, if_neg h1, if_neg h2, if_neg h3, if_neg h4, if_neg h5, if_neg h6,
        if_neg h7, if_neg h8, unpackView, tokOf, unpackStr]
      split_ifs <;> simp [Outcome.prependOk_prependOk]
    · simp only [if_neg h9, if_neg h1, if_neg h2, if_neg h3, if_neg h4, if_neg h5, if_neg h6,
        if_neg h7, if_neg h8, unpackView, tokOf, Outcome.prependOk_err]

theorem Pack_eq_view (format : List String) (msg : List Value) :
    Pack format msg =
      if formatLen format > msg.length then .ret [] (some .formatTooLong)
      else packView .LittleEndian format msg := by
  unfold Pack
  split_ifs
  · rfl
  · have h := PackLoop_eq_view msg format .LittleEndian 0 []
    simp only [Nat.cast_zero, List.drop_zero] at h
    rw [h]
    cases packView .LittleEndian format msg <;> simp

theorem tokOf_marker_or (f : String) :
    (f = "<" ∨ f = ">" ∨ f = "!") ↔ (tokOf f = .little ∨ tokOf f = .big) := by
  unfold tokOf
  by_cases h1 : f = "<"
  · simp [h1]
  by_cases h2 : f = ">" ∨ f = "!"
  · rcases h2 with h2 | h2 <;> simp [h2]
  simp only [if_neg h1, if_neg h2]
  have h2a : ¬ f = ">" := fun h => h2 (Or.inl h)
  have h2b : ¬ f = "!" := fun h => h2 (Or.inr h)
  split_ifs <;> simp [h1, h2a, h2b]

theorem UnPack_eq_view (format : List String) (msg : List Nat) :
    UnPack format msg =
      match CalcSize format with
      | (_, some err) => .ret [] (some err)
      | (expected_size, none) =>
        if expected_size > msg.length then .ret [] (some .sizeTooBig)
        else unpackView .LittleEndian format msg := by
  unfold UnPack
  split
  · rfl
  · split_ifs
    · rfl
    · rw [UnPackLoop_eq_view]
      cases unpackView .LittleEndian format msg with
      | panic => rfl
      | ret r e => cases e <;> simp

theorem unpackView_error_nil (fs : List String) :
    ∀ (order : ByteOrder) (msg : List Nat) (r : List Value) (e : Error),
      unpackView order fs msg = .ret r (some e) → r = [] := by
  induction fs with
  | nil => intro order msg r e h; simp [unpackView] at h
  | cons f fs ih =>
    intro order msg r e h
    have key : ∀ (o : Outcome (List Value)) (p : List Value),
        (∀ r e, o = .ret r (some e) → r = []) → o.prependOk p = .ret r (some e) → r = [] := by
      intro o p ho hp
      cases o with
      | panic => simp at hp
      | ret r' e' =>
        cases e' with
        | none => simp at hp
        | some e' =>
          simp at hp
          exact hp.1 ▸ ho r' e' rfl
    unfold unpackView at h
    split at h
    · exact ih _ _ _ _ h
    · exact ih _ _ _ _ h
    all_goals first
      | (split_ifs at h; exact key _ _ (fun r e => ih _ _ r e) h)
      | (simp at h; exact h.1)

/-- Claim C3, evaluated where it fails, together with the half that holds: when `Pack`
meets a value of the wrong kind after encoding an earlier token, it returns the bytes
already encoded together with the error; an error of `UnPack` always comes with an
empty value list. -/
theorem C3_pack_returns_prefix_on_error :
    Pack ["h", "?"] [.int64 5, .int64 1]
        = .ret [5, 0] (some (.typeMismatch "?" "bool")) ∧
      ∀ (format : List String) (msg : List Nat) (res : List Value) (e : Error),
        UnPack format msg = .ret res (some e) → res = [] := by
  refine ⟨by decide, ?_⟩
  intro format msg res e h
  rw [UnPack_eq_view] at h
  split at h
  · simp at h; exact h.1
  · split_ifs at h
    · simp at h; exact h.1
    · exact unpackView_error_nil _ _ _ _ _ h

/-- An instance of the second half of C3: a short buffer gives the size error with an
empty value list. -/
theorem C3_witness :
    UnPack ["h"] [1] = .ret [] (some .sizeTooBig) ∧ ([] : List Value) = [] :=
  ⟨by decide, C3_pack_returns_prefix_on_error.2 ["h"] [1] [] .sizeTooBig (by decide)⟩

/-- Claim C2, evaluated where it fails: in big-endian mode the token `1s` packs the
two-byte string "é" (bytes C3 A9) into three bytes, the UTF-8 encoding of U+FFFD,
while `CalcSize` reports 1. -/
theorem C2_pack_size_differs_from_calcsize :
    Pack [">", "1s"] [.string [0xC3, 0xA9]] = .ret [0xEF, 0xBF, 0xBD] none ∧
      CalcSize [">", "1s"] = (1, none) := by
  constructor <;> decide

/-- Claim C4, evaluated where it fails: for the format `-1s` and the empty buffer
`CalcSize` succeeds with size -1, which does not exceed the buffer length 0, yet
`UnPack` panics on the slice expression `msg[:-1]`. -/
theorem C4_unpack_panics_on_negative_length :
    CalcSize ["-1s"] = (-1, none) ∧ (-1 : Int) ≤ ([] : List Nat).length ∧
      UnPack ["-1s"] [] = .panic := by
  refine ⟨by decide, by decide, by decide⟩

/-- Claim C5 as stated fails: the format `@` has one non-marker token and no value is
supplied, yet `Pack` passes its length check (`formatLen` counts `@` as zero) and
fails with the unexpected-token error instead of the format-too-long error. -/
theorem C5_counterexample :
    nonMarkerCount ["@"] > ([] : List Value).length ∧
      Pack ["@"] [] = .ret [] (some (.unexpectedToken "@")) ∧
      Pack ["@"] [] ≠ .ret [] (some .formatTooLong) := by
  refine ⟨by decide, by decide, by decide⟩

theorem formatLen_eq_countedTokens (format : List String) :
    formatLen format = countedTokens format := by
  induction format with
  | nil => rfl
  | cons f fs ih =>
    unfold countedTokens at ih ⊢
    rw [formatLen, ih, List.filter_cons]
    by_cases h : f = "@" ∨ f = "=" ∨ f = "<" ∨ f = ">" ∨ f = "!"
    · rw [if_pos h, if_neg (by rw [decide_eq_true_eq]; exact fun hn => hn h)]; omega
    · rw [if_neg h, if_pos (by rw [decide_eq_true_eq]; exact h), List.length_cons]; omega

/-- Claim C5, amended: if the number of tokens other than `@`, `=`, `<`, `>`, `!`
(`countedTokens`, a plain count over the format) exceeds the number of supplied values,
`Pack` fails with the format-too-long error and returns no bytes: the check precedes
the token walk.  The count is what the loop of `formatLen` computes. -/
theorem C5_format_too_long (format : List String) (msg : List Value)
    (h : countedTokens format > msg.length) :
    formatLen format = countedTokens format ∧
      Pack format msg = .ret [] (some .formatTooLong) := by
  have hf := formatLen_eq_countedTokens format
  refine ⟨hf, ?_⟩
  unfold Pack
  rw [if_pos (by rw [hf]; exact h)]

/-- An instance of C5: four data tokens, three values. -/
theorem C5_witness :
    formatLen ["I", "I", "I", "4s"] = countedTokens ["I", "I", "I", "4s"] ∧
      Pack ["I", "I", "I", "4s"] [.int 1, .int 4, .string [68, 85, 77, 80]]
        = .ret [] (some .formatTooLong) :=
  C5_format_too_long ["I", "I", "I", "4s"] [.int 1, .int 4, .string [68, 85, 77, 80]]
    (by decide)

theorem wrapInt_wrapInt_add (a b : Int) : wrapInt (wrapInt a + b) = wrapInt (a + b) := by
  unfold wrapInt; omega

theorem wrapInt_of_range (a : Int) (h1 : -(2 ^ 63) ≤ a) (h2 : a < 2 ^ 63) : wrapInt a = a := by
  unfold wrapInt; omega

theorem wrapInt_idem (a : Int) : wrapInt (wrapInt a) = wrapInt a := by
  unfold wrapInt; omega

theorem CalcSizeLoop_cons (f : String) (fs : List String) (size : Int) :
    CalcSizeLoop (f :: fs) size =
      match specWidth f with
      | some w => CalcSizeLoop fs (wrapInt (size + w))
      | none => (0, some (.unexpectedToken f)) := by
  rw [CalcSizeLoop]
  unfold specWidth
  split_ifs <;> rfl

theorem CalcSizeLoop_eq_spec (fs : List String) :
    ∀ size : Int, wrapInt size = size →
      CalcSizeLoop fs size =
        if fs.all (fun f => (specWidth f).isSome) then
          (wrapInt (size + (fs.map (fun f => (specWidth f).getD 0)).sum), none)
        else
          (0, some (.unexpectedToken ((fs.find? (fun f => (specWidth f).isNone)).getD ""))) := by
  induction fs with
  | nil => intro size h; simp [CalcSizeLoop, h]
  | cons f fs ih =>
    intro size h
    rw [CalcSizeLoop_cons]
    cases hw : specWidth f with
    | none => simp [hw]
    | some w =>
      simp only [ih _ (wrapInt_idem _), List.all_cons, hw, Option.isSome_some, Bool.true_and,
        List.map_cons, Option.getD_some, List.sum_cons, wrapInt_wrapInt_add, List.find?_cons,
        Option.isNone_some]
      rw [Int.add_assoc]

/-- Claim C7 as stated fails on overflow: for the two tokens `9223372036854775807s` and
`1s` the sum of the widths is `2^63`, which the 64-bit result cannot hold; `CalcSize`
returns `-2^63`. -/
theorem C7_counterexample :
    CalcSizeSpec ["9223372036854775807s", "1s"] = (2 ^ 63, none) ∧
      CalcSize ["9223372036854775807s", "1s"] = (-(2 ^ 63), none) ∧
      CalcSize ["9223372036854775807s", "1s"] ≠ CalcSizeSpec ["9223372036854775807s", "1s"] := by
  refine ⟨by decide!, by decide!, by decide!⟩

/-- Claim C7, amended: for every token list `CalcSize` returns the reference result with
the sum reduced to the 64-bit signed range of Go's `int` (wrap-around); hence it returns
exactly the reference result, the plain sum, whenever that sum lies in
`[-2^63, 2^63)`.  In particular `CalcSize [] = (0, nil)`, and an unrecognised token gives
the unknown-token error with size 0. -/
theorem C7_calcsize_refines_spec (format : List String) :
    CalcSize format = (wrapInt (CalcSizeSpec format).1, (CalcSizeSpec format).2) ∧
      (-(2 ^ 63) ≤ (CalcSizeSpec format).1 ∧ (CalcSizeSpec format).1 < 2 ^ 63 →
        CalcSize format = CalcSizeSpec format) := by
  have h : CalcSize format = (wrapInt (CalcSizeSpec format).1, (CalcSizeSpec format).2) := by
    unfold CalcSize CalcSizeSpec
    rw [CalcSizeLoop_eq_spec format 0 (by decide)]
    split_ifs
    · simp
    · simp; decide
  refine ⟨h, ?_⟩
  intro hr
  rw [h, wrapInt_of_range _ hr.1 hr.2]

/-- An instance of C7: the format of the package's test has size 50. -/
theorem C7_witness :
    CalcSize ["?", "h", "H", "i", "I", "l", "L", "q", "Q", "f", "d", "1s"] = (50, none) := by
  have h := (C7_calcsize_refines_spec
    ["?", "h", "H", "i", "I", "l", "L", "q", "Q", "f", "d", "1s"]).2 (by decide)
  rw [h]
  decide

theorem int64ToBytes_little (v : Int) (w : Nat) (hw : w = 2 ∨ w = 4 ∨ w = 8) :
    int64ToBytes v w .LittleEndian = lowBytes w v := by
  rcases hw with rfl | rfl | rfl <;>
    simp [int64ToBytes, putUint64, lowBytes, List.range_succ]

theorem int64ToBytes_big (v : Int) (w : Nat) (hw : w = 2 ∨ w = 4 ∨ w = 8) :
    int64ToBytes v w .BigEndian = (lowBytes w v).reverse := by
  rcases hw with rfl | rfl | rfl <;>
    simp [int64ToBytes, putUint64, lowBytes, List.range_succ]

theorem intTokens_spec (tok : String) (w : Nat) (h : (tok, w) ∈ intTokens) :
    tokOf tok = .int w ∧ (w = 2 ∨ w = 4 ∨ w = 8) ∧ formatLen [tok] = 1 ∧
      specWidth tok = some (w : Int) := by
  simp only [intTokens, List.mem_cons, Prod.mk.injEq, List.mem_singleton, List.not_mem_nil,
    or_false] at h
  rcases h with ⟨rfl, rfl⟩ | ⟨rfl, rfl⟩ | ⟨rfl, rfl⟩ | ⟨rfl, rfl⟩ | ⟨rfl, rfl⟩ | ⟨rfl, rfl⟩ |
    ⟨rfl, rfl⟩ | ⟨rfl, rfl⟩ <;> decide

@[simp] theorem tokOf_lt : tokOf "<" = .little := by decide

@[simp] theorem tokOf_gt : tokOf ">" = .big := by decide

@[simp] theorem tokOf_bang : tokOf "!" = .big := by decide

theorem formatLen_cons_marker (f : String) (fs : List String)
    (h : f = "<" ∨ f = ">" ∨ f = "!") : formatLen (f :: fs) = formatLen fs := by
  have h' : f = "@" ∨ f = "=" ∨ f = "<" ∨ f = ">" ∨ f = "!" := Or.inr (Or.inr h)
  simp only [formatLen, if_pos h', Nat.zero_add]

/-- Claim C9: for every 64-bit integer `v` and every integer token of width `w`
(`h`/`H`: 2, `i`/`I`/`l`/`L`: 4, `q`/`Q`: 8), `Pack` in little-endian mode (the default,
or after `<`) emits the `w` low-order bytes of the two's-complement representation of
`v`, least significant first, and in big-endian mode (after `>` or `!`) the same bytes
in reversed order. -/
theorem C9_integer_encoding (v : Int) (tok : String) (w : Nat) (h : (tok, w) ∈ intTokens) :
    Pack [tok] [.int64 v] = .ret (lowBytes w v) none ∧
      Pack ["<", tok] [.int64 v] = .ret (lowBytes w v) none ∧
      Pack [">", tok] [.int64 v] = .ret (lowBytes w v).reverse none ∧
      Pack ["!", tok] [.int64 v] = .ret (lowBytes w v).reverse none := by
  obtain ⟨ht, hw, hl, -⟩ := intTokens_spec tok w h
  have hl1 : ¬ (formatLen [tok] > [Value.int64 v].length) := by rw [hl]; simp
  have hl2 : ∀ m, (m = "<" ∨ m = ">" ∨ m = "!") →
      ¬ (formatLen [m, tok] > [Value.int64 v].length) := by
    intro m hm; rw [formatLen_cons_marker m _ hm, hl]; simp
  refine ⟨?_, ?_, ?_, ?_⟩
  · rw [Pack_eq_view, if_neg hl1]
    simp [packView, ht, int64ToBytes_little v w hw]
  · rw [Pack_eq_view, if_neg (hl2 _ (by decide))]
    simp [packView, ht, int64ToBytes_little v w hw]
  · rw [Pack_eq_view, if_neg (hl2 _ (by decide))]
    simp [packView, ht, int64ToBytes_big v w hw]
  · rw [Pack_eq_view, if_neg (hl2 _ (by decide))]
    simp [packView, ht, int64ToBytes_big v w hw]

/-- An instance of C9 from the package's tests: 2300 under `H` is `252, 8` in
little-endian and `8, 252` in big-endian mode. -/
theorem C9_witness :
    Pack ["H"] [.int64 2300] = .ret [252, 8] none ∧
      Pack [">", "H"] [.int64 2300] = .ret [8, 252] none := by
  have h := C9_integer_encoding 2300 "H" 2 (by decide)
  exact ⟨h.1, h.2.2.1⟩

theorem toUint64_spec (v : Int) : ((toUint64 v : Nat) : Int) = v % 2 ^ 64 := by
  unfold toUint64; omega

theorem lowBytes_length (w : Nat) (v : Int) : (lowBytes w v).length = w := by
  simp [lowBytes]

theorem getUint_little_range (w : Nat) : ∀ u : Nat,
    getUint .LittleEndian ((List.range w).map (fun k => u / 256 ^ k % 256)) = u % 256 ^ w := by
  induction w with
  | zero => intro u; simp [getUint, Nat.mod_one]
  | succ w ih =>
    intro u
    have ih' := ih (u / 256)
    simp only [getUint] at ih' ⊢
    rw [List.range_succ_eq_map, List.map_cons, List.map_map, List.foldr_cons]
    have hf : ((fun k => u / 256 ^ k % 256) ∘ Nat.succ) = (fun k => u / 256 / 256 ^ k % 256) := by
      funext k
      simp only [Function.comp, Nat.succ_eq_add_one, Nat.pow_succ, Nat.div_div_eq_div_mul]
      rw [Nat.mul_comm]
    rw [hf, ih', pow_zero, Nat.div_one, Nat.mod_mod, Nat.pow_succ, Nat.mul_comm (256 ^ w) 256,
      Nat.mod_mul]

theorem getUint_big_reverse (b : List Nat) :
    getUint .BigEndian b.reverse = getUint .LittleEndian b := by
  simp only [getUint, List.foldl_reverse]
  congr 1
  funext x acc
  omega

theorem getUint_lowBytes (w : Nat) (v : Int) :
    getUint .LittleEndian (lowBytes w v) = toUint64 v % 256 ^ w :=
  getUint_little_range w (toUint64 v)

theorem toSigned_signExtend (v : Int) (w : Nat) (hw : w = 2 ∨ w = 4 ∨ w = 8) :
    toSigned (8 * w) (toUint64 v % 256 ^ w) = signExtend w v := by
  have hu := toUint64_spec v
  generalize toUint64 v = u at hu
  rcases hw with rfl | rfl | rfl <;> simp only [toSigned, signExtend] <;> split_ifs <;> omega

theorem bytesToInt64_lowBytes (v : Int) (w : Nat) (hw : w = 2 ∨ w = 4 ∨ w = 8) :
    bytesToInt64 (lowBytes w v) .LittleEndian = signExtend w v ∧
      bytesToInt64 (lowBytes w v).reverse .BigEndian = signExtend w v := by
  have hl := lowBytes_length w v
  have ht : (lowBytes w v).take 8 = lowBytes w v ∧
      (lowBytes w v).reverse.take 8 = (lowBytes w v).reverse := by
    constructor <;> apply List.take_of_length_le <;> simp [hl] <;> omega
  have hs := toSigned_signExtend v w hw
  constructor <;>
    simp only [bytesToInt64, List.length_reverse, hl, ht.1, ht.2, getUint_big_reverse,
      getUint_lowBytes] <;>
    rcases hw with rfl | rfl | rfl <;> simp [← hs]

theorem modePrefix_spec (mode : List String) (order : ByteOrder)
    (h : (mode, order) ∈ modePrefixes) (fs : List String) :
    formatLen (mode ++ fs) = formatLen fs ∧
      (∀ vs, packView .LittleEndian (mode ++ fs) vs = packView order fs vs) ∧
      (∀ msg, unpackView .LittleEndian (mode ++ fs) msg = unpackView order fs msg) ∧
      CalcSize (mode ++ fs) = CalcSize fs := by
  simp only [modePrefixes, List.mem_cons, Prod.mk.injEq, List.mem_singleton, List.not_mem_nil,
    or_false] at h
  have hw : wrapInt (0 + 0) = 0 := by decide
  rcases h with ⟨rfl, rfl⟩ | ⟨rfl, rfl⟩ | ⟨rfl, rfl⟩ | ⟨rfl, rfl⟩
  · simp
  · refine ⟨formatLen_cons_marker _ _ (by decide), ?_, ?_, ?_⟩
    · intro vs; simp [packView]
    · intro msg; simp [unpackView]
    · simp only [CalcSize, List.singleton_append]
      rw [CalcSizeLoop_cons]
      have : specWidth "<" = some 0 := by decide
      simp only [this, hw]
  · refine ⟨formatLen_cons_marker _ _ (by decide), ?_, ?_, ?_⟩
    · intro vs; simp [packView]
    · intro msg; simp [unpackView]
    · simp only [CalcSize, List.singleton_append]
      rw [CalcSizeLoop_cons]
      have : specWidth ">" = some 0 := by decide
      simp only [this, hw]
  · refine ⟨formatLen_cons_marker _ _ (by decide), ?_, ?_, ?_⟩
    · intro vs; simp [packView]
    · intro msg; simp [unpackView]
    · simp only [CalcSize, List.singleton_append]
      rw [CalcSizeLoop_cons]
      have : specWidth "!" = some 0 := by decide
      simp only [this, hw]

theorem int64ToBytes_eq (v : Int) (w : Nat) (hw : w = 2 ∨ w = 4 ∨ w = 8) (order : ByteOrder) :
    int64ToBytes v w order =
      if order = .BigEndian then (lowBytes w v).reverse else lowBytes w v := by
  cases order
  · simp [int64ToBytes_little v w hw]
  · simp [int64ToBytes_big v w hw]

theorem int64ToBytes_length (v : Int) (w : Nat) (hw : w = 2 ∨ w = 4 ∨ w = 8)
    (order : ByteOrder) : (int64ToBytes v w order).length = w := by
  rw [int64ToBytes_eq v w hw]
  split_ifs <;> simp [lowBytes_length]

theorem bytesToInt64_int64ToBytes (v : Int) (w : Nat) (hw : w = 2 ∨ w = 4 ∨ w = 8)
    (order : ByteOrder) :
    bytesToInt64 (int64ToBytes v w order) order = signExtend w v := by
  rw [int64ToBytes_eq v w hw]
  cases order
  · simpa using (bytesToInt64_lowBytes v w hw).1
  · simpa using (bytesToInt64_lowBytes v w hw).2

theorem CalcSize_single (f : String) (w : Int) (h : specWidth f = some w)
    (hr : -(2 ^ 63) ≤ w ∧ w < 2 ^ 63) : CalcSize [f] = (w, none) := by
  simp only [CalcSize]
  rw [CalcSizeLoop_cons, h]
  simp only [CalcSizeLoop, Int.zero_add]
  rw [wrapInt_of_range _ hr.1 hr.2]

/-- Claim C10: for every integer token of width `w` in {2, 4, 8}, signed or unsigned
spelling, in either mode and for every 64-bit integer `v`, `Pack` succeeds and `UnPack`
of the bytes it produced returns the low `8w` bits of `v` sign-extended to 64 bits; that
value lies in `[-2^(8w-1), 2^(8w-1) - 1]` and equals `v` exactly when `v` lies in that
range. -/
theorem C10_integer_decoding (v : Int) (tok : String) (w : Nat) (h : (tok, w) ∈ intTokens)
    (mode : List String) (order : ByteOrder) (hm : (mode, order) ∈ modePrefixes) :
    ∃ b, Pack (mode ++ [tok]) [.int64 v] = .ret b none ∧
      UnPack (mode ++ [tok]) b = .ret [.int64 (signExtend w v)] none ∧
      -(2 ^ (8 * w - 1)) ≤ signExtend w v ∧ signExtend w v ≤ 2 ^ (8 * w - 1) - 1 ∧
      (signExtend w v = v ↔ -(2 ^ (8 * w - 1)) ≤ v ∧ v ≤ 2 ^ (8 * w - 1) - 1) := by
  obtain ⟨ht, hw, hl, hs⟩ := intTokens_spec tok w h
  obtain ⟨hm1, hm2, hm3, hm4⟩ := modePrefix_spec mode order hm [tok]
  refine ⟨int64ToBytes v w order, ?_, ?_, ?_⟩
  · rw [Pack_eq_view, hm1, hl, hm2]
    simp [packView, ht]
  · have hc : CalcSize [tok] = ((w : Int), none) :=
      CalcSize_single tok w hs (by rcases hw with rfl | rfl | rfl <;> decide)
    have hlen := int64ToBytes_length v w hw order
    have htake : (int64ToBytes v w order).take w = int64ToBytes v w order :=
      List.take_of_length_le (by omega)
    rw [UnPack_eq_view, hm4, hc, hm3]
    simp [unpackView, ht, hlen, htake, bytesToInt64_int64ToBytes v w hw order]
  · rcases hw with rfl | rfl | rfl <;> simp only [signExtend] <;> omega

/-- An instance of C10: under the unsigned spelling `H`, 65535 is decoded as -1. -/
theorem C10_witness :
    ∃ b, Pack ([">"] ++ ["H"]) [.int64 65535] = .ret b none ∧
      UnPack ([">"] ++ ["H"]) b = .ret [.int64 (signExtend 2 65535)] none ∧
      -(2 ^ (8 * 2 - 1)) ≤ signExtend 2 65535 ∧ signExtend 2 65535 ≤ 2 ^ (8 * 2 - 1) - 1 ∧
      (signExtend 2 65535 = 65535 ↔ -(2 ^ (8 * 2 - 1)) ≤ (65535 : Int) ∧
        (65535 : Int) ≤ 2 ^ (8 * 2 - 1) - 1) :=
  C10_integer_decoding 65535 "H" 2 (by decide) [">"] .BigEndian (by decide)

theorem packField_natCast (order : ByteOrder) (n : Nat) (s : List Nat) :
    packField order (n : Int) s =
      some (if order = .BigEndian then List.replicate (n - s.length) 0 ++ reverse (s.take n)
        else s.take n ++ List.replicate (n - s.length) 0) := by
  unfold packField
  by_cases h : (n : Int) > (s.length : Int)
  · have h1 : ((n : Int) - ((n : Int) - (s.length : Int))).toNat = s.length := by omega
    have h2 : ((n : Int) - (s.length : Int)).toNat = n - s.length := by omega
    have h3 : s.take n = s.take s.length := by
      rw [List.take_length, List.take_of_length_le (by omega)]
    have h4 : ¬ ((n : Int) - ((n : Int) - (s.length : Int)) < 0 ∨
        (n : Int) - ((n : Int) - (s.length : Int)) > (s.length : Int)) := by omega
    simp only [if_pos h, h1, h2, h3, if_neg h4]
    split_ifs <;> rfl
  · have h2 : n - s.length = 0 := by omega
    have h5 : ¬ ((n : Int) < 0 ∨ (n : Int) > (s.length : Int)) := by omega
    simp only [if_neg h, h2, if_neg h5, Int.sub_zero, Int.toNat_ofNat, Int.toNat_zero]
    split_ifs <;> rfl

theorem packField_neg (order : ByteOrder) (n : Int) (s : List Nat) (h : n < 0) :
    packField order n s = none := by
  unfold packField
  have h1 : ¬ (n > (s.length : Int)) := by omega
  simp only [if_neg h1]
  rw [if_pos (by omega)]

theorem packStr_natCast (order : ByteOrder) (n : Nat) (s : List Nat) (hn : n ≤ maxAlloc) :
    packStr order (n : Int) s =
      some (if order = .BigEndian then List.replicate (n - s.length) 0 ++ reverse (s.take n)
        else s.take n ++ List.replicate (n - s.length) 0) := by
  unfold packStr
  rw [if_neg (by omega), packField_natCast]

theorem packStr_neg (order : ByteOrder) (n : Int) (s : List Nat) (h : n < 0) :
    packStr order n s = none := by
  unfold packStr
  split_ifs
  · rfl
  · exact packField_neg order n s h

theorem packStr_big (order : ByteOrder) (n : Int) (s : List Nat) (h : n > (maxAlloc : Int)) :
    packStr order n s = none := by
  unfold packStr
  rw [if_pos h]

theorem toSigned_nonneg_of_lt (u : Nat) (h : u < 2 ^ 63) : 0 ≤ toSigned 64 u := by
  unfold toSigned
  split_ifs <;> omega

theorem Atoi_nonneg (s : List Char) (h : s.head? ≠ some '-') : 0 ≤ Atoi s := by
  unfold Atoi ParseInt
  cases s with
  | nil => simp
  | cons c cs =>
    have hc : ¬ c = '-' := by simpa using h
    simp only [hc, false_or, decide_False, Bool.false_eq_true, not_false_eq_true, true_and,
      false_and, if_false]
    split
    · simp
    · split_ifs with h1
      · decide
      · exact toSigned_nonneg_of_lt _ (by omega)

theorem TrimRight_cons_ne {α : Type} [DecidableEq α] (c x : α) (cs : List α) (h : c ≠ x) :
    TrimRight (c :: cs) x = c :: TrimRight cs x := by
  unfold TrimRight
  rw [List.reverse_cons, List.dropWhile_append]
  split_ifs with h1
  · simp only [List.isEmpty_eq_true] at h1
    simp [h1, h]
  · simp

theorem isDecimalStr_spec (f : String) (h : isDecimalStr f = true) :
    containsS f = true ∧ 0 ≤ declaredLen f ∧
      ¬ (f = "<" ∨ f = ">" ∨ f = "!" ∨ f = "?" ∨ f = "h" ∨ f = "H" ∨ f = "i" ∨ f = "I" ∨
        f = "l" ∨ f = "L" ∨ f = "q" ∨ f = "Q" ∨ f = "f" ∨ f = "d" ∨ f = "@" ∨ f = "=") := by
  refine ⟨?_, ?_, ?_⟩
  · unfold isDecimalStr at h
    unfold containsS
    simp only [String.toList] at h ⊢
    cases hf : f.data with
    | nil => simp [hf] at h
    | cons c cs =>
      simp only [hf, Bool.and_eq_true, decide_eq_true_eq] at h
      have := List.mem_of_getLast?_eq_some h.2
      simp [this]
  · unfold isDecimalStr at h
    unfold declaredLen
    simp only [String.toList] at h ⊢
    cases hf : f.data with
    | nil => simp [hf] at h
    | cons c cs =>
      simp only [hf, Bool.and_eq_true, decide_eq_true_eq] at h
      have hd : isDigit c = true := h.1.1
      have hc1 : c ≠ 's' := by
        intro hc; subst hc; exact absurd hd (by decide)
      have hc2 : c ≠ '-' := by
        intro hc; subst hc; exact absurd hd (by decide)
      rw [TrimRight_cons_ne c 's' cs hc1]
      apply Atoi_nonneg
      simpa using hc2
  · intro hf
    rcases hf with rfl | rfl | rfl | rfl | rfl | rfl | rfl | rfl | rfl | rfl | rfl | rfl | rfl |
      rfl | rfl | rfl <;> exact absurd h (by decide)

theorem recognised_spec (f : String) (h : recognised f = true) :
    tokenKind f = kindOfTok (tokOf f) ∧
      (isMarker f = true ↔ (tokOf f = .little ∨ tokOf f = .big)) ∧
      tokOf f ≠ .bad ∧ (tokOf f = .str → 0 ≤ declaredLen f) ∧ ¬ (f = "@" ∨ f = "=") ∧
      (isMarker f = true ↔ (f = "<" ∨ f = ">" ∨ f = "!")) := by
  by_cases hd : isDecimalStr f = true
  · obtain ⟨hc, hn, hne⟩ := isDecimalStr_spec f hd
    simp only [not_or] at hne
    obtain ⟨h1, h2, h3, h4, h5, h6, h7, h8, h9, h10, h11, h12, h13, h14, h15, h16⟩ := hne
    have ht : tokOf f = .str := by
      simp only [tokOf, h1, h2, h3, h4, h5, h6, h7, h8, h9, h10, h11, h12, h13, h14, hc,
        or_self, if_false, if_true]
    simp [ht, tokenKind, isMarker, kindOfTok, hd, hn, h1, h2, h3, h4, h5, h6, h7, h8, h9, h10,
      h11, h12, h13, h14, h15, h16]
  · have hf : f = "<" ∨ f = ">" ∨ f = "!" ∨ f = "?" ∨ f = "h" ∨ f = "H" ∨ f = "i" ∨ f = "I" ∨
        f = "l" ∨ f = "L" ∨ f = "q" ∨ f = "Q" ∨ f = "f" ∨ f = "d" := by
      simp only [recognised, isMarker, tokenKind, hd, Bool.or_eq_true, decide_eq_true_eq] at h
      rcases h with h | h
      · tauto
      · split_ifs at h <;> tauto
    rcases hf with rfl | rfl | rfl | rfl | rfl | rfl | rfl | rfl | rfl | rfl | rfl | rfl | rfl |
      rfl <;> decide

theorem nonMarkerCount_cons (f : String) (fs : List String) :
    nonMarkerCount (f :: fs) =
      if f = "<" ∨ f = ">" ∨ f = "!" then nonMarkerCount fs else nonMarkerCount fs + 1 := by
  unfold nonMarkerCount
  rw [List.filter_cons]
  by_cases hm : f = "<" ∨ f = ">" ∨ f = "!"
  · simp [hm]
  · simp [hm]

theorem formatLen_eq_nonMarkerCount (fs : List String) (h : ∀ f ∈ fs, recognised f = true) :
    formatLen fs = nonMarkerCount fs := by
  induction fs with
  | nil => rfl
  | cons f fs ih =>
    have hf := recognised_spec f (h f (List.mem_cons_self _ _))
    have ih' := ih (fun g hg => h g (List.mem_cons_of_mem _ hg))
    have h1 : ¬ (f = "@" ∨ f = "=") := hf.2.2.2.2.1
    rw [formatLen, nonMarkerCount_cons, ih']
    by_cases hm : f = "<" ∨ f = ">" ∨ f = "!"
    · have : f = "@" ∨ f = "=" ∨ f = "<" ∨ f = ">" ∨ f = "!" := Or.inr (Or.inr hm)
      rw [if_pos this, if_pos hm, Nat.zero_add]
    · have : ¬ (f = "@" ∨ f = "=" ∨ f = "<" ∨ f = ">" ∨ f = "!") := by tauto
      rw [if_neg this, if_neg hm, Nat.add_comm]

theorem positions_cons_marker (f : String) (fs : List String) (vs : List Value)
    (h : isMarker f = true) : positions (f :: fs) vs = positions fs vs := by
  simp [positions, List.filter_cons, h]

theorem positions_cons_data (f : String) (fs : List String) (v : Value) (vs : List Value)
    (h : isMarker f = false) : positions (f :: fs) (v :: vs) = (f, v) :: positions fs vs := by
  simp [positions, List.filter_cons, h]

theorem kindsMatch_cons_marker (f : String) (fs : List String) (vs : List Value)
    (h : isMarker f = true) : kindsMatch (f :: fs) vs = kindsMatch fs vs := by
  simp only [kindsMatch, positions_cons_marker f fs vs h]

theorem firstMismatch_cons_marker (f : String) (fs : List String) (vs : List Value)
    (h : isMarker f = true) : firstMismatch (f :: fs) vs = firstMismatch fs vs := by
  simp only [firstMismatch, positions_cons_marker f fs vs h]

theorem kindsMatch_cons_data (f : String) (fs : List String) (v : Value) (vs : List Value)
    (h : isMarker f = false) :
    kindsMatch (f :: fs) (v :: vs) = (kindOk (f, v) && kindsMatch fs vs) := by
  simp only [kindsMatch, positions_cons_data f fs v vs h, List.all_cons]

theorem firstMismatch_cons_data (f : String) (fs : List String) (v : Value) (vs : List Value)
    (h : isMarker f = false) :
    firstMismatch (f :: fs) (v :: vs) =
      if kindOk (f, v) = true then firstMismatch fs vs else some f := by
  simp only [firstMismatch, positions_cons_data f fs v vs h, List.find?_cons]
  cases kindOk (f, v) <;> simp

theorem Outcome.prepend_ne_panic {α : Type} (p : List α) (o : Outcome (List α))
    (h : o.prepend p ≠ .panic) : o ≠ .panic := fun ho => h (by rw [ho]; rfl)

theorem packView_kinds (fs : List String) :
    ∀ (order : ByteOrder) (vs : List Value), (∀ f ∈ fs, recognised f = true) →
      nonMarkerCount fs ≤ vs.length → packView order fs vs ≠ .panic →
      (kindsMatch fs vs = true → ∃ b, packView order fs vs = .ret b none) ∧
      (kindsMatch fs vs = false → ∃ b f k, firstMismatch fs vs = some f ∧
        packView order fs vs = .ret b (some (.typeMismatch f k))) := by
  induction fs with
  | nil => intro order vs _ _ _; simp [packView, kindsMatch, positions]
  | cons f fs ih =>
    intro order vs hrec hlen hnp
    obtain ⟨hk, hmark, hbad, hstr, -, hmark'⟩ := recognised_spec f (hrec f (List.mem_cons_self _ _))
    have hrec' : ∀ g ∈ fs, recognised g = true := fun g hg => hrec g (List.mem_cons_of_mem _ hg)
    rw [nonMarkerCount_cons] at hlen
    by_cases hm : isMarker f = true
    · rw [if_pos (hmark'.1 hm)] at hlen
      rw [kindsMatch_cons_marker f fs vs hm, firstMismatch_cons_marker f fs vs hm]
      rcases hmark.1 hm with ht | ht
      · simp only [packView, ht] at hnp ⊢; exact ih _ vs hrec' hlen hnp
      · simp only [packView, ht] at hnp ⊢; exact ih _ vs hrec' hlen hnp
    · rw [if_neg (fun h => hm (hmark'.2 h))] at hlen
      have hm' : isMarker f = false := by simpa using hm
      cases vs with
      | nil => simp at hlen
      | cons v vs =>
        have hlen' : nonMarkerCount fs ≤ vs.length := by simpa using hlen
        rw [kindsMatch_cons_data f fs v vs hm', firstMismatch_cons_data f fs v vs hm']
        have hko : kindOk (f, v) = match kindOfTok (tokOf f) with
            | some k => v.hasKind k
            | none => false := by simp only [kindOk, hk]
        rw [hko]
        have key : ∀ p : List Nat, (packView order fs vs).prepend p ≠ .panic →
            (kindsMatch fs vs = true → ∃ b, (packView order fs vs).prepend p = .ret b none) ∧
            (kindsMatch fs vs = false → ∃ b g, firstMismatch fs vs = some g ∧ ∃ k,
              (packView order fs vs).prepend p = .ret b (some (.typeMismatch g k))) := by
          intro p hp
          obtain ⟨ih1, ih2⟩ := ih order vs hrec' hlen' (Outcome.prepend_ne_panic p _ hp)
          constructor
          · intro hA; obtain ⟨b, hb⟩ := ih1 hA; exact ⟨p ++ b, by rw [hb]; rfl⟩
          · intro hA; obtain ⟨b, g, k, hg, hb⟩ := ih2 hA
            exact ⟨p ++ b, g, hg, k, by rw [hb]; rfl⟩
        generalize kindsMatch fs vs = A at key ⊢
        generalize firstMismatch fs vs = F at key ⊢
        cases ht : tokOf f with
        | little => exact absurd (hmark.2 (Or.inl ht)) hm
        | big => exact absurd (hmark.2 (Or.inr ht)) hm
        | bad => exact absurd ht hbad
        | bool =>
          cases v <;> first
            | (simp [packView, ht, kindOfTok, Value.hasKind]; done)
            | (simp [packView, ht, kindOfTok, Value.hasKind] at hnp ⊢; exact key _ hnp)
        | int w =>
          cases v <;> first
            | (simp [packView, ht, kindOfTok, Value.hasKind]; done)
            | (simp [packView, ht, kindOfTok, Value.hasKind] at hnp ⊢; exact key _ hnp)
        | f32 =>
          cases v <;> first
            | (simp [packView, ht, kindOfTok, Value.hasKind]; done)
            | (simp [packView, ht, kindOfTok, Value.hasKind] at hnp ⊢; exact key _ hnp)
        | f64 =>
          cases v <;> first
            | (simp [packView, ht, kindOfTok, Value.hasKind]; done)
            | (simp [packView, ht, kindOfTok, Value.hasKind] at hnp ⊢; exact key _ hnp)
        | str =>
          obtain ⟨n, hn⟩ : ∃ n : Nat, declaredLen f = (n : Int) :=
            ⟨(declaredLen f).toNat, (Int.toNat_of_nonneg (hstr ht)).symm⟩
          by_cases hbig : n ≤ maxAlloc
          · cases v <;> first
              | (simp [packView, ht, kindOfTok, Value.hasKind]; done)
              | (simp [packView, ht, kindOfTok, Value.hasKind, hn,
                  fun s => packStr_natCast order n s hbig] at hnp ⊢; exact key _ hnp)
          · cases v <;> first
              | (simp [packView, ht, kindOfTok, Value.hasKind]; done)
              | (exfalso; apply hnp
                 simp [packView, ht, hn, fun s => packStr_big order (n : Int) s (by omega)])

/-- Claim C6 as stated fails where a string field cannot be allocated: the token
`4611686018427387904s` (`N = 2^62`) is a recognised token and the value is a string, so
the kinds match, yet `Pack` does not succeed: it panics, because the runtime refuses a
field of `2^62` bytes. -/
theorem C6_counterexample :
    recognised "4611686018427387904s" = true ∧
      nonMarkerCount ["4611686018427387904s"] ≤ [Value.string [97]].length ∧
      kindsMatch ["4611686018427387904s"] [.string [97]] = true ∧
      Pack ["4611686018427387904s"] [.string [97]] = .panic := by
  refine ⟨by decide, by decide, by decide, by decide!⟩

/-- Claim C6, amended to the runs of `Pack` that return: for every format made only of
recognised tokens (markers, `?`, `h`/`H`, `i`/`I`/`l`/`L`, `q`/`Q`, `f`, `d` and decimal
`<N>s`) and every value list with at least as many values as the format has data tokens,
if `Pack` does not panic (it panics where it cannot allocate a string field), it
succeeds exactly when the value at each data token's position has that token's kind
(bool, int64, float32, float64, string); otherwise it fails with the type-mismatch error
naming the first offending token.  No value of another dynamic type (int8, int32, int,
the other float width) is accepted. -/
theorem C6_pack_succeeds_iff_kinds_match (format : List String) (values : List Value)
    (hrec : ∀ f ∈ format, recognised f = true)
    (hlen : nonMarkerCount format ≤ values.length)
    (hret : Pack format values ≠ .panic) :
    ((∃ b, Pack format values = .ret b none) ↔ kindsMatch format values = true) ∧
      (kindsMatch format values = false → ∃ b f k, firstMismatch format values = some f ∧
        Pack format values = .ret b (some (.typeMismatch f k))) := by
  have hfl : ¬ formatLen format > values.length := by
    rw [formatLen_eq_nonMarkerCount format hrec]; omega
  rw [Pack_eq_view, if_neg hfl] at hret ⊢
  obtain ⟨h1, h2⟩ := packView_kinds format .LittleEndian values hrec hlen hret
  refine ⟨⟨?_, h1⟩, h2⟩
  rintro ⟨b, hb⟩
  cases hkm : kindsMatch format values with
  | true => rfl
  | false =>
    obtain ⟨b', f, k, -, hb'⟩ := h2 hkm
    rw [hb] at hb'
    simp at hb'

/-- An instance of C6: an `int8` where `H` expects an `int64` is rejected, naming `H`. -/
theorem C6_witness :
    ((∃ b, Pack ["<", "?", "H", "3s"] [.bool true, .int8 1, .string [97]] = .ret b none) ↔
        kindsMatch ["<", "?", "H", "3s"] [.bool true, .int8 1, .string [97]] = true) ∧
      (kindsMatch ["<", "?", "H", "3s"] [.bool true, .int8 1, .string [97]] = false →
        ∃ b f k, firstMismatch ["<", "?", "H", "3s"] [.bool true, .int8 1, .string [97]] = some f ∧
          Pack ["<", "?", "H", "3s"] [.bool true, .int8 1, .string [97]]
            = .ret b (some (.typeMismatch f k))) :=
  C6_pack_succeeds_iff_kinds_match ["<", "?", "H", "3s"] [.bool true, .int8 1, .string [97]]
    (by decide) (by decide) (by decide)

theorem DecodeRune_size (s0 : Nat) (t : List Nat) :
    1 ≤ (DecodeRune (s0 :: t)).2 ∧ (DecodeRune (s0 :: t)).2 ≤ (s0 :: t).length := by
  unfold DecodeRune
  simp only []
  repeat' split
  all_goals simp

theorem runesFuel_of_le : ∀ (fuel : Nat) (s : List Nat), s.length ≤ fuel →
    runesFuel fuel s = runesFuel s.length s := by
  intro fuel
  induction fuel using Nat.strong_induction_on with
  | _ fuel ih =>
    intro s hs
    cases s with
    | nil => cases fuel <;> simp [runesFuel]
    | cons s0 t =>
      cases fuel with
      | zero => simp at hs
      | succ fuel =>
        obtain ⟨h1, h2⟩ := DecodeRune_size s0 t
        have hd : ((s0 :: t).drop (DecodeRune (s0 :: t)).2).length ≤ t.length := by
          simp only [List.length_drop, List.length_cons] at h2 ⊢; omega
        simp only [List.length_cons] at hs
        simp only [runesFuel, List.length_cons]
        rw [ih fuel (by omega) _ (by omega), ih t.length (by omega) _ hd]

theorem runes_nil : runes [] = [] := rfl

theorem runes_cons (s0 : Nat) (t : List Nat) :
    runes (s0 :: t) =
      (DecodeRune (s0 :: t)).1 :: runes ((s0 :: t).drop (DecodeRune (s0 :: t)).2) := by
  obtain ⟨h1, h2⟩ := DecodeRune_size s0 t
  have hd : ((s0 :: t).drop (DecodeRune (s0 :: t)).2).length ≤ t.length := by
    simp only [List.length_drop, List.length_cons] at h2 ⊢; omega
  simp only [runes, List.length_cons, runesFuel]
  rw [runesFuel_of_le t.length _ hd]

theorem ValidStringFuel_of_le : ∀ (fuel : Nat) (s : List Nat), s.length ≤ fuel →
    ValidStringFuel fuel s = ValidStringFuel s.length s := by
  intro fuel
  induction fuel using Nat.strong_induction_on with
  | _ fuel ih =>
    intro s hs
    cases s with
    | nil => cases fuel <;> simp [ValidStringFuel]
    | cons s0 t =>
      cases fuel with
      | zero => simp at hs
      | succ fuel =>
        obtain ⟨h1, h2⟩ := DecodeRune_size s0 t
        have hd : ((s0 :: t).drop (DecodeRune (s0 :: t)).2).length ≤ t.length := by
          simp only [List.length_drop, List.length_cons] at h2 ⊢; omega
        simp only [List.length_cons] at hs
        simp only [ValidStringFuel, List.length_cons]
        rw [ih fuel (by omega) _ (by omega), ih t.length (by omega) _ hd]

theorem ValidString_cons (s0 : Nat) (t : List Nat) :
    ValidString (s0 :: t) =
      ((decide (s0 < 0x80) || decide ((DecodeRune (s0 :: t)).2 > 1)) &&
        ValidString ((s0 :: t).drop (DecodeRune (s0 :: t)).2)) := by
  obtain ⟨h1, h2⟩ := DecodeRune_size s0 t
  have hd : ((s0 :: t).drop (DecodeRune (s0 :: t)).2).length ≤ t.length := by
    simp only [List.length_drop, List.length_cons] at h2 ⊢; omega
  simp only [ValidString, List.length_cons, ValidStringFuel]
  rw [ValidStringFuel_of_le t.length _ hd]

theorem DecodeRune_EncodeRune (r : Nat) (t : List Nat) (h : validRune r) :
    DecodeRune (EncodeRune r ++ t) = (r, (EncodeRune r).length) := by
  unfold validRune at h
  unfold EncodeRune
  split_ifs with h1 h2 h3 h4
  · simp only [List.singleton_append, DecodeRune, if_pos h1, List.length_singleton]
  · simp only [List.cons_append, List.nil_append, DecodeRune]
    rw [if_neg (by omega), if_neg (by omega),
      if_neg (by unfold acceptLo acceptHi; split_ifs <;> omega), if_pos (by omega)]
    simp only [List.length_cons, List.length_nil, Prod.mk.injEq, and_true]
    omega
  · omega
  · simp only [List.cons_append, List.nil_append, DecodeRune]
    rw [if_neg (by omega), if_neg (by omega),
      if_neg (by unfold acceptLo acceptHi; split_ifs <;> omega), if_neg (by omega),
      if_neg (by omega), if_pos (by omega)]
    simp only [List.length_cons, List.length_nil, Prod.mk.injEq, and_true]
    omega
  · simp only [List.cons_append, List.nil_append, DecodeRune]
    rw [if_neg (by omega), if_neg (by omega),
      if_neg (by unfold acceptLo acceptHi; split_ifs <;> omega), if_neg (by omega),
      if_neg (by omega), if_neg (by omega), if_neg (by omega)]
    simp only [List.length_cons, List.length_nil, Prod.mk.injEq, and_true]
    omega

theorem DecodeRune_validRune (s : List Nat) : validRune (DecodeRune s).1 := by
  unfold DecodeRune validRune acceptLo acceptHi RuneError
  repeat' split
  all_goals simp only []
  all_goals omega

theorem EncodeRune_DecodeRune (s0 : Nat) (t : List Nat)
    (h : s0 < 0x80 ∨ (DecodeRune (s0 :: t)).2 > 1) :
    EncodeRune (DecodeRune (s0 :: t)).1 = (s0 :: t).take (DecodeRune (s0 :: t)).2 := by
  by_cases h0 : s0 < 0x80
  · simp only [DecodeRune, if_pos h0, EncodeRune, List.take_succ_cons, List.take_zero]
  · have h' : (DecodeRune (s0 :: t)).2 > 1 := by tauto
    clear h
    unfold DecodeRune at h' ⊢
    simp only [if_neg h0] at h' ⊢
    by_cases h1 : s0 < 0xC2 ∨ 0xF4 < s0
    · simp [if_pos h1] at h'
    simp only [if_neg h1] at h' ⊢
    cases t with
    | nil => simp at h'
    | cons s1 t1 =>
      simp only [] at h' ⊢
      by_cases h2 : s1 < acceptLo s0 ∨ acceptHi s0 < s1
      · simp [if_pos h2] at h'
      simp only [if_neg h2] at h' ⊢
      have h2' : acceptLo s0 ≤ s1 ∧ s1 ≤ acceptHi s0 := by omega
      unfold acceptLo acceptHi at h2'
      by_cases h3 : s0 < 0xE0
      · simp only [if_pos h3, EncodeRune, List.take_succ_cons, List.take_zero]
        rw [if_neg (by split_ifs at h2' <;> omega), if_pos (by split_ifs at h2' <;> omega)]
        simp only [List.cons.injEq, and_true]
        split_ifs at h2' <;> omega
      simp only [if_neg h3] at h' ⊢
      cases t1 with
      | nil => simp at h'
      | cons s2 t2 =>
        simp only [] at h' ⊢
        by_cases h4 : s2 < 0x80 ∨ 0xBF < s2
        · simp [if_pos h4] at h'
        simp only [if_neg h4] at h' ⊢
        by_cases h5 : s0 < 0xF0
        · simp only [if_pos h5, EncodeRune, List.take_succ_cons, List.take_zero]
          rw [if_neg (by split_ifs at h2' <;> omega), if_neg (by split_ifs at h2' <;> omega),
            if_neg (by split_ifs at h2' <;> omega), if_pos (by split_ifs at h2' <;> omega)]
          simp only [List.cons.injEq, and_true]
          split_ifs at h2' <;> omega
        simp only [if_neg h5] at h' ⊢
        cases t2 with
        | nil => simp at h'
        | cons s3 t3 =>
          simp only [] at h' ⊢
          by_cases h6 : s3 < 0x80 ∨ 0xBF < s3
          · simp [if_pos h6] at h'
          simp only [if_neg h6, EncodeRune, List.take_succ_cons, List.take_zero]
          rw [if_neg (by split_ifs at h2' <;> omega), if_neg (by split_ifs at h2' <;> omega),
            if_neg (by split_ifs at h2' <;> omega), if_neg (by split_ifs at h2' <;> omega)]
          simp only [List.cons.injEq, and_true]
          split_ifs at h2' <;> omega

theorem EncodeRune_ne_nil (r : Nat) : EncodeRune r ≠ [] := by
  unfold EncodeRune; split_ifs <;> simp

theorem runes_of_ne_nil (s : List Nat) (h : s ≠ []) :
    runes s = (DecodeRune s).1 :: runes (s.drop (DecodeRune s).2) := by
  cases s with
  | nil => exact absurd rfl h
  | cons s0 t => exact runes_cons s0 t

theorem encodeRunes_cons (r : Nat) (rs : List Nat) :
    encodeRunes (r :: rs) = EncodeRune r ++ encodeRunes rs := by
  simp [encodeRunes]

theorem encodeRunes_append (xs ys : List Nat) :
    encodeRunes (xs ++ ys) = encodeRunes xs ++ encodeRunes ys := by
  simp [encodeRunes]

theorem runes_encodeRunes_append (rs : List Nat) (t : List Nat)
    (h : ∀ r ∈ rs, validRune r) : runes (encodeRunes rs ++ t) = rs ++ runes t := by
  induction rs with
  | nil => simp [encodeRunes]
  | cons r rs ih =>
    have hr : validRune r := h r (List.mem_cons_self _ _)
    have ih' := ih (fun x hx => h x (List.mem_cons_of_mem _ hx))
    rw [encodeRunes_cons, List.append_assoc]
    rw [runes_of_ne_nil _ (by simp [EncodeRune_ne_nil]), DecodeRune_EncodeRune r _ hr]
    simp only [List.drop_left, ih', List.cons_append]

theorem runes_validRune : ∀ (n : Nat) (s : List Nat), s.length ≤ n → ∀ r ∈ runes s, validRune r := by
  intro n
  induction n with
  | zero =>
    intro s hs r hr
    have : s = [] := List.length_eq_zero.mp (by omega)
    subst this; simp [runes_nil] at hr
  | succ n ih =>
    intro s hs r hr
    cases s with
    | nil => simp [runes_nil] at hr
    | cons s0 t =>
      rw [runes_cons] at hr
      obtain ⟨h1, h2⟩ := DecodeRune_size s0 t
      rcases List.mem_cons.mp hr with rfl | hr'
      · exact DecodeRune_validRune _
      · refine ih _ ?_ r hr'
        simp only [List.length_drop, List.length_cons] at hs h2 ⊢; omega

theorem encodeRunes_runes : ∀ (n : Nat) (s : List Nat), s.length ≤ n → ValidString s = true →
    encodeRunes (runes s) = s := by
  intro n
  induction n with
  | zero =>
    intro s hs _
    have : s = [] := List.length_eq_zero.mp (by omega)
    subst this; rfl
  | succ n ih =>
    intro s hs hv
    cases s with
    | nil => rfl
    | cons s0 t =>
      rw [ValidString_cons] at hv
      simp only [Bool.and_eq_true, Bool.or_eq_true, decide_eq_true_eq] at hv
      obtain ⟨h1, h2⟩ := DecodeRune_size s0 t
      have hd : ((s0 :: t).drop (DecodeRune (s0 :: t)).2).length ≤ n := by
        simp only [List.length_drop, List.length_cons] at hs h2 ⊢; omega
      rw [runes_cons, encodeRunes_cons, ih _ hd hv.2, EncodeRune_DecodeRune s0 t hv.1,
        List.take_append_drop]

theorem encodeRunes_replicate_zero (k : Nat) : encodeRunes (List.replicate k 0) = List.replicate k 0 := by
  induction k with
  | zero => rfl
  | succ k ih => rw [List.replicate_succ, encodeRunes_cons, ih]; rfl

theorem validRune_zero : validRune 0 := by unfold validRune; omega

theorem reverse_zeros_reverse (s : List Nat) (k : Nat) (hv : ValidString s = true) :
    reverse (List.replicate k 0 ++ reverse s) = s ++ List.replicate k 0 := by
  have hvalid : ∀ r ∈ List.replicate k 0 ++ (runes s).reverse, validRune r := by
    intro r hr
    rcases List.mem_append.mp hr with h | h
    · rw [(List.mem_replicate.mp h).2]; exact validRune_zero
    · exact runes_validRune _ s (Nat.le_refl _) r (List.mem_reverse.mp h)
  have h1 : List.replicate k 0 ++ reverse s
      = encodeRunes (List.replicate k 0 ++ (runes s).reverse) ++ [] := by
    rw [encodeRunes_append, encodeRunes_replicate_zero, List.append_nil]; rfl
  unfold reverse at h1 ⊢
  rw [h1, runes_encodeRunes_append _ _ hvalid, runes_nil, List.append_nil, List.reverse_append,
    List.reverse_reverse, List.reverse_replicate, encodeRunes_append, encodeRunes_replicate_zero,
    encodeRunes_runes _ s (Nat.le_refl _) hv]

theorem reverse_length (s : List Nat) (hv : ValidString s = true) :
    (reverse s).length = s.length := by
  have h := encodeRunes_runes _ s (Nat.le_refl _) hv
  have h2 : (encodeRunes (runes s).reverse).length = (encodeRunes (runes s)).length := by
    simp only [encodeRunes, List.length_flatMap, List.map_reverse, List.sum_reverse]
  unfold reverse
  rw [h2, h]

theorem TrimRight_append_zeros (s : List Nat) (k : Nat) (h : s.getLast? ≠ some 0) :
    TrimRight (s ++ List.replicate k 0) 0 = s := by
  unfold TrimRight
  rw [List.reverse_append, List.reverse_replicate, List.dropWhile_append,
    List.dropWhile_replicate]
  simp only [decide_True, if_true, List.isEmpty_nil]
  have : s.reverse.dropWhile (fun x => decide (x = 0)) = s.reverse := by
    cases hs : s.reverse with
    | nil => rfl
    | cons a l =>
      have ha : s.getLast? = some a := by
        rw [← List.head?_reverse, hs]; rfl
      have : a ≠ 0 := by
        intro h0; subst h0; exact h ha
      simp [List.dropWhile_cons, this]
  rw [this, List.reverse_reverse]

theorem runes_ascii (s : List Nat) (h : ∀ b ∈ s, b < 0x80) : runes s = s := by
  induction s with
  | nil => rfl
  | cons s0 t ih =>
    have h0 : s0 < 0x80 := h s0 (List.mem_cons_self _ _)
    rw [runes_cons]
    simp only [DecodeRune, if_pos h0, List.drop_succ_cons, List.drop_zero]
    rw [ih (fun b hb => h b (List.mem_cons_of_mem _ hb))]

theorem encodeRunes_ascii (s : List Nat) (h : ∀ b ∈ s, b < 0x80) : encodeRunes s = s := by
  induction s with
  | nil => rfl
  | cons s0 t ih =>
    have h0 : s0 < 0x80 := h s0 (List.mem_cons_self _ _)
    rw [encodeRunes_cons, ih (fun b hb => h b (List.mem_cons_of_mem _ hb))]
    simp only [EncodeRune, if_pos h0, List.singleton_append]

theorem reverse_ascii (s : List Nat) (h : ∀ b ∈ s, b < 0x80) : reverse s = s.reverse := by
  unfold reverse
  rw [runes_ascii s h, encodeRunes_ascii]
  intro b hb
  exact h b (List.mem_reverse.mp hb)

theorem digitChar_toNat (d : Nat) (h : d < 10) : (Nat.digitChar d).toNat = 48 + d := by
  interval_cases d <;> rfl

theorem toDigitsCore_append (fuel : Nat) : ∀ (n : Nat) (acc : List Char),
    Nat.toDigitsCore 10 fuel n acc = Nat.toDigitsCore 10 fuel n [] ++ acc := by
  induction fuel with
  | zero => intro n acc; simp [Nat.toDigitsCore]
  | succ fuel ih =>
    intro n acc
    simp only [Nat.toDigitsCore]
    split_ifs
    · simp
    · rw [ih _ (_ :: acc), ih _ [_]]; simp

theorem toDigitsCore_fuel : ∀ (n fuel1 fuel2 : Nat), n < fuel1 → n < fuel2 → ∀ acc,
    Nat.toDigitsCore 10 fuel1 n acc = Nat.toDigitsCore 10 fuel2 n acc := by
  intro n
  induction n using Nat.strong_induction_on with
  | _ n ih =>
    intro fuel1 fuel2 h1 h2 acc
    cases fuel1 with
    | zero => omega
    | succ fuel1 =>
      cases fuel2 with
      | zero => omega
      | succ fuel2 =>
        simp only [Nat.toDigitsCore]
        split_ifs with h0
        · rfl
        · exact ih (n / 10) (by omega) fuel1 fuel2 (by omega) (by omega) _

theorem toDigits_small (n : Nat) (h : n < 10) : Nat.toDigits 10 n = [Nat.digitChar n] := by
  simp only [Nat.toDigits, Nat.toDigitsCore]
  rw [if_pos (by omega), Nat.mod_eq_of_lt h]

theorem toDigits_step (n : Nat) (h : 10 ≤ n) :
    Nat.toDigits 10 n = Nat.toDigits 10 (n / 10) ++ [Nat.digitChar (n % 10)] := by
  have h1 : Nat.toDigits 10 n = Nat.toDigitsCore 10 (n + 1) n [] := rfl
  have h2 : Nat.toDigits 10 (n / 10) = Nat.toDigitsCore 10 (n / 10 + 1) (n / 10) [] := rfl
  rw [h1, h2, Nat.toDigitsCore]
  rw [if_neg (by omega), toDigitsCore_append,
    toDigitsCore_fuel (n / 10) n (n / 10 + 1) (by omega) (by omega)]

theorem parseUintLoop_append (xs ys : List Char) : ∀ a : Nat,
    parseUintLoop a (xs ++ ys) =
      match parseUintLoop a xs with
      | (v, none) => parseUintLoop v ys
      | r => r := by
  induction xs with
  | nil => intro a; simp [parseUintLoop]
  | cons c cs ih =>
    intro a
    simp only [List.cons_append, parseUintLoop]
    split_ifs
    · rfl
    · rfl
    · exact ih _
    · rfl

theorem parseUintLoop_toDigits : ∀ n : Nat, n < 2 ^ 64 →
    parseUintLoop 0 (Nat.toDigits 10 n) = (n, none) := by
  intro n
  induction n using Nat.strong_induction_on with
  | _ n ih =>
    intro hn
    by_cases h : n < 10
    · rw [toDigits_small n h]
      simp only [parseUintLoop, digitChar_toNat n h]
      rw [if_pos (by omega), if_neg (by omega), if_neg (by omega)]
      simp
    · have hd := digitChar_toNat (n % 10) (by omega)
      rw [toDigits_step n (by omega), parseUintLoop_append, ih (n / 10) (by omega) (by omega)]
      simp only [parseUintLoop, hd]
      rw [if_pos (by omega), if_neg (by omega), if_neg (by omega)]
      simp only [Prod.mk.injEq, and_true]
      omega

theorem toDigits_digits : ∀ n : Nat, Nat.toDigits 10 n ≠ [] ∧
    ∀ c ∈ Nat.toDigits 10 n, isDigit c = true := by
  intro n
  induction n using Nat.strong_induction_on with
  | _ n ih =>
    by_cases h : n < 10
    · rw [toDigits_small n h]
      simp [isDigit, digitChar_toNat n h]
      omega
    · have hd := digitChar_toNat (n % 10) (by omega)
      rw [toDigits_step n (by omega)]
      refine ⟨by simp, ?_⟩
      intro c hc
      rcases List.mem_append.mp hc with hc | hc
      · exact (ih (n / 10) (by omega)).2 c hc
      · simp only [List.mem_singleton] at hc
        subst hc
        simp [isDigit, hd]
        omega

theorem isDigit_ne (c : Char) (h : isDigit c = true) : c ≠ 's' ∧ c ≠ '-' ∧ c ≠ '+' := by
  refine ⟨?_, ?_, ?_⟩ <;> (intro hc; subst hc; exact absurd h (by decide))

theorem decimalToken_spec (N : Nat) (h : N < 2 ^ 63) :
    isDecimalStr (decimalToken N) = true ∧ declaredLen (decimalToken N) = (N : Int) := by
  obtain ⟨hne, hdig⟩ := toDigits_digits N
  have hparse := parseUintLoop_toDigits N (by omega)
  unfold isDecimalStr declaredLen decimalToken
  simp only [String.toList]
  generalize Nat.toDigits 10 N = ds at hne hdig hparse
  cases ds with
  | nil => exact absurd rfl hne
  | cons c cs =>
    have hc : isDigit c = true := hdig c (List.mem_cons_self _ _)
    have hcs : ∀ x ∈ cs, isDigit x = true := fun x hx => hdig x (List.mem_cons_of_mem _ hx)
    obtain ⟨hc1, hc2, hc3⟩ := isDigit_ne c hc
    constructor
    · simp only [List.cons_append, hc, Bool.true_and, Bool.and_eq_true, decide_eq_true_eq]
      constructor
      · rw [List.dropLast_concat]
        exact List.all_eq_true.mpr hcs
      · simp
    · have htrim : TrimRight (c :: cs ++ ['s']) 's' = c :: cs := by
        unfold TrimRight
        rw [List.reverse_append]
        simp only [List.reverse_cons, List.reverse_nil, List.nil_append, List.singleton_append,
          List.dropWhile_cons, decide_True, if_true]
        have hall : ∀ x ∈ cs.reverse ++ [c], decide (x = 's') = false := by
          intro x hx
          have hx' : isDigit x = true := by
            rcases List.mem_append.mp hx with hx | hx
            · exact hcs x (List.mem_reverse.mp hx)
            · simp only [List.mem_singleton] at hx; rw [hx]; exact hc
          simpa using (isDigit_ne x hx').1
        have hdw : ∀ l : List Char, (∀ x ∈ l, decide (x = 's') = false) →
            l.dropWhile (fun x => decide (x = 's')) = l := by
          intro l hl
          cases l with
          | nil => rfl
          | cons a l => simp [List.dropWhile_cons, hl a (List.mem_cons_self _ _)]
        rw [hdw _ hall]
        simp
      rw [htrim]
      unfold Atoi ParseInt
      simp only [hc2, hc3, or_self, if_false, ParseUint, reduceCtorEq, hparse, decide_False,
        Bool.false_eq_true, not_false_eq_true, true_and, false_and]
      rw [if_neg (by omega)]
      unfold toSigned
      rw [if_pos (by omega)]
      omega

theorem isDecimalStr_tok (f : String) (hd : isDecimalStr f = true) :
    tokOf f = .str ∧ formatLen [f] = 1 := by
  obtain ⟨hc, -, hne⟩ := isDecimalStr_spec f hd
  simp only [not_or] at hne
  obtain ⟨h1, h2, h3, h4, h5, h6, h7, h8, h9, h10, h11, h12, h13, h14, h15, h16⟩ := hne
  constructor
  · simp only [tokOf, h1, h2, h3, h4, h5, h6, h7, h8, h9, h10, h11, h12, h13, h14, hc,
      or_self, if_false, if_true]
  · have : ¬ (f = "@" ∨ f = "=" ∨ f = "<" ∨ f = ">" ∨ f = "!") := by tauto
    simp only [formatLen, if_neg this]

theorem decimalToken_tok (N : Nat) (h : N < 2 ^ 63) :
    tokOf (decimalToken N) = .str ∧ formatLen [decimalToken N] = 1 ∧
      declaredLen (decimalToken N) = (N : Int) := by
  obtain ⟨hd, hl⟩ := decimalToken_spec N h
  obtain ⟨ht, hf⟩ := isDecimalStr_tok _ hd
  exact ⟨ht, hf, hl⟩

theorem Pack_single_str (f : String) (K : Nat) (ht : tokOf f = .str)
    (hl : formatLen [f] = 1) (hd : declaredLen f = (K : Int)) (s : List Nat)
    (mode : List String) (order : ByteOrder) (hm : (mode, order) ∈ modePrefixes) :
    Pack (mode ++ [f]) [.string s] =
      if K ≤ maxAlloc then
        .ret (if order = .BigEndian then List.replicate (K - s.length) 0 ++ reverse (s.take K)
          else s.take K ++ List.replicate (K - s.length) 0) none
      else .panic := by
  obtain ⟨hm1, hm2, -, -⟩ := modePrefix_spec mode order hm [f]
  rw [Pack_eq_view, hm1, hl, hm2]
  by_cases hK : K ≤ maxAlloc
  · simp only [List.length_singleton, gt_iff_lt, Nat.lt_irrefl, if_false, packView, ht,
      List.head?_cons, hd, packStr_natCast order K s hK, List.tail_cons, Outcome.prepend_ret,
      List.append_nil, if_pos hK]
  · simp only [List.length_singleton, gt_iff_lt, Nat.lt_irrefl, if_false, packView, ht,
      List.head?_cons, hd, packStr_big order (K : Int) s (by omega), if_neg hK]

theorem tokOf_int_width (f : String) (w : Nat) (h : tokOf f = .int w) :
    w = 2 ∨ w = 4 ∨ w = 8 := by
  unfold tokOf at h
  split_ifs at h <;> simp at h <;> omega

theorem specWidth_eq_tok (f : String) :
    specWidth f =
      match tokOf f with
      | .little => some 0
      | .big => some 0
      | .bool => some 1
      | .int w => some (w : Int)
      | .f32 => some 4
      | .f64 => some 8
      | .str => some (declaredLen f)
      | .bad => none := by
  unfold specWidth tokOf
  by_cases h1 : f = "<"
  · subst h1; decide
  by_cases h2 : f = ">" ∨ f = "!"
  · rcases h2 with rfl | rfl <;> decide
  by_cases h3 : f = "?"
  · subst h3; decide
  by_cases h4 : f = "h" ∨ f = "H"
  · rcases h4 with rfl | rfl <;> decide
  by_cases h5 : f = "i" ∨ f = "I" ∨ f = "l" ∨ f = "L"
  · rcases h5 with rfl | rfl | rfl | rfl <;> decide
  by_cases h6 : f = "q" ∨ f = "Q"
  · rcases h6 with rfl | rfl <;> decide
  by_cases h7 : f = "f"
  · subst h7; decide
  by_cases h8 : f = "d"
  · subst h8; decide
  have e1 : ¬ (f = "<" ∨ f = ">" ∨ f = "!") := by tauto
  have e4 : ¬ (f = "i" ∨ f = "I" ∨ f = "l" ∨ f = "L" ∨ f = "f") := by tauto
  have e5 : ¬ (f = "q" ∨ f = "Q" ∨ f = "d") := by tauto
  simp only [if_neg h1, if_neg h2, if_neg h3, if_neg h4, if_neg h5, if_neg h6, if_neg h7,
    if_neg h8, if_neg e1, if_neg e4, if_neg e5]
  split_ifs <;> rfl

theorem bytesToBool_boolToBytes (x : Bool) (order : ByteOrder) :
    bytesToBool (boolToBytes x order) order = x ∧ (boolToBytes x order).length = 1 := by
  cases x <;> cases order <;> decide

theorem putUint32_little (v : Nat) :
    putUint32 .LittleEndian v = (List.range 4).map (fun k => v / 256 ^ k % 256) := by
  simp [putUint32, List.range_succ]

theorem putUint32_big (v : Nat) :
    putUint32 .BigEndian v = ((List.range 4).map (fun k => v / 256 ^ k % 256)).reverse := by
  simp [putUint32, List.range_succ]

theorem putUint64_little (v : Nat) :
    putUint64 .LittleEndian v = (List.range 8).map (fun k => v / 256 ^ k % 256) := by
  simp [putUint64, List.range_succ]

theorem putUint64_big (v : Nat) :
    putUint64 .BigEndian v = ((List.range 8).map (fun k => v / 256 ^ k % 256)).reverse := by
  simp [putUint64, List.range_succ]

theorem getUint_putUint32 (order : ByteOrder) (v : Nat) :
    getUint order (putUint32 order v) = v % 2 ^ 32 ∧ (putUint32 order v).length = 4 := by
  cases order
  · rw [putUint32_little, getUint_little_range]; simp
  · rw [putUint32_big, getUint_big_reverse, getUint_little_range]; simp

theorem getUint_putUint64 (order : ByteOrder) (v : Nat) :
    getUint order (putUint64 order v) = v % 2 ^ 64 ∧ (putUint64 order v).length = 8 := by
  cases order
  · rw [putUint64_little, getUint_little_range]; simp
  · rw [putUint64_big, getUint_big_reverse, getUint_little_range]; simp

theorem bytesToFloat32_float32ToBytes (bits : Nat) (h : bits < 2 ^ 32) (order : ByteOrder) :
    bytesToFloat32 (float32ToBytes bits 4 order) order = bits ∧
      (float32ToBytes bits 4 order).length = 4 := by
  obtain ⟨h1, h2⟩ := getUint_putUint32 order (bits % 2 ^ 32)
  have hb : float32ToBytes bits 4 order = putUint32 order (bits % 2 ^ 32) := by
    unfold float32ToBytes
    split_ifs
    · simp
    · exact List.take_of_length_le (by omega)
  rw [hb]
  refine ⟨?_, h2⟩
  unfold bytesToFloat32
  rw [if_neg (by omega), List.take_of_length_le (by omega), h1]
  omega

theorem bytesToFloat64_float64ToBytes (bits : Nat) (h : bits < 2 ^ 64) (order : ByteOrder) :
    bytesToFloat64 (float64ToBytes bits 8 order) order = bits ∧
      (float64ToBytes bits 8 order).length = 8 := by
  obtain ⟨h1, h2⟩ := getUint_putUint64 order (bits % 2 ^ 64)
  have hb : float64ToBytes bits 8 order = putUint64 order (bits % 2 ^ 64) := by
    unfold float64ToBytes
    split_ifs
    · simp
    · exact List.take_of_length_le (by omega)
  rw [hb]
  refine ⟨?_, h2⟩
  unfold bytesToFloat64
  rw [if_neg (by omega), List.take_of_length_le (by omega), h1]
  omega

theorem signExtend_of_range (w : Nat) (hw : w = 2 ∨ w = 4 ∨ w = 8) (n : Int)
    (h : -(2 : Int) ^ (8 * w - 1) ≤ n ∧ n < (2 : Int) ^ (8 * w - 1)) : signExtend w n = n := by
  rcases hw with rfl | rfl | rfl <;> simp only [signExtend] at * <;> omega

theorem unpackStr_packStr (order : ByteOrder) (n : Nat) (s : List Nat) (hl : s.length ≤ n)
    (hn : n ≤ maxAlloc) (h0 : s.getLast? ≠ some 0)
    (hv : order = .LittleEndian ∨ ValidString s = true) :
    ∃ b, packStr order (n : Int) s = some b ∧ b.length = n ∧ unpackStr order b = s := by
  rw [packStr_natCast order n s hn]
  have ht : s.take n = s := List.take_of_length_le hl
  refine ⟨_, rfl, ?_, ?_⟩
  · rw [ht]
    cases order with
    | LittleEndian => simp; omega
    | BigEndian =>
      have hv' : ValidString s = true := by simpa using hv
      simp [reverse_length s hv']; omega
  · rw [ht]
    cases order with
    | LittleEndian => simp [unpackStr, TrimRight_append_zeros s _ h0]
    | BigEndian =>
      have hv' : ValidString s = true := by simpa using hv
      simp [unpackStr, reverse_zeros_reverse s _ hv', TrimRight_append_zeros s _ h0]

theorem wrapInt_range (x : Int) : -(2 ^ 63) ≤ wrapInt x ∧ wrapInt x < 2 ^ 63 := by
  unfold wrapInt; omega

theorem wrapInt_le (x : Int) (h : -(2 ^ 63) ≤ x) : wrapInt x ≤ x := by
  unfold wrapInt; omega

theorem formatLen_cons_tok (f : String) (fs : List String) :
    formatLen (f :: fs) =
      match tokOf f with
      | .little => formatLen fs
      | .big => formatLen fs
      | .bad => formatLen (f :: fs)
      | _ => 1 + formatLen fs := by
  by_cases hm : f = "<" ∨ f = ">" ∨ f = "!"
  · rw [formatLen_cons_marker f fs hm]
    rcases (tokOf_marker_or f).1 hm with h | h <;> simp [h]
  · have hm' : ¬ (tokOf f = .little ∨ tokOf f = .big) := fun h => hm ((tokOf_marker_or f).2 h)
    by_cases ha : f = "@" ∨ f = "="
    · have : tokOf f = .bad := by rcases ha with rfl | rfl <;> decide
      simp [this]
    · have : ¬ (f = "@" ∨ f = "=" ∨ f = "<" ∨ f = ">" ∨ f = "!") := by tauto
      cases ht : tokOf f <;> simp [formatLen, if_neg this] <;> simp [ht] at hm'

theorem take_drop_append {α : Type} (p b : List α) (w : Nat) (h : p.length = w) :
    (p ++ b).take w = p ∧ (p ++ b).drop w = b := by
  subst h; simp

theorem lossless_roundtrip (fs : List String) :
    ∀ (order : ByteOrder) (vs : List Value) (size : Int),
      -(2 ^ 63) ≤ size → size < 2 ^ 63 → lossless order fs vs = true →
      packView order fs vs ≠ .panic →
      formatLen fs = vs.length ∧
      ∃ b, packView order fs vs = .ret b none ∧
        (∀ rest, unpackView order fs (b ++ rest) = .ret vs none) ∧
        ∃ n, CalcSizeLoop fs size = (n, none) ∧ n ≤ size + b.length := by
  induction fs with
  | nil =>
    intro order vs size h1 h2 h _
    simp only [lossless, List.isEmpty_iff] at h
    subst h
    exact ⟨rfl, [], rfl, fun _ => rfl, size, rfl, by simp⟩
  | cons f fs ih =>
    intro order vs size h1 h2 h hnp
    have hspec := specWidth_eq_tok f
    have hfl := formatLen_cons_tok f fs
    have hwr : ∀ w : Int, 0 ≤ w → -(2 ^ 63) ≤ wrapInt (size + w) ∧ wrapInt (size + w) < 2 ^ 63 ∧
        wrapInt (size + w) ≤ size + w :=
      fun w hw => ⟨(wrapInt_range _).1, (wrapInt_range _).2, wrapInt_le _ (by omega)⟩
    rw [CalcSizeLoop_cons, hspec, hfl]
    unfold lossless at h
    unfold packView at hnp
    unfold packView unpackView
    cases ht : tokOf f with
    | little =>
      simp only [ht] at h hnp ⊢
      obtain ⟨r1, r2, r3⟩ := hwr 0 (by omega)
      obtain ⟨e1, b, e2, e3, n, e4, e5⟩ := ih .LittleEndian vs _ r1 r2 h hnp
      exact ⟨e1, b, e2, e3, n, e4, by omega⟩
    | big =>
      simp only [ht] at h hnp ⊢
      obtain ⟨r1, r2, r3⟩ := hwr 0 (by omega)
      obtain ⟨e1, b, e2, e3, n, e4, e5⟩ := ih .BigEndian vs _ r1 r2 h hnp
      exact ⟨e1, b, e2, e3, n, e4, by omega⟩
    | bad => simp [ht] at h
    | bool =>
      simp only [ht] at h hnp ⊢
      obtain ⟨r1, r2, r3⟩ := hwr 1 (by omega)
      cases vs with
      | nil => simp at h
      | cons v vs =>
        simp only [List.head?_cons, List.tail_cons] at h hnp ⊢
        cases v <;> simp only [Bool.false_eq_true] at h
        rename_i x
        have hnp' : packView order fs vs ≠ .panic := fun hp => hnp (by rw [hp]; rfl)
        obtain ⟨e1, b, e2, e3, n, e4, e5⟩ := ih order vs _ r1 r2 h hnp'
        obtain ⟨d1, d2⟩ := bytesToBool_boolToBytes x order
        refine ⟨by rw [e1, List.length_cons, Nat.add_comm], boolToBytes x order ++ b, by simp [e2], ?_, n, e4, ?_⟩
        · intro rest
          have hlen : ¬ (boolToBytes x order ++ b ++ rest).length < 1 := by simp [d2]
          obtain ⟨t1, t2⟩ := take_drop_append _ (b ++ rest) _ d2
          rw [if_neg hlen, List.append_assoc, t1, t2, e3, d1]
          rfl
        · simp only [List.length_append, d2]; push_cast; omega
    | int w =>
      simp only [ht] at h hnp ⊢
      obtain ⟨r1, r2, r3⟩ := hwr w (by omega)
      have hw := tokOf_int_width f w ht
      cases vs with
      | nil => simp at h
      | cons v vs =>
        simp only [List.head?_cons, List.tail_cons] at h hnp ⊢
        cases v <;> simp only [Bool.false_eq_true, Bool.and_eq_true, decide_eq_true_eq] at h
        rename_i x
        have hnp' : packView order fs vs ≠ .panic := fun hp => hnp (by rw [hp]; rfl)
        obtain ⟨e1, b, e2, e3, n, e4, e5⟩ := ih order vs _ r1 r2 h.2 hnp'
        have d1 : bytesToInt64 (int64ToBytes x w order) order = x := by
          rw [bytesToInt64_int64ToBytes x w hw order, signExtend_of_range w hw x h.1]
        have d2 := int64ToBytes_length x w hw order
        refine ⟨by rw [e1, List.length_cons, Nat.add_comm], int64ToBytes x w order ++ b, by simp [e2], ?_, n, e4, ?_⟩
        · intro rest
          have hlen : ¬ (int64ToBytes x w order ++ b ++ rest).length < w := by simp [d2]
          obtain ⟨t1, t2⟩ := take_drop_append _ (b ++ rest) _ d2
          rw [if_neg hlen, List.append_assoc, t1, t2, e3, d1]
          rfl
        · simp only [List.length_append, d2]; push_cast; omega
    | f32 =>
      simp only [ht] at h hnp ⊢
      obtain ⟨r1, r2, r3⟩ := hwr 4 (by omega)
      cases vs with
      | nil => simp at h
      | cons v vs =>
        simp only [List.head?_cons, List.tail_cons] at h hnp ⊢
        cases v <;> simp only [Bool.false_eq_true, Bool.and_eq_true, decide_eq_true_eq] at h
        rename_i x
        have hnp' : packView order fs vs ≠ .panic := fun hp => hnp (by rw [hp]; rfl)
        obtain ⟨e1, b, e2, e3, n, e4, e5⟩ := ih order vs _ r1 r2 h.2 hnp'
        obtain ⟨d1, d2⟩ := bytesToFloat32_float32ToBytes x h.1 order
        refine ⟨by rw [e1, List.length_cons, Nat.add_comm], float32ToBytes x 4 order ++ b, by simp [e2], ?_, n, e4, ?_⟩
        · intro rest
          have hlen : ¬ (float32ToBytes x 4 order ++ b ++ rest).length < 4 := by simp [d2]
          obtain ⟨t1, t2⟩ := take_drop_append _ (b ++ rest) _ d2
          rw [if_neg hlen, List.append_assoc, t1, t2, e3, d1]
          rfl
        · simp only [List.length_append, d2]; push_cast; omega
    | f64 =>
      simp only [ht] at h hnp ⊢
      obtain ⟨r1, r2, r3⟩ := hwr 8 (by omega)
      cases vs with
      | nil => simp at h
      | cons v vs =>
        simp only [List.head?_cons, List.tail_cons] at h hnp ⊢
        cases v <;> simp only [Bool.false_eq_true, Bool.and_eq_true, decide_eq_true_eq] at h
        rename_i x
        have hnp' : packView order fs vs ≠ .panic := fun hp => hnp (by rw [hp]; rfl)
        obtain ⟨e1, b, e2, e3, n, e4, e5⟩ := ih order vs _ r1 r2 h.2 hnp'
        obtain ⟨d1, d2⟩ := bytesToFloat64_float64ToBytes x h.1 order
        refine ⟨by rw [e1, List.length_cons, Nat.add_comm], float64ToBytes x 8 order ++ b, by simp [e2], ?_, n, e4, ?_⟩
        · intro rest
          have hlen : ¬ (float64ToBytes x 8 order ++ b ++ rest).length < 8 := by simp [d2]
          obtain ⟨t1, t2⟩ := take_drop_append _ (b ++ rest) _ d2
          rw [if_neg hlen, List.append_assoc, t1, t2, e3, d1]
          rfl
        · simp only [List.length_append, d2]; push_cast; omega
    | str =>
      simp only [ht] at h hnp ⊢
      cases vs with
      | nil => simp at h
      | cons v vs =>
        simp only [List.head?_cons, List.tail_cons] at h hnp ⊢
        cases v <;> simp only [Bool.false_eq_true, Bool.and_eq_true, Bool.or_eq_true,
          decide_eq_true_eq] at h
        rename_i s
        obtain ⟨⟨⟨hlen, hlast⟩, hvalid⟩, hrest⟩ := h
        have hnn : 0 ≤ declaredLen f := by omega
        obtain ⟨k, hk⟩ : ∃ k : Nat, declaredLen f = (k : Int) :=
          ⟨(declaredLen f).toNat, (Int.toNat_of_nonneg hnn).symm⟩
        obtain ⟨r1, r2, r3⟩ := hwr (declaredLen f) hnn
        simp only [] at hnp
        have hbig : k ≤ maxAlloc := by
          by_contra hb
          rw [packStr_big order _ s (by omega)] at hnp
          exact hnp rfl
        obtain ⟨p, d0, d2, d1⟩ := unpackStr_packStr order k s (by omega) hbig hlast hvalid
        rw [hk, d0] at hnp
        have hnp' : packView order fs vs ≠ .panic := fun hp => hnp (by rw [hp]; rfl)
        obtain ⟨e1, b, e2, e3, n, e4, e5⟩ := ih order vs _ r1 r2 hrest hnp'
        refine ⟨by rw [e1, List.length_cons, Nat.add_comm], p ++ b, by simp [hk, d0, e2], ?_, n, e4, ?_⟩
        · intro rest
          have hl : ¬ (declaredLen f < 0 ∨ declaredLen f > ((p ++ b ++ rest).length : Int)) := by
            simp only [List.length_append, d2]; push_cast; omega
          obtain ⟨t1, t2⟩ := take_drop_append _ (b ++ rest) _ d2
          rw [if_neg hl, List.append_assoc, hk, Int.toNat_ofNat, t1, t2, e3, d1]
          rfl
        · simp only [List.length_append, d2]; push_cast; omega

/-- Claim C1 as stated fails: `h` is a supported token and 70000 an `int64`, `Pack`
succeeds with the two low-order bytes, and `UnPack` returns 4464, not 70000. -/
theorem C1_counterexample :
    recognised "h" = true ∧ kindsMatch ["h"] [.int64 70000] = true ∧
      Pack ["h"] [.int64 70000] = .ret [112, 17] none ∧
      UnPack ["h"] [112, 17] = .ret [.int64 4464] none ∧
      UnPack ["h"] [112, 17] ≠ .ret [.int64 70000] none := by
  refine ⟨by decide, by decide, by decide, by decide, by decide⟩

/-- Claim C1, amended: for every format and every value list that the format carries
without loss (`lossless`: kinds match the data tokens one for one, every integer lies in
the signed range of its token's width, every string is at most as long as its token
declares, does not end in a zero byte and is valid UTF-8 where it is packed in
big-endian mode), if `Pack` succeeds with bytes `b`, then `UnPack` of the same format on
`b` succeeds and returns exactly the values.  Floats are compared by bit pattern. -/
theorem C1_round_trip (format : List String) (values : List Value)
    (h : lossless .LittleEndian format values = true) (b : List Nat)
    (hb : Pack format values = .ret b none) :
    UnPack format b = .ret values none := by
  rw [Pack_eq_view] at hb
  by_cases hl : formatLen format > values.length
  · rw [if_pos hl] at hb; simp at hb
  rw [if_neg hl] at hb
  obtain ⟨-, b', hp, hu, n, hc, hn⟩ :=
    lossless_roundtrip format .LittleEndian values 0 (by decide) (by decide) h
      (by rw [hb]; simp)
  rw [hb] at hp
  simp only [Outcome.ret.injEq, and_true] at hp
  subst hp
  have hu' := hu []
  rw [List.append_nil] at hu'
  have hc' : CalcSize format = (n, none) := hc
  rw [UnPack_eq_view, hc']
  simp only []
  rw [if_neg (by omega), hu']

/-- An instance of C1: a format that switches mode twice, with every kind of value. -/
theorem C1_witness :
    UnPack ["!", "i", "?", "5s", "<", "h", "f", "d", "2s", ">", "Q"]
        [255, 255, 255, 251, 1, 0, 0, 68, 195, 169, 252, 8, 154, 153, 169, 64, 0, 176, 48, 168,
          108, 51, 21, 64, 97, 0, 255, 255, 255, 255, 255, 255, 255, 255]
      = .ret [.int64 (-5), .bool true, .string [0xC3, 0xA9, 68], .int64 2300,
        .float32 1084856730, .float64 4617653534709559296, .string [97], .int64 (-1)] none :=
  C1_round_trip ["!", "i", "?", "5s", "<", "h", "f", "d", "2s", ">", "Q"]
    [.int64 (-5), .bool true, .string [0xC3, 0xA9, 68], .int64 2300, .float32 1084856730,
      .float64 4617653534709559296, .string [97], .int64 (-1)] (by decide)
    [255, 255, 255, 251, 1, 0, 0, 68, 195, 169, 252, 8, 154, 153, 169, 64, 0, 176, 48, 168,
      108, 51, 21, 64, 97, 0, 255, 255, 255, 255, 255, 255, 255, 255] (by decide)

theorem Outcome.prepend_eq_ret {α : Type} (p b : List α) (e : Option Error)
    (o : Outcome (List α)) (h : o.prepend p = .ret b e) : ∃ b', o = .ret b' e ∧ b = p ++ b' := by
  cases o with
  | panic => simp at h
  | ret r e' =>
    simp only [Outcome.prepend_ret, Outcome.ret.injEq] at h
    exact ⟨r, by rw [h.2], h.1.symm⟩

theorem packView_extra (fs : List String) :
    ∀ (order : ByteOrder) (vs : List Value) (b : List Nat) (extra : List Value),
      packView order fs vs = .ret b none → packView order fs (vs ++ extra) = .ret b none := by
  induction fs with
  | nil => intro order vs b extra h; simpa [packView] using h
  | cons f fs ih =>
    intro order vs b extra h
    unfold packView at h ⊢
    cases ht : tokOf f with
    | little => simp only [ht] at h ⊢; exact ih _ _ _ _ h
    | big => simp only [ht] at h ⊢; exact ih _ _ _ _ h
    | bad => simp [ht] at h
    | bool =>
      simp only [ht] at h ⊢
      cases vs with
      | nil => simp at h
      | cons v vs =>
        simp only [List.cons_append, List.head?_cons, List.tail_cons] at h ⊢
        cases v <;> simp only [reduceCtorEq, Outcome.ret.injEq, and_false] at h
        obtain ⟨b', hb', rfl⟩ := Outcome.prepend_eq_ret _ _ _ _ h
        rw [ih _ _ _ extra hb']; rfl
    | int w =>
      simp only [ht] at h ⊢
      cases vs with
      | nil => simp at h
      | cons v vs =>
        simp only [List.cons_append, List.head?_cons, List.tail_cons] at h ⊢
        cases v <;> simp only [reduceCtorEq, Outcome.ret.injEq, and_false] at h
        obtain ⟨b', hb', rfl⟩ := Outcome.prepend_eq_ret _ _ _ _ h
        rw [ih _ _ _ extra hb']; rfl
    | f32 =>
      simp only [ht] at h ⊢
      cases vs with
      | nil => simp at h
      | cons v vs =>
        simp only [List.cons_append, List.head?_cons, List.tail_cons] at h ⊢
        cases v <;> simp only [reduceCtorEq, Outcome.ret.injEq, and_false] at h
        obtain ⟨b', hb', rfl⟩ := Outcome.prepend_eq_ret _ _ _ _ h
        rw [ih _ _ _ extra hb']; rfl
    | f64 =>
      simp only [ht] at h ⊢
      cases vs with
      | nil => simp at h
      | cons v vs =>
        simp only [List.cons_append, List.head?_cons, List.tail_cons] at h ⊢
        cases v <;> simp only [reduceCtorEq, Outcome.ret.injEq, and_false] at h
        obtain ⟨b', hb', rfl⟩ := Outcome.prepend_eq_ret _ _ _ _ h
        rw [ih _ _ _ extra hb']; rfl
    | str =>
      simp only [ht] at h ⊢
      cases vs with
      | nil => simp at h
      | cons v vs =>
        simp only [List.cons_append, List.head?_cons, List.tail_cons] at h ⊢
        cases v <;> simp only [reduceCtorEq, Outcome.ret.injEq, and_false] at h
        rename_i s
        cases hp : packStr order (declaredLen f) s with
        | none => simp [hp] at h
        | some p =>
          simp only [hp] at h ⊢
          obtain ⟨b', hb', rfl⟩ := Outcome.prepend_eq_ret _ _ _ _ h
          rw [ih _ _ _ extra hb']; rfl

/-- Claim C15: extra trailing values are ignored.  For every format `f` and value lists
`v` and `extra`, if `Pack f v` succeeds then `Pack f (v ++ extra)` succeeds and returns
the same bytes. -/
theorem C15_extra_values_ignored (format : List String) (v extra : List Value) (b : List Nat)
    (h : Pack format v = .ret b none) : Pack format (v ++ extra) = .ret b none := by
  rw [Pack_eq_view] at h ⊢
  by_cases hl : formatLen format > v.length
  · rw [if_pos hl] at h; simp at h
  · rw [if_neg hl] at h
    have hl' : ¬ formatLen format > (v ++ extra).length := by
      rw [List.length_append]; omega
    rw [if_neg hl']
    exact packView_extra format _ v b extra h

/-- An instance of C15: a third value after the two that `H`, `2s` consume. -/
theorem C15_witness :
    Pack ["H", "2s"] ([.int64 5, .string [97]] ++ [.bool true]) = .ret [5, 0, 97, 0] none :=
  C15_extra_values_ignored ["H", "2s"] [.int64 5, .string [97]] [.bool true] [5, 0, 97, 0]
    (by decide)

theorem Outcome.prependOk_eq_ret {α : Type} (p r : List α) (o : Outcome (List α))
    (h : o.prependOk p = .ret r none) : ∃ r', o = .ret r' none ∧ r = p ++ r' := by
  cases o with
  | panic => simp at h
  | ret r' e =>
    cases e with
    | some e => simp at h
    | none =>
      simp only [Outcome.prependOk_ret, Outcome.ret.injEq, and_true] at h
      exact ⟨r', rfl, h.symm⟩

theorem take_drop_append_extra {α : Type} (msg extra : List α) (w : Nat) (h : ¬ msg.length < w) :
    (msg ++ extra).take w = msg.take w ∧ (msg ++ extra).drop w = msg.drop w ++ extra ∧
      ¬ (msg ++ extra).length < w := by
  refine ⟨List.take_append_of_le_length (by omega), List.drop_append_of_le_length (by omega), ?_⟩
  rw [List.length_append]; omega

theorem unpackView_extra (fs : List String) :
    ∀ (order : ByteOrder) (msg : List Nat) (vs : List Value) (extra : List Nat),
      unpackView order fs msg = .ret vs none →
      unpackView order fs (msg ++ extra) = .ret vs none := by
  induction fs with
  | nil => intro order msg vs extra h; simpa [unpackView] using h
  | cons f fs ih =>
    intro order msg vs extra h
    have key : ∀ (w : Nat) (mk : List Nat → Value), ¬ msg.length < w →
        (unpackView order fs (msg.drop w)).prependOk [mk (msg.take w)] = .ret vs none →
        (unpackView order fs ((msg ++ extra).drop w)).prependOk [mk ((msg ++ extra).take w)]
          = .ret vs none := by
      intro w mk hw hr
      obtain ⟨t1, t2, -⟩ := take_drop_append_extra msg extra w hw
      obtain ⟨r', hr', rfl⟩ := Outcome.prependOk_eq_ret _ _ _ hr
      rw [t1, t2, ih _ _ _ extra hr']; rfl
    unfold unpackView at h ⊢
    cases ht : tokOf f with
    | little => simp only [ht] at h ⊢; exact ih _ _ _ _ h
    | big => simp only [ht] at h ⊢; exact ih _ _ _ _ h
    | bad => simp [ht] at h
    | bool =>
      simp only [ht] at h ⊢
      by_cases hw : msg.length < 1
      · rw [if_pos hw] at h; simp at h
      · rw [if_neg hw] at h
        rw [if_neg (take_drop_append_extra msg extra 1 hw).2.2]
        exact key 1 (fun x => .bool (bytesToBool x order)) hw h
    | int w =>
      simp only [ht] at h ⊢
      by_cases hw : msg.length < w
      · rw [if_pos hw] at h; simp at h
      · rw [if_neg hw] at h
        rw [if_neg (take_drop_append_extra msg extra w hw).2.2]
        exact key w (fun x => .int64 (bytesToInt64 x order)) hw h
    | f32 =>
      simp only [ht] at h ⊢
      by_cases hw : msg.length < 4
      · rw [if_pos hw] at h; simp at h
      · rw [if_neg hw] at h
        rw [if_neg (take_drop_append_extra msg extra 4 hw).2.2]
        exact key 4 (fun x => .float32 (bytesToFloat32 x order)) hw h
    | f64 =>
      simp only [ht] at h ⊢
      by_cases hw : msg.length < 8
      · rw [if_pos hw] at h; simp at h
      · rw [if_neg hw] at h
        rw [if_neg (take_drop_append_extra msg extra 8 hw).2.2]
        exact key 8 (fun x => .float64 (bytesToFloat64 x order)) hw h
    | str =>
      simp only [ht] at h ⊢
      by_cases hw : declaredLen f < 0 ∨ declaredLen f > (msg.length : Int)
      · rw [if_pos hw] at h; simp at h
      · rw [if_neg hw] at h
        have hw' : ¬ msg.length < (declaredLen f).toNat := by omega
        have hw'' : ¬ (declaredLen f < 0 ∨ declaredLen f > ((msg ++ extra).length : Int)) := by
          rw [List.length_append]; push_cast; omega
        rw [if_neg hw'']
        exact key _ (fun x => .string (unpackStr order x)) hw' h

/-- Claim C16: only the leading bytes of the buffer matter to `UnPack`.  For every format
`f` and byte buffers `b` and `extra`, if `UnPack f b` succeeds then `UnPack f (b ++ extra)`
succeeds and returns the same values. -/
theorem C16_extra_bytes_ignored (format : List String) (b extra : List Nat)
    (values : List Value) (h : UnPack format b = .ret values none) :
    UnPack format (b ++ extra) = .ret values none := by
  rw [UnPack_eq_view] at h ⊢
  split at h
  · simp at h
  · rename_i n hc
    by_cases hl : n > (b.length : Int)
    · rw [if_pos hl] at h; simp at h
    · rw [if_neg hl] at h
      have hl' : ¬ n > ((b ++ extra).length : Int) := by
        rw [List.length_append]; push_cast; omega
      rw [if_neg hl']
      exact unpackView_extra format _ b values extra h

/-- An instance of C16 from the package's tests: a trailing zero byte after the bytes of
`h`, `3s`. -/
theorem C16_witness :
    UnPack ["h", "3s"] ([2, 0, 68, 85, 77] ++ [0])
      = .ret [.int64 2, .string [68, 85, 77]] none :=
  C16_extra_bytes_ignored ["h", "3s"] [2, 0, 68, 85, 77] [0] [.int64 2, .string [68, 85, 77]]
    (by decide)

theorem expectedKind_eq_tok (f : String) : expectedKind f = kindOfTok (tokOf f) := by
  unfold expectedKind tokOf
  by_cases h1 : f = "<"
  · subst h1; decide
  by_cases h2 : f = ">" ∨ f = "!"
  · rcases h2 with rfl | rfl <;> decide
  by_cases h3 : f = "?"
  · subst h3; decide
  by_cases h4 : f = "h" ∨ f = "H"
  · rcases h4 with rfl | rfl <;> decide
  by_cases h5 : f = "i" ∨ f = "I" ∨ f = "l" ∨ f = "L"
  · rcases h5 with rfl | rfl | rfl | rfl <;> decide
  by_cases h6 : f = "q" ∨ f = "Q"
  · rcases h6 with rfl | rfl <;> decide
  by_cases h7 : f = "f"
  · subst h7; decide
  by_cases h8 : f = "d"
  · subst h8; decide
  have e1 : ¬ (f = "h" ∨ f = "H" ∨ f = "i" ∨ f = "I" ∨ f = "l" ∨ f = "L" ∨ f = "q" ∨ f = "Q") := by
    tauto
  simp only [if_neg h1, if_neg h2, if_neg h3, if_neg h4, if_neg h5, if_neg h6, if_neg h7,
    if_neg h8, if_neg e1]
  split_ifs <;> rfl

theorem isMarker_iff_tok (f : String) :
    isMarker f = true ↔ (tokOf f = .little ∨ tokOf f = .big) := by
  rw [← tokOf_marker_or]; simp [isMarker]

theorem unpackView_kinds (fs : List String) :
    ∀ (order : ByteOrder) (msg : List Nat) (vs : List Value),
      unpackView order fs msg = .ret vs none →
      List.Forall₂ (fun f v => ∃ k, expectedKind f = some k ∧ Value.hasKind v k = true)
        (fs.filter (fun f => !isMarker f)) vs := by
  induction fs with
  | nil =>
    intro order msg vs h
    simp only [unpackView, Outcome.ret.injEq, and_true] at h
    subst h; exact List.Forall₂.nil
  | cons f fs ih =>
    intro order msg vs h
    have hk := expectedKind_eq_tok f
    have hm := isMarker_iff_tok f
    have key : ∀ (msg' : List Nat) (v : Value) (k : Kind), kindOfTok (tokOf f) = some k →
        isMarker f = false →
        (unpackView order fs msg').prependOk [v] = .ret vs none → Value.hasKind v k = true →
        List.Forall₂ (fun f v => ∃ k, expectedKind f = some k ∧ Value.hasKind v k = true)
          ((f :: fs).filter (fun f => !isMarker f)) vs := by
      intro msg' v k hk' hnm hr hv
      obtain ⟨r', hr', rfl⟩ := Outcome.prependOk_eq_ret _ _ _ hr
      rw [List.filter_cons]
      simp only [hnm, Bool.not_false, if_true, List.singleton_append]
      exact List.Forall₂.cons ⟨k, by rw [hk, hk'], hv⟩ (ih _ _ _ hr')
    unfold unpackView at h
    cases ht : tokOf f with
    | little =>
      simp only [ht] at h
      rw [List.filter_cons]
      simp only [hm.2 (Or.inl ht), Bool.not_true, Bool.false_eq_true, if_false]
      exact ih _ _ _ h
    | big =>
      simp only [ht] at h
      rw [List.filter_cons]
      simp only [hm.2 (Or.inr ht), Bool.not_true, Bool.false_eq_true, if_false]
      exact ih _ _ _ h
    | bad => simp [ht] at h
    | bool =>
      have hnm : isMarker f = false := by
        cases hx : isMarker f with
        | false => rfl
        | true => rcases hm.1 hx with h' | h' <;> simp [ht] at h'
      simp only [ht] at h
      split_ifs at h
      exact key _ _ .bool (by rw [ht]; rfl) hnm h rfl
    | int w =>
      have hnm : isMarker f = false := by
        cases hx : isMarker f with
        | false => rfl
        | true => rcases hm.1 hx with h' | h' <;> simp [ht] at h'
      simp only [ht] at h
      split_ifs at h
      exact key _ _ .int64 (by rw [ht]; rfl) hnm h rfl
    | f32 =>
      have hnm : isMarker f = false := by
        cases hx : isMarker f with
        | false => rfl
        | true => rcases hm.1 hx with h' | h' <;> simp [ht] at h'
      simp only [ht] at h
      split_ifs at h
      exact key _ _ .float32 (by rw [ht]; rfl) hnm h rfl
    | f64 =>
      have hnm : isMarker f = false := by
        cases hx : isMarker f with
        | false => rfl
        | true => rcases hm.1 hx with h' | h' <;> simp [ht] at h'
      simp only [ht] at h
      split_ifs at h
      exact key _ _ .float64 (by rw [ht]; rfl) hnm h rfl
    | str =>
      have hnm : isMarker f = false := by
        cases hx : isMarker f with
        | false => rfl
        | true => rcases hm.1 hx with h' | h' <;> simp [ht] at h'
      simp only [ht] at h
      split_ifs at h
      exact key _ _ .string (by rw [ht]; rfl) hnm h rfl

/-- Claim C17: for every format and buffer on which `UnPack` succeeds, the result has
exactly one value per non-marker token of the format, in token order, and each value has
the kind of its token: bool for `?`, int64 for every integer token, float32 for `f`,
float64 for `d`, string for a fixed string `<N>s`. -/
theorem C17_unpack_result_kinds (format : List String) (msg : List Nat) (values : List Value)
    (h : UnPack format msg = .ret values none) :
    values.length = nonMarkerCount format ∧
      List.Forall₂ (fun f v => ∃ k, expectedKind f = some k ∧ Value.hasKind v k = true)
        (format.filter (fun f => !isMarker f)) values := by
  rw [UnPack_eq_view] at h
  split at h
  · simp at h
  · split_ifs at h with hl
    · simp at h
    have hf := unpackView_kinds format _ msg values h
    refine ⟨?_, hf⟩
    rw [← hf.length_eq]
    simp [nonMarkerCount, isMarker]

/-- An instance of C17: three data tokens after a marker give three values of their
kinds. -/
theorem C17_witness :
    [Value.bool true, .int64 (-2), .string [68]].length = nonMarkerCount [">", "?", "h", "2s"] ∧
      List.Forall₂ (fun f v => ∃ k, expectedKind f = some k ∧ Value.hasKind v k = true)
        ([">", "?", "h", "2s"].filter (fun f => !isMarker f))
        [Value.bool true, .int64 (-2), .string [68]] :=
  C17_unpack_result_kinds [">", "?", "h", "2s"] [1, 255, 254, 0, 68]
    [.bool true, .int64 (-2), .string [68]] (by decide)

theorem wrapInt_add_wrapInt (a b : Int) : wrapInt (wrapInt a + wrapInt b) = wrapInt (a + b) := by
  unfold wrapInt; omega

theorem CalcSize_eq_spec (format : List String) :
    CalcSize format = (wrapInt (CalcSizeSpec format).1, (CalcSizeSpec format).2) := by
  unfold CalcSize CalcSizeSpec
  rw [CalcSizeLoop_eq_spec format 0 (by decide)]
  split_ifs
  · simp
  · simp; decide

/-- Claim C18 as stated fails on overflow: `CalcSize` gives `2^63 - 1` for
`9223372036854775807s` and 1 for `1s`, and `-2^63` for the concatenation. -/
theorem C18_counterexample :
    CalcSize ["9223372036854775807s"] = (2 ^ 63 - 1, none) ∧ CalcSize ["1s"] = (1, none) ∧
      CalcSize (["9223372036854775807s"] ++ ["1s"]) = (-(2 ^ 63), none) ∧
      CalcSize (["9223372036854775807s"] ++ ["1s"]) ≠ (2 ^ 63 - 1 + 1, none) := by
  refine ⟨by decide!, by decide, by decide!, by decide!⟩

/-- Claim C18, amended: `CalcSize` is additive over concatenation in Go's 64-bit `int`.
For any two token lists on which `CalcSize` succeeds, with sizes `n1` and `n2`, `CalcSize`
of the concatenation succeeds with `n1 + n2` reduced to the signed 64-bit range by
wrap-around, which is `n1 + n2` itself whenever that lies in `[-2^63, 2^63)`. -/
theorem C18_calcsize_additive (t1 t2 : List String) (n1 n2 : Int)
    (h1 : CalcSize t1 = (n1, none)) (h2 : CalcSize t2 = (n2, none)) :
    CalcSize (t1 ++ t2) = (wrapInt (n1 + n2), none) ∧
      (-(2 ^ 63) ≤ n1 + n2 ∧ n1 + n2 < 2 ^ 63 → CalcSize (t1 ++ t2) = (n1 + n2, none)) := by
  have key : CalcSize (t1 ++ t2) = (wrapInt (n1 + n2), none) := by
    rw [CalcSize_eq_spec] at h1 h2 ⊢
    unfold CalcSizeSpec at h1 h2 ⊢
    by_cases a1 : t1.all (fun f => (specWidth f).isSome) = true
    · by_cases a2 : t2.all (fun f => (specWidth f).isSome) = true
      · have a12 : (t1 ++ t2).all (fun f => (specWidth f).isSome) = true := by
          rw [List.all_append, a1, a2]; rfl
        rw [if_pos a1] at h1
        rw [if_pos a2] at h2
        rw [if_pos a12]
        simp only [Prod.mk.injEq, and_true] at h1 h2 ⊢
        rw [List.map_append, List.sum_append, ← h1, ← h2, wrapInt_add_wrapInt]
      · rw [if_neg a2] at h2; simp at h2
    · rw [if_neg a1] at h1; simp at h1
  refine ⟨key, ?_⟩
  intro hr
  rw [key, wrapInt_of_range _ hr.1 hr.2]

/-- An instance of C18 from the package's tests: 12 + 4 = 16. -/
theorem C18_witness :
    CalcSize (["I", "I", "I"] ++ ["4s"]) = (wrapInt (12 + 4), none) ∧
      (-(2 ^ 63) ≤ (12 : Int) + 4 ∧ (12 : Int) + 4 < 2 ^ 63 →
        CalcSize (["I", "I", "I"] ++ ["4s"]) = (12 + 4, none)) :=
  C18_calcsize_additive ["I", "I", "I"] ["4s"] 12 4 (by decide) (by decide)

theorem getUint_single (order : ByteOrder) (b : Nat) : getUint order [b] = b % 256 := by
  cases order <;> simp [getUint]

/-- Claim C13: for every byte `b` and either mode, `UnPack` of the token `?` on `b`
returns true exactly when `b`, sign-extended from 8 bits to a 64-bit integer, is greater
than 0; and for every bool `x`, `Pack` emits the single byte 1 for true and 0 for false,
and unpacking that byte returns `x`. -/
theorem C13_boolean_decoding (mode : List String) (order : ByteOrder)
    (hm : (mode, order) ∈ modePrefixes) :
    (∀ b : Nat, b < 256 →
        UnPack (mode ++ ["?"]) [b] = .ret [.bool (decide (signExtend 1 (b : Int) > 0))] none) ∧
      (∀ x : Bool,
        Pack (mode ++ ["?"]) [.bool x] = .ret [if x then 1 else 0] none ∧
        UnPack (mode ++ ["?"]) [if x then 1 else 0] = .ret [.bool x] none) := by
  obtain ⟨hm1, hm2, hm3, hm4⟩ := modePrefix_spec mode order hm ["?"]
  have ht : tokOf "?" = .bool := by decide
  have hc : CalcSize ["?"] = (1, none) := by decide
  have hu : ∀ b : Nat, b < 256 →
      UnPack (mode ++ ["?"]) [b] = .ret [.bool (decide (signExtend 1 (b : Int) > 0))] none := by
    intro b hb
    rw [UnPack_eq_view, hm4, hc, hm3]
    simp only [List.length_singleton, Nat.cast_one, gt_iff_lt, Int.lt_irrefl, if_false,
      unpackView, ht, Nat.lt_irrefl, List.take_succ_cons, List.take_zero, List.drop_succ_cons,
      List.drop_zero, Outcome.prependOk_ret, List.append_nil, bytesToBool, bytesToInt64,
      if_true, getUint_single, Outcome.ret.injEq, List.cons.injEq, Value.bool.injEq, and_true,
      decide_eq_decide]
    unfold toSigned signExtend
    split_ifs <;> omega
  refine ⟨hu, ?_⟩
  intro x
  constructor
  · rw [Pack_eq_view, hm1, hm2]
    cases x <;> cases order <;> decide
  · cases x
    · have := hu 0 (by decide)
      simpa [signExtend] using this
    · have := hu 1 (by decide)
      simpa [signExtend] using this

/-- An instance of C13: the byte 255 is -1 as a signed byte, so it decodes to false. -/
theorem C13_witness :
    (∀ b : Nat, b < 256 →
        UnPack ([">"] ++ ["?"]) [b] = .ret [.bool (decide (signExtend 1 (b : Int) > 0))] none) ∧
      (∀ x : Bool,
        Pack ([">"] ++ ["?"]) [.bool x] = .ret [if x then 1 else 0] none ∧
        UnPack ([">"] ++ ["?"]) [if x then 1 else 0] = .ret [.bool x] none) :=
  C13_boolean_decoding [">"] .BigEndian (by decide)

theorem nonMarkerCount_cons_tok (f : String) (fs : List String) :
    nonMarkerCount (f :: fs) =
      match tokOf f with
      | .little => nonMarkerCount fs
      | .big => nonMarkerCount fs
      | _ => nonMarkerCount fs + 1 := by
  rw [nonMarkerCount_cons]
  by_cases hm : f = "<" ∨ f = ">" ∨ f = "!"
  · rw [if_pos hm]
    rcases (tokOf_marker_or f).1 hm with h | h <;> simp [h]
  · rw [if_neg hm]
    have hm' : ¬ (tokOf f = .little ∨ tokOf f = .big) := fun h => hm ((tokOf_marker_or f).2 h)
    cases ht : tokOf f <;> simp [ht] at hm' ⊢

theorem packView_prefix (fs : List String) :
    ∀ (order : ByteOrder) (vs : List Value) (b : List Nat),
      packView order fs vs = .ret b none →
      formatLen fs = nonMarkerCount fs ∧ nonMarkerCount fs ≤ vs.length ∧
      ∀ rest, packView order (fs ++ rest) vs =
        (packView (finalOrder order fs) rest (vs.drop (nonMarkerCount fs))).prepend b := by
  induction fs with
  | nil =>
    intro order vs b h
    simp only [packView, Outcome.ret.injEq, and_true] at h
    subst h
    refine ⟨rfl, Nat.zero_le _, ?_⟩
    intro rest
    simp only [List.nil_append, finalOrder, nonMarkerCount, List.filter_nil, List.length_nil,
      List.drop_zero]
    cases packView order rest vs <;> simp
  | cons f fs ih =>
    intro order vs b h
    have hfl := formatLen_cons_tok f fs
    have hnm := nonMarkerCount_cons_tok f fs
    have key : ∀ (v : Value) (vs' : List Value) (p : List Nat), vs = v :: vs' →
        finalOrder order (f :: fs) = finalOrder order fs →
        formatLen (f :: fs) = 1 + formatLen fs →
        nonMarkerCount (f :: fs) = nonMarkerCount fs + 1 →
        (packView order fs vs').prepend p = .ret b none →
        formatLen (f :: fs) = nonMarkerCount (f :: fs) ∧
          nonMarkerCount (f :: fs) ≤ vs.length ∧
          ∀ rest, (packView order (fs ++ rest) vs').prepend p =
            (packView (finalOrder order (f :: fs)) rest
              (vs.drop (nonMarkerCount (f :: fs)))).prepend b := by
      intro v vs' p hvs hfo hf1 hn1 hr
      obtain ⟨b', hb', rfl⟩ := Outcome.prepend_eq_ret _ _ _ _ hr
      obtain ⟨i1, i2, i3⟩ := ih order vs' b' hb'
      subst hvs
      refine ⟨by rw [hf1, hn1, i1, Nat.add_comm], by rw [hn1, List.length_cons]; omega, ?_⟩
      intro rest
      rw [i3 rest, hfo, hn1, List.drop_succ_cons, Outcome.prepend_prepend]
    unfold packView at h
    cases ht : tokOf f with
    | little =>
      simp only [ht] at h hfl hnm
      obtain ⟨i1, i2, i3⟩ := ih _ vs b h
      refine ⟨by rw [hfl, hnm, i1], by rw [hnm]; exact i2, ?_⟩
      intro rest
      rw [List.cons_append, packView]
      simp only [ht, finalOrder, hnm, i3 rest]
    | big =>
      simp only [ht] at h hfl hnm
      obtain ⟨i1, i2, i3⟩ := ih _ vs b h
      refine ⟨by rw [hfl, hnm, i1], by rw [hnm]; exact i2, ?_⟩
      intro rest
      rw [List.cons_append, packView]
      simp only [ht, finalOrder, hnm, i3 rest]
    | bad => simp [ht] at h
    | bool =>
      simp only [ht] at h hfl hnm
      have hfo : finalOrder order (f :: fs) = finalOrder order fs := by simp only [finalOrder, ht]
      cases vs with
      | nil => simp at h
      | cons v vs' =>
        simp only [List.head?_cons, List.tail_cons] at h
        cases v <;> simp only [reduceCtorEq, Outcome.ret.injEq, and_false] at h
        obtain ⟨k1, k2, k3⟩ := key _ vs' _ rfl hfo hfl hnm h
        refine ⟨k1, k2, ?_⟩
        intro rest
        rw [List.cons_append, packView]
        simp only [ht, List.head?_cons, List.tail_cons]
        exact k3 rest
    | int w =>
      simp only [ht] at h hfl hnm
      have hfo : finalOrder order (f :: fs) = finalOrder order fs := by simp only [finalOrder, ht]
      cases vs with
      | nil => simp at h
      | cons v vs' =>
        simp only [List.head?_cons, List.tail_cons] at h
        cases v <;> simp only [reduceCtorEq, Outcome.ret.injEq, and_false] at h
        obtain ⟨k1, k2, k3⟩ := key _ vs' _ rfl hfo hfl hnm h
        refine ⟨k1, k2, ?_⟩
        intro rest
        rw [List.cons_append, packView]
        simp only [ht, List.head?_cons, List.tail_cons]
        exact k3 rest
    | f32 =>
      simp only [ht] at h hfl hnm
      have hfo : finalOrder order (f :: fs) = finalOrder order fs := by simp only [finalOrder, ht]
      cases vs with
      | nil => simp at h
      | cons v vs' =>
        simp only [List.head?_cons, List.tail_cons] at h
        cases v <;> simp only [reduceCtorEq, Outcome.ret.injEq, and_false] at h
        obtain ⟨k1, k2, k3⟩ := key _ vs' _ rfl hfo hfl hnm h
        refine ⟨k1, k2, ?_⟩
        intro rest
        rw [List.cons_append, packView]
        simp only [ht, List.head?_cons, List.tail_cons]
        exact k3 rest
    | f64 =>
      simp only [ht] at h hfl hnm
      have hfo : finalOrder order (f :: fs) = finalOrder order fs := by simp only [finalOrder, ht]
      cases vs with
      | nil => simp at h
      | cons v vs' =>
        simp only [List.head?_cons, List.tail_cons] at h
        cases v <;> simp only [reduceCtorEq, Outcome.ret.injEq, and_false] at h
        obtain ⟨k1, k2, k3⟩ := key _ vs' _ rfl hfo hfl hnm h
        refine ⟨k1, k2, ?_⟩
        intro rest
        rw [List.cons_append, packView]
        simp only [ht, List.head?_cons, List.tail_cons]
        exact k3 rest
    | str =>
      simp only [ht] at h hfl hnm
      have hfo : finalOrder order (f :: fs) = finalOrder order fs := by simp only [finalOrder, ht]
      cases vs with
      | nil => simp at h
      | cons v vs' =>
        simp only [List.head?_cons, List.tail_cons] at h
        cases v <;> simp only [reduceCtorEq, Outcome.ret.injEq, and_false] at h
        rename_i s
        cases hp : packStr order (declaredLen f) s with
        | none => simp [hp] at h
        | some p =>
          simp only [hp] at h
          obtain ⟨k1, k2, k3⟩ := key _ vs' _ rfl hfo hfl hnm h
          refine ⟨k1, k2, ?_⟩
          intro rest
          rw [List.cons_append, packView]
          simp only [ht, List.head?_cons, List.tail_cons, hp]
          exact k3 rest

theorem formatLen_append (a b : List String) :
    formatLen (a ++ b) = formatLen a + formatLen b := by
  induction a with
  | nil => simp [formatLen]
  | cons f fs ih =>
    rw [List.cons_append, formatLen, formatLen, ih]
    split_ifs <;> omega

theorem getLast?_cons_getD {α : Type} (f m : α) (l : List α) :
    ((f :: l).getLast?).getD m = (l.getLast?).getD f := by
  cases l with
  | nil => rfl
  | cons a l => rw [List.getLast?_cons_cons]; simp [List.getLast?_cons]

theorem lastMarker_aux (fs : List String) :
    ∀ (m : String) (o : ByteOrder),
      (tokOf m = .little ∧ o = .LittleEndian) ∨ (tokOf m = .big ∧ o = .BigEndian) →
      (tokOf (((fs.filter isMarker).getLast?).getD m) = .little ∧
          finalOrder o fs = .LittleEndian) ∨
        (tokOf (((fs.filter isMarker).getLast?).getD m) = .big ∧
          finalOrder o fs = .BigEndian) := by
  induction fs with
  | nil => intro m o h; simpa [finalOrder] using h
  | cons f fs ih =>
    intro m o h
    have hm := isMarker_iff_tok f
    rw [List.filter_cons]
    by_cases hf : isMarker f = true
    · rw [if_pos hf, getLast?_cons_getD]
      rcases hm.1 hf with ht | ht
      · have := ih f .LittleEndian (Or.inl ⟨ht, rfl⟩)
        simpa only [finalOrder, ht] using this
      · have := ih f .BigEndian (Or.inr ⟨ht, rfl⟩)
        simpa only [finalOrder, ht] using this
    · rw [if_neg hf]
      have hfo : finalOrder o (f :: fs) = finalOrder o fs := by
        cases ht : tokOf f <;> simp only [finalOrder, ht]
        · exact absurd (hm.2 (Or.inl ht)) hf
        · exact absurd (hm.2 (Or.inr ht)) hf
      rw [hfo]
      exact ih m o h

theorem lastMarker_spec (fs rest : List String) :
    formatLen (lastMarker fs :: rest) = formatLen rest ∧
      ∀ vs, packView .LittleEndian (lastMarker fs :: rest) vs
        = packView (finalOrder .LittleEndian fs) rest vs := by
  have h := lastMarker_aux fs "<" .LittleEndian (Or.inl ⟨by decide, rfl⟩)
  have hfl := formatLen_cons_tok (lastMarker fs) rest
  unfold lastMarker at hfl ⊢
  rcases h with ⟨h1, h2⟩ | ⟨h1, h2⟩
  · simp only [h1] at hfl
    refine ⟨hfl, fun vs => ?_⟩
    rw [packView]; simp only [h1, h2]
  · simp only [h1] at hfl
    refine ⟨hfl, fun vs => ?_⟩
    rw [packView]; simp only [h1, h2]

/-- Claim C14: endianness markers are scoped positionally and the default mode is
little-endian.  For all formats `f1`, `f2` and value lists `v1`, `v2` where `v1` has
exactly as many values as `f1` has data tokens, with `m` the last marker of `f1` (or `<`
if it has none): if `Pack f1 v1` and `Pack ([m] ++ f2) v2` both succeed, then
`Pack (f1 ++ f2) (v1 ++ v2)` succeeds with the concatenation of their bytes.  In
particular `Pack (["<"] ++ f) v = Pack f v` for every `f` and `v`. -/
theorem C14_markers_scoped_positionally :
    (∀ (f1 f2 : List String) (v1 v2 : List Value) (b1 b2 : List Nat),
        v1.length = nonMarkerCount f1 → Pack f1 v1 = .ret b1 none →
        Pack ([lastMarker f1] ++ f2) v2 = .ret b2 none →
        Pack (f1 ++ f2) (v1 ++ v2) = .ret (b1 ++ b2) none) ∧
      ∀ (f : List String) (v : List Value), Pack (["<"] ++ f) v = Pack f v := by
  constructor
  · intro f1 f2 v1 v2 b1 b2 hc h1 h2
    obtain ⟨hl, hp⟩ := lastMarker_spec f1 f2
    rw [Pack_eq_view] at h1 h2 ⊢
    simp only [List.singleton_append] at h2
    rw [hl, hp] at h2
    by_cases hl1 : formatLen f1 > v1.length
    · rw [if_pos hl1] at h1; simp at h1
    by_cases hl2 : formatLen f2 > v2.length
    · rw [if_pos hl2] at h2; simp at h2
    rw [if_neg hl1] at h1
    rw [if_neg hl2] at h2
    have hl12 : ¬ formatLen (f1 ++ f2) > (v1 ++ v2).length := by
      rw [formatLen_append, List.length_append]; omega
    rw [if_neg hl12]
    obtain ⟨-, -, hpre⟩ := packView_prefix f1 _ _ b1 (packView_extra f1 _ v1 b1 v2 h1)
    rw [hpre f2, ← hc, List.drop_left, h2]
    rfl
  · intro f v
    rw [Pack_eq_view, Pack_eq_view, List.singleton_append,
      formatLen_cons_marker "<" f (Or.inl rfl), packView]
    simp only [tokOf_lt]

/-- An instance of C14: after `>` in the first format the second format is packed in
big-endian mode. -/
theorem C14_witness :
    Pack (["h", ">", "h"] ++ ["H"]) ([.int64 1, .int64 2] ++ [.int64 3])
      = .ret ([1, 0, 0, 2] ++ [0, 3]) none :=
  C14_markers_scoped_positionally.1 ["h", ">", "h"] ["H"] [.int64 1, .int64 2] [.int64 3]
    [1, 0, 0, 2] [0, 3] (by decide) (by decide) (by decide)

theorem readsValue_tok (f : String) (h : readsValue f = true) :
    tokOf f ≠ .little ∧ tokOf f ≠ .big ∧ tokOf f ≠ .bad := by
  simp only [readsValue, Bool.and_eq_true, Bool.not_eq_true', Bool.or_eq_true,
    decide_eq_true_eq] at h
  obtain ⟨hm, hd⟩ := h
  have hm' := isMarker_iff_tok f
  refine ⟨fun ht => ?_, fun ht => ?_, fun ht => ?_⟩
  · rw [hm'.2 (Or.inl ht)] at hm; exact absurd hm (by decide)
  · rw [hm'.2 (Or.inr ht)] at hm; exact absurd hm (by decide)
  · unfold tokOf at ht
    split_ifs at ht
    tauto

/-- Claim C19: `Pack` never reads the value list out of range.  For every format and
value list that pass the `formatLen` pre-check, whenever the token walk gets through a
prefix `pre` of the format without returning and reaches a token `f` that reads a value,
the walk stands at position `i = nonMarkerCount pre`, and `i < len(values)`, so `msg[i]`
is in range.  (`@` and `=` never let the walk through: they are unexpected tokens.) -/
theorem C19_pack_reads_in_range (pre post : List String) (f : String) (values : List Value)
    (b : List Nat) (hlen : formatLen (pre ++ f :: post) ≤ values.length)
    (hpre : PackLoop values pre .LittleEndian 0 [] = .ret b none)
    (hf : readsValue f = true) :
    nonMarkerCount pre < values.length ∧
      index values (nonMarkerCount pre : Nat) ≠ none ∧
      ∃ order, ∀ rest, PackLoop values (pre ++ rest) .LittleEndian 0 []
        = PackLoop values rest order (nonMarkerCount pre : Nat) b := by
  obtain ⟨h1, h2, h3⟩ := readsValue_tok f hf
  have hv := PackLoop_eq_view values pre .LittleEndian 0 []
  rw [Nat.cast_zero, hpre] at hv
  obtain ⟨b', hb', hbb⟩ := Outcome.prepend_eq_ret [] b none _ hv.symm
  rw [List.nil_append] at hbb
  subst hbb
  rw [List.drop_zero] at hb'
  obtain ⟨e1, e2, e3⟩ := packView_prefix pre _ _ b hb'
  have hfl := formatLen_cons_tok f post
  have hf1 : formatLen (f :: post) = 1 + formatLen post := by
    cases ht : tokOf f <;> simp only [ht] at hfl h1 h2 h3 <;> first | contradiction | exact hfl
  have hc : nonMarkerCount pre < values.length := by
    rw [formatLen_append, e1, hf1] at hlen
    omega
  refine ⟨hc, ?_, finalOrder .LittleEndian pre, ?_⟩
  · rw [index_natCast]
    cases hd : values.drop (nonMarkerCount pre) with
    | nil =>
      have := List.drop_eq_nil_iff.mp hd
      omega
    | cons a l => simp
  · intro rest
    have hl := PackLoop_eq_view values (pre ++ rest) .LittleEndian 0 []
    rw [Nat.cast_zero, List.drop_zero, e3 rest] at hl
    rw [hl, PackLoop_eq_view values rest _ (nonMarkerCount pre) b]
    cases packView (finalOrder .LittleEndian pre) rest (values.drop (nonMarkerCount pre)) <;> simp

/-- An instance of C19: after `h`, `<` the walk reads position 1 of two values for `2s`. -/
theorem C19_witness :
    nonMarkerCount ["h", "<"] < [Value.int64 1, Value.string [97]].length ∧
      index [Value.int64 1, Value.string [97]] (nonMarkerCount ["h", "<"] : Nat) ≠ none ∧
      ∃ order, ∀ rest,
        PackLoop [Value.int64 1, Value.string [97]] (["h", "<"] ++ rest) .LittleEndian 0 []
          = PackLoop [Value.int64 1, Value.string [97]] rest order
              (nonMarkerCount ["h", "<"] : Nat) [1, 0] :=
  C19_pack_reads_in_range ["h", "<"] [] "2s" [.int64 1, .string [97]] [1, 0] (by decide)
    (by decide) (by decide)

theorem digitsValueFrom_ge (ds : List Char) : ∀ a, a ≤ digitsValueFrom a ds := by
  induction ds with
  | nil => intro a; exact Nat.le_refl _
  | cons c cs ih =>
    intro a
    simp only [digitsValueFrom, List.foldl_cons] at ih ⊢
    exact Nat.le_trans (by omega) (ih _)

theorem digitsValueFrom_cons (a : Nat) (c : Char) (cs : List Char) :
    digitsValueFrom a (c :: cs) = digitsValueFrom (a * 10 + (c.toNat - 48)) cs := rfl

theorem parseUintLoop_spec (p : List Char) : ∀ a : Nat, a < 2 ^ 64 →
    parseUintLoop a p =
      if digitsValueFrom a (p.takeWhile isDigit) ≥ 2 ^ 64 then (2 ^ 64 - 1, some true)
      else if p.all isDigit = true then (digitsValueFrom a p, none)
      else (0, some false) := by
  induction p with
  | nil =>
    intro a ha
    simp only [parseUintLoop, List.takeWhile_nil, digitsValueFrom, List.foldl_nil, List.all_nil,
      if_true]
    rw [if_neg (by omega)]
  | cons c cs ih =>
    intro a ha
    rw [parseUintLoop]
    by_cases hd : 48 ≤ c.toNat ∧ c.toNat ≤ 57
    · have hd' : isDigit c = true := by simp [isDigit, hd]
      rw [if_pos hd, List.takeWhile_cons, if_pos hd', digitsValueFrom_cons, List.all_cons, hd',
        Bool.true_and, digitsValueFrom_cons]
      have hmono := digitsValueFrom_ge (cs.takeWhile isDigit) (a * 10 + (c.toNat - 48))
      by_cases h1 : a ≥ (2 ^ 64 - 1) / 10 + 1
      · rw [if_pos h1, if_pos (by omega)]
      · rw [if_neg h1]
        by_cases h2 : a * 10 + (c.toNat - 48) ≥ 2 ^ 64
        · rw [if_pos h2, if_pos (by omega)]
        · rw [if_neg h2, ih _ (by omega)]
    · have hd' : ¬ isDigit c = true := by simpa [isDigit] using hd
      rw [if_neg hd, List.takeWhile_cons, if_neg hd', List.all_cons]
      simp only [digitsValueFrom, List.foldl_nil, Bool.not_eq_true] at hd' ⊢
      rw [if_neg (by omega), hd']
      simp

theorem takeWhile_of_all {α : Type} (p : α → Bool) (l : List α) (h : l.all p = true) :
    l.takeWhile p = l := by
  induction l with
  | nil => rfl
  | cons a l ih =>
    simp only [List.all_cons, Bool.and_eq_true] at h
    rw [List.takeWhile_cons, if_pos h.1, ih h.2]

theorem ParseInt_spec (p : List Char) (hneg : p.head? ≠ some '-')
    (hwf : (stripPlus p).all isDigit = true ∨
      digitsValue ((stripPlus p).takeWhile isDigit) < 2 ^ 64) :
    ParseInt p =
      if isNumeral (stripPlus p) then min (digitsValue (stripPlus p) : Int) (2 ^ 63 - 1)
      else 0 := by
  cases p with
  | nil => simp [ParseInt, stripPlus, isNumeral]
  | cons c cs =>
    have hc : ¬ c = '-' := by simpa using hneg
    have hq : (if c = '+' then cs else c :: cs) = stripPlus (c :: cs) := rfl
    unfold ParseInt
    simp only [hc, or_false, decide_False, Bool.false_eq_true, not_false_eq_true, true_and,
      false_and, if_false]
    rw [hq]
    generalize stripPlus (c :: cs) = q at hwf ⊢
    unfold ParseUint
    by_cases hqe : q = []
    · subst hqe; simp [isNumeral]
    · rw [if_neg hqe, parseUintLoop_spec q 0 (by decide)]
      have hne : q.isEmpty = false := by cases q <;> simp at hqe ⊢
      by_cases hall : q.all isDigit = true
      · have htw := takeWhile_of_all isDigit q hall
        simp only [isNumeral, hne, hall, htw, Bool.not_false, Bool.and_self, if_true]
        unfold digitsValue
        by_cases hov : digitsValueFrom 0 q ≥ 2 ^ 64
        · rw [if_pos hov]
          simp only []
          rw [if_pos (by decide)]
          omega
        · rw [if_neg hov]
          simp only []
          split_ifs with h1
          · omega
          · unfold toSigned
            split_ifs <;> omega
      · have hv : digitsValue (q.takeWhile isDigit) < 2 ^ 64 := by
          rcases hwf with h | h
          · exact absurd h hall
          · exact h
        unfold digitsValue at hv
        simp only [isNumeral, hall, Bool.and_false, Bool.false_eq_true, if_false]
        rw [if_neg (by omega)]

theorem digitsValueFrom_append (a : Nat) (xs ys : List Char) :
    digitsValueFrom a (xs ++ ys) = digitsValueFrom (digitsValueFrom a xs) ys := by
  unfold digitsValueFrom
  rw [List.foldl_append]

theorem digitsValue_toDigits (n : Nat) : digitsValue (Nat.toDigits 10 n) = n := by
  induction n using Nat.strong_induction_on with
  | _ n ih =>
    by_cases h : n < 10
    · rw [toDigits_small n h]
      simp [digitsValue, digitsValueFrom, digitChar_toNat n h]
    · have hd := digitChar_toNat (n % 10) (by omega)
      have hi := ih (n / 10) (by omega)
      unfold digitsValue at hi ⊢
      rw [toDigits_step n (by omega), digitsValueFrom_append, hi]
      simp only [digitsValueFrom, List.foldl_cons, List.foldl_nil, hd]
      omega

theorem decimalToken_prefix (N : Nat) :
    isDecimalStr (decimalToken N) = true ∧
      TrimRight (decimalToken N).toList 's' = Nat.toDigits 10 N := by
  obtain ⟨hne, hdig⟩ := toDigits_digits N
  unfold isDecimalStr decimalToken
  simp only [String.toList]
  generalize Nat.toDigits 10 N = ds at hne hdig
  cases ds with
  | nil => exact absurd rfl hne
  | cons c cs =>
    have hc : isDigit c = true := hdig c (List.mem_cons_self _ _)
    have hcs : ∀ x ∈ cs, isDigit x = true := fun x hx => hdig x (List.mem_cons_of_mem _ hx)
    constructor
    · simp only [List.cons_append, hc, Bool.true_and, Bool.and_eq_true, decide_eq_true_eq]
      constructor
      · rw [List.dropLast_concat]
        exact List.all_eq_true.mpr hcs
      · simp
    · unfold TrimRight
      rw [List.reverse_append]
      simp only [List.reverse_cons, List.reverse_nil, List.nil_append, List.singleton_append,
        List.dropWhile_cons, decide_True, if_true]
      have hall : ∀ x ∈ cs.reverse ++ [c], decide (x = 's') = false := by
        intro x hx
        have hx' : isDigit x = true := by
          rcases List.mem_append.mp hx with hx | hx
          · exact hcs x (List.mem_reverse.mp hx)
          · simp only [List.mem_singleton] at hx; rw [hx]; exact hc
        simpa using (isDigit_ne x hx').1
      have hdw : ∀ l : List Char, (∀ x ∈ l, decide (x = 's') = false) →
          l.dropWhile (fun x => decide (x = 's')) = l := by
        intro l hl
        cases l with
        | nil => rfl
        | cons a l => simp [List.dropWhile_cons, hl a (List.mem_cons_self _ _)]
      rw [hdw _ hall]
      simp

theorem declaredLen_decimalToken (N : Nat) :
    declaredLen (decimalToken N) = min (N : Int) (2 ^ 63 - 1) := by
  obtain ⟨-, htrim⟩ := decimalToken_prefix N
  obtain ⟨hne, hdig⟩ := toDigits_digits N
  have hv := digitsValue_toDigits N
  unfold declaredLen Atoi
  rw [htrim]
  generalize Nat.toDigits 10 N = ds at hne hdig hv
  cases ds with
  | nil => exact absurd rfl hne
  | cons c cs =>
    have hc : isDigit c = true := hdig c (List.mem_cons_self _ _)
    obtain ⟨-, hc2, hc3⟩ := isDigit_ne c hc
    have hsp : stripPlus (c :: cs) = c :: cs := by simp only [stripPlus, hc3, if_false]
    have hall : (c :: cs).all isDigit = true := List.all_eq_true.mpr hdig
    rw [ParseInt_spec (c :: cs) (by simpa using hc2) (by rw [hsp]; exact Or.inl hall), hsp]
    have hnum : isNumeral (c :: cs) = true := by
      unfold isNumeral
      rw [hall]
      rfl
    rw [if_pos hnum, hv]

theorem containsS_tok (f : String) (h : containsS f = true) :
    tokOf f = .str ∧ formatLen [f] = 1 ∧ specWidth f = some (declaredLen f) := by
  have hne : ¬ (f = "<" ∨ f = ">" ∨ f = "!" ∨ f = "?" ∨ f = "h" ∨ f = "H" ∨ f = "i" ∨
      f = "I" ∨ f = "l" ∨ f = "L" ∨ f = "q" ∨ f = "Q" ∨ f = "f" ∨ f = "d" ∨ f = "@" ∨
      f = "=") := by
    intro hc
    rcases hc with rfl | rfl | rfl | rfl | rfl | rfl | rfl | rfl | rfl | rfl | rfl | rfl | rfl |
      rfl | rfl | rfl <;> exact absurd h (by decide)
  simp only [not_or] at hne
  obtain ⟨h1, h2, h3, h4, h5, h6, h7, h8, h9, h10, h11, h12, h13, h14, h15, h16⟩ := hne
  have ht : tokOf f = .str := by
    simp only [tokOf, h1, h2, h3, h4, h5, h6, h7, h8, h9, h10, h11, h12, h13, h14, h,
      or_self, if_false, if_true]
  refine ⟨ht, ?_, ?_⟩
  · have : ¬ (f = "@" ∨ f = "=" ∨ f = "<" ∨ f = ">" ∨ f = "!") := by tauto
    simp only [formatLen, if_neg this]
  · rw [specWidth_eq_tok, ht]

theorem UnPack_single_str (f : String) (K : Nat) (hK : K < 2 ^ 63) (hs : containsS f = true)
    (hd : declaredLen f = (K : Int)) (msg : List Nat) (hlen : K ≤ msg.length)
    (mode : List String) (order : ByteOrder) (hm : (mode, order) ∈ modePrefixes) :
    UnPack (mode ++ [f]) msg = .ret [.string (unpackStr order (msg.take K))] none := by
  obtain ⟨ht, -, hw⟩ := containsS_tok f hs
  obtain ⟨-, -, hm3, hm4⟩ := modePrefix_spec mode order hm [f]
  have hc : CalcSize [f] = ((K : Int), none) :=
    CalcSize_single f K (by rw [hw, hd]) (by constructor <;> omega)
  rw [UnPack_eq_view, hm4, hc]
  simp only []
  rw [if_neg (by omega), hm3]
  simp only [unpackView, ht, hd]
  rw [if_neg (by omega)]
  simp

theorem maxAlloc_lt : maxAlloc < 2 ^ 63 - 1 := by decide

/-- Claim C11: for every `N ≥ 0`, either endianness mode, and every valid UTF-8 string
`s` of at most `N` bytes that does not end in a zero byte, `UnPack` under the token
`<N>s` of the bytes that `Pack` produced from `s` under the same token and mode returns
exactly `s`.  In little-endian mode the string need not even be valid UTF-8.  Where the
padding `N - len s` exceeds `maxAlloc`, `Pack` panics and produces no bytes. -/
theorem C11_fixed_string_round_trip (N : Nat) (s : List Nat) (mode : List String)
    (order : ByteOrder) (hm : (mode, order) ∈ modePrefixes)
    (hv : order = .LittleEndian ∨ ValidString s = true) (hl : s.length ≤ N)
    (h0 : s.getLast? ≠ some 0) :
    (∀ b, Pack (mode ++ [decimalToken N]) [.string s] = .ret b none →
        UnPack (mode ++ [decimalToken N]) b = .ret [.string s] none) ∧
      (maxAlloc + s.length < N → Pack (mode ++ [decimalToken N]) [.string s] = .panic) := by
  obtain ⟨hdec, -⟩ := decimalToken_prefix N
  obtain ⟨ht, hf⟩ := isDecimalStr_tok _ hdec
  obtain ⟨hs, -, -⟩ := isDecimalStr_spec _ hdec
  have hd : declaredLen (decimalToken N) = ((min N (2 ^ 63 - 1) : Nat) : Int) := by
    rw [declaredLen_decimalToken]; omega
  have hmax := maxAlloc_lt
  generalize decimalToken N = f at ht hf hs hd
  generalize hK : min N (2 ^ 63 - 1) = K at hd
  have hP := Pack_single_str f K ht hf hd s mode order hm
  constructor
  · intro b hb
    have hKa : K ≤ maxAlloc := by
      by_contra hbig
      rw [hP, if_neg hbig] at hb
      simp at hb
    obtain ⟨b', hb', hbl, hbu⟩ := unpackStr_packStr order K s (by omega) hKa h0 hv
    rw [packStr_natCast order K s hKa] at hb'
    rw [hP, if_pos hKa, Option.some.inj hb'] at hb
    simp only [Outcome.ret.injEq, and_true] at hb
    subst hb
    rw [UnPack_single_str f K (by omega) hs hd b' (by omega) mode order hm, ← hbl,
      List.take_length, hbu]
  · intro hN
    rw [hP, if_neg (by omega)]

/-- An instance of C11: a two-byte rune and a letter under `4s` in big-endian mode;
`Pack` produces a zero byte followed by the runes in reversed order. -/
theorem C11_witness :
    UnPack ([">"] ++ [decimalToken 4]) [0, 0x41, 0xC3, 0xA9]
      = .ret [.string [0xC3, 0xA9, 0x41]] none :=
  (C11_fixed_string_round_trip 4 [0xC3, 0xA9, 0x41] [">"] .BigEndian (by decide)
    (Or.inr (by decide)) (by decide) (by decide)).1 [0, 0x41, 0xC3, 0xA9] (by decide)

theorem decimalToken_two_pow_62 : decimalToken (2 ^ 62) = "4611686018427387904s" := by
  unfold decimalToken
  norm_num
  iterate 18 (rw [toDigits_step _ (by norm_num)]; simp only [Nat.reduceDiv, Nat.reduceMod])
  rw [toDigits_small _ (by norm_num)]
  decide

/-- Claim C8 as stated fails for `N = 2^62`: the runtime refuses to allocate a field of
`2^62` bytes, so `Pack` under the token `4611686018427387904s` panics and emits no
bytes at all. -/
theorem C8_counterexample :
    decimalToken (2 ^ 62) = "4611686018427387904s" ∧
      Pack [decimalToken (2 ^ 62)] [.string [97]] = .panic ∧
      ¬ ∃ b, Pack [decimalToken (2 ^ 62)] [.string [97]] = .ret b none ∧ b.length = 2 ^ 62 := by
  have h1 : decimalToken (2 ^ 62) = "4611686018427387904s" := decimalToken_two_pow_62
  have h2 : Pack ["4611686018427387904s"] [.string [97]] = .panic := by decide!
  refine ⟨h1, by rw [h1]; exact h2, ?_⟩
  rintro ⟨b, hb, -⟩
  rw [h1, h2] at hb
  simp at hb

/-- Claim C8, amended to the runs of `Pack` that return: for every `N ≥ 0` and every
string `s` of ASCII bytes, writing `t` for the first `min N (len s)` bytes of `s`, if
`Pack` of `s` under the token `<N>s` does not panic, it succeeds and emits exactly `N`
bytes: in little-endian mode `t` followed by `N - min N (len s)` zero bytes, in
big-endian mode the zero bytes followed by `t` in reversed order.  It panics whenever the
padding `N - len s` exceeds `maxAlloc`, the largest allocation of the runtime. -/
theorem C8_fixed_string_layout (N : Nat) (s : List Nat)
    (hs : ∀ b ∈ s, b < 0x80) (mode : List String) (order : ByteOrder)
    (hm : (mode, order) ∈ modePrefixes) :
    (Pack (mode ++ [decimalToken N]) [.string s] ≠ .panic →
        ∃ b, Pack (mode ++ [decimalToken N]) [.string s] = .ret b none ∧ b.length = N ∧
          b = if order = .BigEndian then
              List.replicate (N - min N s.length) 0 ++ (s.take (min N s.length)).reverse
            else s.take (min N s.length) ++ List.replicate (N - min N s.length) 0) ∧
      (maxAlloc + s.length < N → Pack (mode ++ [decimalToken N]) [.string s] = .panic) := by
  obtain ⟨hdec, -⟩ := decimalToken_prefix N
  obtain ⟨ht, hf⟩ := isDecimalStr_tok _ hdec
  have hd : declaredLen (decimalToken N) = ((min N (2 ^ 63 - 1) : Nat) : Int) := by
    rw [declaredLen_decimalToken]; omega
  have hmax := maxAlloc_lt
  generalize decimalToken N = f at ht hf hd
  generalize hK : min N (2 ^ 63 - 1) = K at hd
  have hP := Pack_single_str f K ht hf hd s mode order hm
  constructor
  · intro hnp
    have hKa : K ≤ maxAlloc := by
      by_contra hbig
      rw [hP, if_neg hbig] at hnp
      exact hnp rfl
    have hKN : K = N := by omega
    subst hKN
    have htake : s.take (min K s.length) = s.take K := by
      rw [List.take_eq_take]; simp
    have hz : K - min K s.length = K - s.length := by omega
    have hascii : ∀ b ∈ s.take K, b < 0x80 := fun b hb => hs b (List.mem_of_mem_take hb)
    refine ⟨_, ?_, ?_, rfl⟩
    · rw [hP, if_pos hKa, reverse_ascii _ hascii, htake, hz]
    · rw [htake, hz]
      split_ifs <;> simp [List.length_take]
      all_goals omega
  · intro hN
    rw [hP, if_neg (by omega)]

/-- An instance of C8 from the package's tests: "DUMP" under `5s` in big-endian mode is
one zero byte followed by "PMUD". -/
theorem C8_witness :
    ∃ b, Pack ([">"] ++ [decimalToken 5]) [.string [68, 85, 77, 80]] = .ret b none ∧
      b.length = 5 ∧
      b = if ByteOrder.BigEndian = .BigEndian then
          List.replicate (5 - min 5 [68, 85, 77, 80].length) 0
            ++ ([68, 85, 77, 80].take (min 5 [68, 85, 77, 80].length)).reverse
        else [68, 85, 77, 80].take (min 5 [68, 85, 77, 80].length)
            ++ List.replicate (5 - min 5 [68, 85, 77, 80].length) 0 :=
  (C8_fixed_string_layout 5 [68, 85, 77, 80] (by decide) [">"] .BigEndian (by decide)).1
    (by decide)

theorem specDeclaredLen_range (f : String) :
    0 ≤ specDeclaredLen f ∧ specDeclaredLen f < 2 ^ 63 := by
  unfold specDeclaredLen
  split_ifs <;> omega

theorem ParseInt_neg (q : List Char)
    (hwf : q.all isDigit = true ∨ digitsValue (q.takeWhile isDigit) < 2 ^ 64) :
    ParseInt ('-' :: q) =
      if isNumeral q then max (-(digitsValue q : Int)) (-(2 ^ 63)) else 0 := by
  have hq : (if '-' = '+' ∨ True then q else '-' :: q) = q := if_pos (Or.inr trivial)
  unfold ParseInt
  simp only [decide_True, not_true_eq_false, false_and, true_and, if_false, if_true]
  simp only [hq]
  unfold ParseUint
  by_cases hqe : q = []
  · subst hqe; simp [isNumeral]
  · rw [if_neg hqe, parseUintLoop_spec q 0 (by decide)]
    have hne : q.isEmpty = false := by cases q <;> simp at hqe ⊢
    by_cases hall : q.all isDigit = true
    · have htw := takeWhile_of_all isDigit q hall
      simp only [isNumeral, hne, hall, htw, Bool.not_false, Bool.and_self, if_true]
      unfold digitsValue
      by_cases hov : digitsValueFrom 0 q ≥ 2 ^ 64
      · rw [if_pos hov]
        simp only []
        rw [if_pos (by decide)]
        omega
      · rw [if_neg hov]
        simp only []
        split_ifs with h1
        · omega
        · unfold toSigned wrapInt
          split_ifs <;> omega
    · have hv : digitsValue (q.takeWhile isDigit) < 2 ^ 64 := by
        rcases hwf with h | h
        · exact absurd h hall
        · exact h
      unfold digitsValue at hv
      simp only [isNumeral, hall, Bool.and_false, Bool.false_eq_true, if_false]
      rw [if_neg (by omega)]

theorem declaredLen_eq_spec (f : String) (hneg : negativeNumeral f = false)
    (hwf : (numericPrefix f).all isDigit = true ∨
      digitsValue ((numericPrefix f).takeWhile isDigit) < 2 ^ 64) :
    declaredLen f = specDeclaredLen f := by
  unfold negativeNumeral at hneg
  unfold declaredLen Atoi specDeclaredLen
  unfold numericPrefix at hneg hwf ⊢
  generalize TrimRight f.toList 's' = p at hneg hwf ⊢
  cases p with
  | nil => simp [ParseInt, stripSign, isNumeral]
  | cons c cs =>
    by_cases hc : c = '-'
    · subst hc
      have hs : stripSign ('-' :: cs) = cs := by simp [stripSign]
      rw [hs] at hneg hwf ⊢
      rw [ParseInt_neg cs hwf]
      by_cases hnum : isNumeral cs = true
      · have h0 : digitsValue cs = 0 := by
          simp only [List.head?_cons, decide_True, hnum, Bool.and_self, Bool.true_and,
            decide_eq_false_iff_not] at hneg
          omega
        rw [if_pos hnum, if_pos hnum, h0]
        decide
      · rw [if_neg hnum, if_neg hnum]
    · have hs : stripSign (c :: cs) = stripPlus (c :: cs) := by
        simp only [stripSign, stripPlus, hc, or_false]
      rw [hs] at hwf ⊢
      exact ParseInt_spec _ (by simpa using hc) hwf

/-- Claim C12 as stated fails on three kinds of token.  The numeral of
`9223372036854775808s` has the decimal value `2^63`, but `strconv.Atoi` clamps it to
`2^63 - 1`, which is the length `CalcSize` reports.  The prefix of
`99999999999999999999xs` is not a well-formed number, but `strconv.Atoi` reports the range
error of its twenty digits before it sees the `x`, and the length is `2^63 - 1`, not 0.
And `strconv.Atoi` accepts a sign, so the declared length of `-3s` is `-3`, which is
negative. -/
theorem C12_counterexample :
    containsS "9223372036854775808s" = true ∧
      digitsValue (TrimRight ("9223372036854775808s").toList 's') = 2 ^ 63 ∧
      declaredLen "9223372036854775808s" = 2 ^ 63 - 1 ∧
      CalcSize ["9223372036854775808s"] = (2 ^ 63 - 1, none) ∧
      containsS "99999999999999999999xs" = true ∧
      isNumeral (numericPrefix "99999999999999999999xs") = false ∧
      declaredLen "99999999999999999999xs" = 2 ^ 63 - 1 ∧
      containsS "-3s" = true ∧ declaredLen "-3s" = -3 ∧ CalcSize ["-3s"] = (-3, none) := by
  refine ⟨by decide, by decide!, by decide!, by decide!, by decide, by decide!, by decide!,
    by decide, by decide!, by decide!⟩

/-- Claim C12, amended to the tokens `strconv.Atoi` reads as the specification says: let
`f` contain the character `s` (it is then none of the fixed tokens), with a numeric
prefix, the token without its trailing `s` characters and without a leading sign, such
that the token is not a negative number (`-` followed by digits that are not all zero)
and the numeric prefix is either all digits or has leading digits of value below `2^64`.
Then the declared length of `f` is the non-negative integer `specDeclaredLen f`: the
decimal value of the numeric prefix, capped at `2^63 - 1`, or 0 when the prefix is not a
well-formed number.  `CalcSize` reports that length, `Pack`, when it does not panic,
emits that many bytes laid out for the mode, and `UnPack` consumes that many bytes. -/
theorem C12_declared_length (f : String) (hs : containsS f = true)
    (hneg : negativeNumeral f = false)
    (hwf : (numericPrefix f).all isDigit = true ∨
      digitsValue ((numericPrefix f).takeWhile isDigit) < 2 ^ 64) :
    0 ≤ specDeclaredLen f ∧ declaredLen f = specDeclaredLen f ∧
      CalcSize [f] = (specDeclaredLen f, none) ∧
      ∀ (mode : List String) (order : ByteOrder), (mode, order) ∈ modePrefixes →
        (∀ s : List Nat, Pack (mode ++ [f]) [.string s] ≠ .panic →
          Pack (mode ++ [f]) [.string s] =
            .ret (if order = .BigEndian then
                List.replicate ((specDeclaredLen f).toNat - s.length) 0 ++
                  reverse (s.take (specDeclaredLen f).toNat)
              else s.take (specDeclaredLen f).toNat ++
                List.replicate ((specDeclaredLen f).toNat - s.length) 0) none) ∧
        (∀ msg : List Nat, (specDeclaredLen f).toNat ≤ msg.length →
          UnPack (mode ++ [f]) msg =
            .ret [.string (unpackStr order (msg.take (specDeclaredLen f).toNat))] none) := by
  obtain ⟨hr0, hr1⟩ := specDeclaredLen_range f
  have he := declaredLen_eq_spec f hneg hwf
  obtain ⟨ht, hf, hw⟩ := containsS_tok f hs
  have hd : declaredLen f = (((specDeclaredLen f).toNat : Nat) : Int) := by
    rw [he]; omega
  refine ⟨hr0, he, ?_, ?_⟩
  · exact CalcSize_single f _ (by rw [hw, he]) (by constructor <;> omega)
  · intro mode order hm
    constructor
    · intro s hnp
      have hP := Pack_single_str f _ ht hf hd s mode order hm
      by_cases hK : (specDeclaredLen f).toNat ≤ maxAlloc
      · rw [hP, if_pos hK]
      · rw [hP, if_neg hK] at hnp
        exact absurd rfl hnp
    · intro msg hlen
      exact UnPack_single_str f _ (by omega) hs hd msg hlen mode order hm

/-- An instance of C12: the token `+12ss`, with a sign and two trailing `s` characters,
declares 12 bytes. -/
theorem C12_witness :
    declaredLen "+12ss" = 12 ∧ CalcSize ["+12ss"] = (12, none) ∧
      Pack ([] ++ ["+12ss"]) [.string [97, 98]]
        = .ret [97, 98, 0, 0, 0, 0, 0, 0, 0, 0, 0, 0] none ∧
      UnPack ([] ++ ["+12ss"]) [97, 98, 0, 0, 0, 0, 0, 0, 0, 0, 0, 0, 7]
        = .ret [.string [97, 98]] none := by
  obtain ⟨-, h1, h2, h3⟩ :=
    C12_declared_length "+12ss" (by decide) (by decide) (Or.inl (by decide))
  have hs : specDeclaredLen "+12ss" = 12 := by decide
  obtain ⟨h4, h5⟩ := h3 [] .LittleEndian (by decide)
  refine ⟨by rw [h1, hs], by rw [h2, hs], ?_, ?_⟩
  · rw [h4 [97, 98] (by decide), hs]
    decide
  · rw [h5 [97, 98, 0, 0, 0, 0, 0, 0, 0, 0, 0, 0, 7] (by rw [hs]; decide), hs]
    decide

theorem DecodeRune_ne_zero (s0 : Nat) (t : List Nat) (h : 0x80 ≤ s0) :
    (DecodeRune (s0 :: t)).1 ≠ 0 := by
  have h0 : ¬ s0 < 0x80 := by omega
  have hR : RuneError ≠ 0 := by decide
  unfold DecodeRune
  simp only [if_neg h0]
  by_cases h1 : s0 < 0xC2 ∨ 0xF4 < s0
  · simpa only [if_pos h1] using hR
  simp only [if_neg h1]
  cases t with
  | nil => exact hR
  | cons s1 t1 =>
    simp only []
    by_cases h2 : s1 < acceptLo s0 ∨ acceptHi s0 < s1
    · simpa only [if_pos h2] using hR
    simp only [if_neg h2]
    have h2' : acceptLo s0 ≤ s1 := by omega
    have h2h : s1 ≤ 0xBF := by
      have : acceptHi s0 ≤ 0xBF := by unfold acceptHi; split_ifs <;> omega
      omega
    unfold acceptLo at h2'
    by_cases h3 : s0 < 0xE0
    · simp only [if_pos h3]
      omega
    simp only [if_neg h3]
    cases t1 with
    | nil => exact hR
    | cons s2 t2 =>
      simp only []
      by_cases h4 : s2 < 0x80 ∨ 0xBF < s2
      · simpa only [if_pos h4] using hR
      simp only [if_neg h4]
      by_cases h5 : s0 < 0xF0
      · simp only [if_pos h5]
        split_ifs at h2' <;> omega
      simp only [if_neg h5]
      cases t2 with
      | nil => exact hR
      | cons s3 t3 =>
        simp only []
        by_cases h6 : s3 < 0x80 ∨ 0xBF < s3
        · simpa only [if_pos h6] using hR
        simp only [if_neg h6]
        split_ifs at h2' <;> omega

theorem DecodeRune_zeros_width (b k : Nat) :
    (DecodeRune (b :: List.replicate k 0)).2 = 1 := by
  unfold DecodeRune
  by_cases h0 : b < 0x80
  · simp only [if_pos h0]
  simp only [if_neg h0]
  by_cases h1 : b < 0xC2 ∨ 0xF4 < b
  · simp only [if_pos h1]
  simp only [if_neg h1]
  cases k with
  | zero => rfl
  | succ k =>
    have h2 : (0 : Nat) < acceptLo b ∨ acceptHi b < 0 := by
      left; unfold acceptLo; split_ifs <;> omega
    simp only [List.replicate_succ, if_pos h2]

theorem DecodeRune_append (s0 : Nat) (t ys : List Nat)
    (hq : (DecodeRune (s0 :: t)).2 = (s0 :: t).length) (ht : t ≠ []) :
    DecodeRune (s0 :: t ++ ys) = DecodeRune (s0 :: t) := by
  rw [List.cons_append]
  unfold DecodeRune at hq ⊢
  by_cases h0 : s0 < 0x80
  · simp only [if_pos h0]
  simp only [if_neg h0] at hq ⊢
  by_cases h1 : s0 < 0xC2 ∨ 0xF4 < s0
  · simp only [if_pos h1]
  simp only [if_neg h1] at hq ⊢
  cases t with
  | nil => exact absurd rfl ht
  | cons s1 t1 =>
    simp only [List.cons_append] at hq ⊢
    by_cases h2 : s1 < acceptLo s0 ∨ acceptHi s0 < s1
    · simp only [if_pos h2]
    simp only [if_neg h2] at hq ⊢
    by_cases h3 : s0 < 0xE0
    · simp only [if_pos h3]
    simp only [if_neg h3] at hq ⊢
    cases t1 with
    | nil => simp at hq
    | cons s2 t2 =>
      simp only [List.cons_append] at hq ⊢
      by_cases h4 : s2 < 0x80 ∨ 0xBF < s2
      · simp only [if_pos h4]
      simp only [if_neg h4] at hq ⊢
      by_cases h5 : s0 < 0xF0
      · simp only [if_pos h5]
      simp only [if_neg h5] at hq ⊢
      cases t2 with
      | nil => simp at hq
      | cons s3 t3 =>
        simp only [List.cons_append] at hq ⊢

end BinaryPack

namespace Crypto

/-- Claim C20: for every byte string `src` and every block size with
`1 ≤ blockSize ≤ 255`, `PKCS5Padding` returns a padded string and `PKCS5UnPadding` of
it returns `src`. -/
theorem C20_pkcs5_round_trip (src : List Nat) (blockSize : Int) (h1 : 1 ≤ blockSize)
    (h2 : blockSize ≤ 255) :
    ∃ padded, PKCS5Padding src blockSize = some padded ∧
      PKCS5UnPadding padded = some src := by
  have hm : Int.tmod (src.length : Int) blockSize = (src.length : Int) % blockSize :=
    Int.tmod_eq_emod (by omega) (by omega)
  have hm0 : 0 ≤ (src.length : Int) % blockSize := Int.emod_nonneg _ (by omega)
  have hm1 : (src.length : Int) % blockSize < blockSize := Int.emod_lt_of_pos _ (by omega)
  unfold PKCS5Padding
  rw [if_neg (by omega), hm]
  generalize (src.length : Int) % blockSize = r at hm0 hm1
  have hw : BinaryPack.wrapInt (blockSize - r) = blockSize - r := by
    unfold BinaryPack.wrapInt; omega
  simp only [hw]
  rw [if_neg (by omega)]
  obtain ⟨p, hp⟩ : ∃ p : Nat, blockSize - r = (p : Int) := ⟨(blockSize - r).toNat, by omega⟩
  have hp1 : 1 ≤ p := by omega
  have hp2 : p ≤ 255 := by omega
  have hmod : ((p : Int) % 256).toNat = p := by omega
  rw [hp, Int.toNat_ofNat, hmod]
  refine ⟨_, rfl, ?_⟩
  unfold PKCS5UnPadding
  have hlast : (src ++ List.replicate p p).getLast? = some p := by
    obtain ⟨q, rfl⟩ : ∃ q, p = q + 1 := ⟨p - 1, by omega⟩
    rw [List.replicate_succ', ← List.append_assoc, List.getLast?_append]
    simp
  rw [hlast]
  simp only [List.length_append, List.length_replicate]
  rw [if_neg (by push_cast; omega)]
  have ht : (((src.length + p : Nat) : Int) - (p : Int)).toNat = src.length := by
    push_cast; omega
  rw [ht, List.take_left]

theorem C20_witness :
    ∃ padded, PKCS5Padding [1, 2, 3, 4, 5] 8 = some padded ∧
      PKCS5UnPadding padded = some [1, 2, 3, 4, 5] :=
  C20_pkcs5_round_trip [1, 2, 3, 4, 5] 8 (by decide) (by decide)

theorem drop_length_sub_dropWhile (p : Nat → Bool) (s : List Nat) :
    s.drop (s.length - (s.dropWhile p).length) = s.dropWhile p := by
  have h := List.takeWhile_append_dropWhile p s
  have hl : s.length - (s.dropWhile p).length = (s.takeWhile p).length := by
    have := congrArg List.length h
    rw [List.length_append] at this
    omega
  rw [hl]
  exact (congrArg (List.drop (s.takeWhile p).length) h).symm.trans (List.drop_left _ _)

theorem indexFuncLoop_zero (s : List Nat) : ∀ (fuel start : Nat), s.length ≤ fuel →
    indexFuncLoop (fun r => decide (r = 0)) false fuel s start =
      if s.dropWhile (fun b => decide (b = 0)) = [] then -1
      else ((start + (s.length - (s.dropWhile (fun b => decide (b = 0))).length) : Nat) : Int) := by
  induction s with
  | nil => intro fuel start _; cases fuel <;> simp [indexFuncLoop]
  | cons b t ih =>
    intro fuel start hf
    cases fuel with
    | zero => simp at hf
    | succ fuel =>
      simp only [List.length_cons] at hf
      rw [indexFuncLoop]
      by_cases hb : b = 0
      · subst hb
        simp only [ge_iff_le, Nat.reduceLeDiff, if_false, decide_True, Bool.true_eq_false,
          List.drop_succ_cons, List.drop_zero, List.dropWhile_cons, if_true, List.length_cons]
        rw [ih fuel (start + 1) (by omega)]
        have hle : (t.dropWhile (fun b => decide (b = 0))).length ≤ t.length := by
          have := congrArg List.length (List.takeWhile_append_dropWhile
            (fun b => decide (b = 0)) t)
          rw [List.length_append] at this
          omega
        split_ifs
        · rfl
        · congr 1; omega
      · have hr : (if b ≥ 0x80 then BinaryPack.DecodeRune (b :: t) else (b, 1)).1 ≠ 0 := by
          split_ifs with h8
          · exact BinaryPack.DecodeRune_ne_zero b t h8
          · exact hb
        rw [if_pos (by simpa using hr)]
        simp [List.dropWhile_cons, hb]

theorem TrimLeftFunc_zero (s : List Nat) :
    TrimLeftFunc s (fun r => decide (r = 0)) = s.dropWhile (fun b => decide (b = 0)) := by
  unfold TrimLeftFunc indexFunc
  rw [indexFuncLoop_zero s s.length 0 (Nat.le_refl _)]
  by_cases h : s.dropWhile (fun b => decide (b = 0)) = []
  · simp [h]
  · rw [if_neg h, if_neg (by omega)]
    simp only [Nat.zero_add, Int.toNat_ofNat]
    exact drop_length_sub_dropWhile _ s


theorem lastRuneStart_le (p : List Nat) (lim : Int) : ∀ (fuel : Nat) (start : Int),
    lastRuneStart p lim fuel start ≤ start := by
  intro fuel
  induction fuel with
  | zero => intro start; exact Int.le_refl _
  | succ fuel ih =>
    intro start
    rw [lastRuneStart]
    split_ifs
    · exact Int.le_refl _
    · have := ih (start - 1); omega
    · exact Int.le_refl _

theorem DecodeLastRune_spec (p : List Nat) (m : Nat) (hlen : p.length = m + 1)
    (hb : 0x80 ≤ p.getD m 0) :
    (DecodeLastRune p).1 ≠ 0 ∧ 1 ≤ (DecodeLastRune p).2 ∧ (DecodeLastRune p).2 ≤ m + 1 ∧
      0x80 ≤ p.getD (m + 1 - (DecodeLastRune p).2) 0 ∧
      ∀ k, (BinaryPack.DecodeRune
        (p.drop (m + 1 - (DecodeLastRune p).2) ++ List.replicate k 0)).2
          = (DecodeLastRune p).2 := by
  have hR : BinaryPack.RuneError ≠ 0 := by decide
  have hdm : p.drop m = [p.getD m 0] := by
    rw [List.drop_eq_getElem_cons (by omega), List.getD_eq_getElem p 0 (by omega),
      List.drop_of_length_le (by omega)]
  have hle := lastRuneStart_le p (if (p.length : Int) - 4 < 0 then 0 else (p.length : Int) - 4)
    4 ((p.length : Int) - 2)
  unfold DecodeLastRune
  rw [if_neg (by omega), hlen, Nat.add_sub_cancel, if_neg (by omega)]
  rw [hlen] at hle
  simp only []
  generalize lastRuneStart p _ 4 _ = st0 at hle ⊢
  obtain ⟨n, hn, hnm⟩ : ∃ n : Nat, (if st0 < 0 then 0 else st0) = (n : Int) ∧ n ≤ m := by
    by_cases h : st0 < 0
    · exact ⟨0, by rw [if_pos h]; rfl, Nat.zero_le _⟩
    · refine ⟨st0.toNat, by rw [if_neg h]; omega, ?_⟩
      push_cast at hle
      omega
  rw [hn, Int.toNat_ofNat]
  have hnl : n < p.length := by omega
  have hdn : p.drop n = p.getD n 0 :: p.drop (n + 1) := by
    have hg : p.getD n 0 = p[n] := List.getD_eq_getElem p 0 hnl
    rw [hg]
    exact List.drop_eq_getElem_cons hnl
  have hsz := BinaryPack.DecodeRune_size (p.getD n 0) (p.drop (n + 1))
  rw [← hdn] at hsz
  have hdl : (p.drop n).length = m + 1 - n := by rw [List.length_drop, hlen]
  by_cases hm : (n : Int) + ((BinaryPack.DecodeRune (p.drop n)).2 : Int) ≠ ((m + 1 : Nat) : Int)
  · rw [if_pos hm]
    refine ⟨hR, Nat.le_refl _, by omega, ?_, ?_⟩
    · simpa using hb
    · intro k
      simp only [Nat.add_sub_cancel, hdm, List.singleton_append]
      exact BinaryPack.DecodeRune_zeros_width _ _
  · rw [if_neg hm]
    have hsize : (BinaryPack.DecodeRune (p.drop n)).2 = m + 1 - n := by
      push_cast at hm; omega
    have hidx : m + 1 - (BinaryPack.DecodeRune (p.drop n)).2 = n := by omega
    have h0 : 0x80 ≤ p.getD n 0 := by
      by_contra hlt
      have h1 : (BinaryPack.DecodeRune (p.drop n)).2 = 1 := by
        rw [hdn]
        simp only [BinaryPack.DecodeRune, if_pos (show p.getD n 0 < 0x80 by omega)]
      have hnm' : n = m := by omega
      rw [hnm'] at hlt
      exact hlt hb
    refine ⟨?_, hsz.1, by omega, ?_, ?_⟩
    · rw [hdn]; exact BinaryPack.DecodeRune_ne_zero _ _ h0
    · rw [hidx]; exact h0
    · intro k
      rw [hidx]
      by_cases hrest : p.drop (n + 1) = []
      · have h1 : (BinaryPack.DecodeRune (p.drop n)).2 = 1 := by
          have := hsz.2
          rw [hdn, hrest] at this
          simp only [List.length_singleton] at this
          rw [hdn, hrest]
          have h2 := (BinaryPack.DecodeRune_size (p.getD n 0) []).1
          omega
        rw [h1, hdn, hrest, List.singleton_append]
        exact BinaryPack.DecodeRune_zeros_width _ _
      · have hq : (BinaryPack.DecodeRune (p.getD n 0 :: p.drop (n + 1))).2
            = (p.getD n 0 :: p.drop (n + 1)).length := by
          rw [← hdn, hsize, hdl]
        rw [hdn, BinaryPack.DecodeRune_append _ _ _ hq hrest]

theorem getD_replicate_zero (k j : Nat) : (List.replicate k 0).getD j 0 = 0 := by
  by_cases h : j < k
  · rw [List.getD_eq_getElem _ _ (by simpa using h), List.getElem_replicate]
  · rw [List.getD_eq_default _ _ (by simpa using h)]

theorem lastIndexFuncLoop_zeros (core : List Nat) (k : Nat) : ∀ (j fuel : Nat),
    lastIndexFuncLoop (core ++ List.replicate k 0) (fun r => decide (r = 0)) false (fuel + j)
        ((core.length + j : Nat) : Int)
      = lastIndexFuncLoop (core ++ List.replicate k 0) (fun r => decide (r = 0)) false fuel
        (core.length : Int) := by
  intro j
  induction j with
  | zero => intro fuel; rfl
  | succ j ih =>
    intro fuel
    have hi : (((core.length + (j + 1) : Nat) : Int) - 1).toNat = core.length + j := by
      push_cast; omega
    have hz : (core ++ List.replicate k 0).getD (core.length + j) 0 = 0 := by
      rw [List.getD_append_right _ _ _ _ (by omega), getD_replicate_zero]
    rw [← Nat.add_assoc, lastIndexFuncLoop, if_pos (by push_cast; omega), hi, hz]
    simp only [ge_iff_le, Nat.reduceLeDiff, if_false, decide_True, Bool.true_eq_false]
    have hi2 : ((core.length + (j + 1) : Nat) : Int) - ((1 : Nat) : Int)
        = ((core.length + j : Nat) : Int) := by push_cast; omega
    rw [hi2, ih]

theorem TrimRightFunc_zero (core : List Nat) (k : Nat) (h : core.getLast? ≠ some 0) :
    TrimRightFunc (core ++ List.replicate k 0) (fun r => decide (r = 0)) = core := by
  have hV : lastIndexFunc (core ++ List.replicate k 0) (fun r => decide (r = 0)) false
      = lastIndexFuncLoop (core ++ List.replicate k 0) (fun r => decide (r = 0)) false
        core.length (core.length : Int) := by
    unfold lastIndexFunc
    rw [List.length_append, List.length_replicate]
    exact lastIndexFuncLoop_zeros core k k core.length
  unfold TrimRightFunc
  rw [hV]
  rcases List.eq_nil_or_concat core with rfl | ⟨c, b, rfl⟩
  · simp [lastIndexFuncLoop]
  · rw [List.concat_eq_append] at h ⊢
    have hb : b ≠ 0 := by
      intro hb0; apply h; rw [List.getLast?_concat, hb0]
    have hlen : (c ++ [b]).length = c.length + 1 := by simp
    have hget : ((c ++ [b]) ++ List.replicate k 0).getD c.length 0 = b := by
      rw [List.getD_append _ _ _ _ (by rw [hlen]; omega),
        List.getD_append_right _ _ _ _ (Nat.le_refl _)]
      simp
    have htake : ((c ++ [b]) ++ List.replicate k 0).take (c.length + 1) = c ++ [b] :=
      List.take_left' hlen
    have hi : (((c.length + 1 : Nat) : Int) - 1).toNat = c.length := by push_cast; omega
    have hstep : lastIndexFuncLoop ((c ++ [b]) ++ List.replicate k 0)
        (fun r => decide (r = 0)) false (c.length + 1) ((c.length + 1 : Nat) : Int)
        = ((c.length + 1 : Nat) : Int)
          - (((if b ≥ 0x80 then DecodeLastRune (c ++ [b]) else (b, 1)).2 : Nat) : Int) := by
      have hr : (if b ≥ 0x80 then DecodeLastRune (c ++ [b]) else (b, 1)).1 ≠ 0 := by
        split_ifs with h8
        · exact (DecodeLastRune_spec (c ++ [b]) c.length hlen
            (by rw [List.getD_append_right _ _ _ _ (Nat.le_refl _)]; simpa using h8)).1
        · exact hb
      rw [lastIndexFuncLoop,
        if_pos (show ((c.length + 1 : Nat) : Int) > 0 by push_cast; omega), hi, hget,
        Int.toNat_ofNat, htake]
      rw [if_pos (show decide ((if b ≥ 0x80 then DecodeLastRune (c ++ [b]) else (b, 1)).1 = 0)
        = false by simpa using hr)]
    rw [hlen, hstep]
    by_cases h8 : b ≥ 0x80
    · obtain ⟨-, s2, s3, s4, s5⟩ := DecodeLastRune_spec (c ++ [b]) c.length hlen
        (by rw [List.getD_append_right _ _ _ _ (Nat.le_refl _)]; simpa using h8)
      simp only [if_pos h8]
      have hidx : (((c.length + 1 : Nat) : Int) - ((DecodeLastRune (c ++ [b])).2 : Int)).toNat
          = c.length + 1 - (DecodeLastRune (c ++ [b])).2 := by push_cast; omega
      have hcond : ((c.length + 1 : Nat) : Int) - ((DecodeLastRune (c ++ [b])).2 : Int) ≥ 0 ∧
          ((c ++ [b]) ++ List.replicate k 0).getD
            (((c.length + 1 : Nat) : Int) - ((DecodeLastRune (c ++ [b])).2 : Int)).toNat 0
              ≥ 0x80 := by
        refine ⟨by push_cast; omega, ?_⟩
        rw [hidx, List.getD_append _ _ _ _ (by rw [hlen]; omega)]
        exact s4
      rw [if_pos hcond, hidx]
      have hdrop : ((c ++ [b]) ++ List.replicate k 0).drop
          (c.length + 1 - (DecodeLastRune (c ++ [b])).2)
          = (c ++ [b]).drop (c.length + 1 - (DecodeLastRune (c ++ [b])).2)
            ++ List.replicate k 0 := by
        rw [List.drop_append_eq_append_drop, hlen]
        have : c.length + 1 - (DecodeLastRune (c ++ [b])).2 - (c.length + 1) = 0 := by omega
        rw [this, List.drop_zero]
      rw [hdrop, s5 k]
      have : (((c.length + 1 : Nat) : Int) - ((DecodeLastRune (c ++ [b])).2 : Int)
          + ((DecodeLastRune (c ++ [b])).2 : Int)).toNat = c.length + 1 := by
        push_cast; omega
      rw [this, htake]
    · simp only [if_neg h8]
      have h1 : ((c.length + 1 : Nat) : Int) - ((1 : Nat) : Int) = (c.length : Int) := by
        push_cast; omega
      rw [h1, Int.toNat_ofNat, hget]
      rw [if_neg (show ¬ ((c.length : Int) ≥ 0 ∧ b ≥ 0x80) by omega)]
      have : ((c.length : Int) + 1).toNat = c.length + 1 := by omega
      rw [this, htake]

theorem dropWhile_replicate_zero (k : Nat) :
    (List.replicate k 0).dropWhile (fun b => decide (b = 0)) = [] := by
  rw [List.dropWhile_eq_nil_iff]
  intro x hx
  simp [(List.mem_replicate.mp hx).2]

theorem ZeroUnPadding_append_zeros (src : List Nat) (k : Nat) (hs : src.getLast? ≠ some 0) :
    ZeroUnPadding (src ++ List.replicate k 0) = src.dropWhile (fun b => decide (b = 0)) := by
  have hlast : (src.dropWhile (fun b => decide (b = 0))).getLast? ≠ some 0 := by
    intro hd
    apply hs
    rw [← List.takeWhile_append_dropWhile (fun b => decide (b = 0)) src, List.getLast?_append,
      hd]
    rfl
  unfold ZeroUnPadding TrimFunc
  rw [TrimLeftFunc_zero, List.dropWhile_append]
  by_cases he : src.dropWhile (fun b => decide (b = 0)) = []
  · rw [he] at hlast ⊢
    simp only [List.isEmpty_nil, if_true]
    rw [dropWhile_replicate_zero]
    exact TrimRightFunc_zero [] 0 hlast
  · have hne : (src.dropWhile (fun b => decide (b = 0))).isEmpty = false := by
      cases hd : src.dropWhile (fun b => decide (b = 0)) with
      | nil => exact absurd hd he
      | cons a l => rfl
    rw [hne]
    simp only [Bool.false_eq_true, if_false]
    exact TrimRightFunc_zero _ k hlast

theorem dropWhile_eq_self_iff (src : List Nat) :
    src.dropWhile (fun b => decide (b = 0)) = src ↔ src.head? ≠ some 0 := by
  cases src with
  | nil => simp
  | cons b t =>
    by_cases hb : b = 0
    · subst hb
      simp only [List.dropWhile_cons, decide_True, if_true, List.head?_cons, ne_eq,
        not_true_eq_false, iff_false]
      intro h
      have hl := congrArg List.length h
      have := congrArg List.length (List.takeWhile_append_dropWhile
        (fun b => decide (b = 0)) t)
      rw [List.length_append] at this
      rw [List.length_cons] at hl
      omega
    · simp [List.dropWhile_cons, hb]

/-- Claim C21 fails on leading zero bytes.  For every block size `blockSize ≥ 1` (a Go
`int`) and every byte string `src` that is empty or whose last byte is non-zero,
`ZeroPadding` returns a padded string, and `ZeroUnPadding` of it is `src` without its
leading zero bytes, because `bytes.TrimFunc` trims both ends.  So the round trip returns
`src` exactly when `src` does not start with a zero byte. -/
theorem C21_zero_unpadding_strips_leading_zeros (src : List Nat) (blockSize : Int)
    (h1 : 1 ≤ blockSize) (h2 : blockSize < 2 ^ 63) (hs : src.getLast? ≠ some 0) :
    ∃ padded, ZeroPadding src blockSize = some padded ∧
      ZeroUnPadding padded = src.dropWhile (fun b => b = 0) ∧
      (ZeroUnPadding padded = src ↔ src.head? ≠ some 0) := by
  have hm : Int.tmod (src.length : Int) blockSize = (src.length : Int) % blockSize :=
    Int.tmod_eq_emod (by omega) (by omega)
  have hm0 : 0 ≤ (src.length : Int) % blockSize := Int.emod_nonneg _ (by omega)
  have hm1 : (src.length : Int) % blockSize < blockSize := Int.emod_lt_of_pos _ (by omega)
  unfold ZeroPadding
  rw [if_neg (by omega), hm]
  generalize (src.length : Int) % blockSize = r at hm0 hm1
  have hw : BinaryPack.wrapInt (blockSize - r) = blockSize - r := by
    unfold BinaryPack.wrapInt; omega
  simp only [hw]
  rw [if_neg (by omega)]
  refine ⟨_, rfl, ZeroUnPadding_append_zeros src _ hs, ?_⟩
  rw [ZeroUnPadding_append_zeros src _ hs]
  exact dropWhile_eq_self_iff src

/-- The failing input of C21: `{0, 1}` padded to a block of 8 comes back as `{1}`. -/
theorem C21_witness :
    ZeroPadding [0, 1] 8 = some [0, 1, 0, 0, 0, 0, 0, 0] ∧
      ZeroUnPadding [0, 1, 0, 0, 0, 0, 0, 0] = [1] ∧
      ZeroUnPadding [0, 1, 0, 0, 0, 0, 0, 0] ≠ [0, 1] := by
  obtain ⟨padded, hp, hu, -⟩ :=
    C21_zero_unpadding_strips_leading_zeros [0, 1] 8 (by decide) (by decide) (by decide)
  have he : ZeroPadding [0, 1] 8 = some [0, 1, 0, 0, 0, 0, 0, 0] := by decide
  rw [he] at hp
  rw [← Option.some.inj hp] at hu
  exact ⟨he, hu, by rw [hu]; decide⟩

end Crypto
